import Mathlib

/-!
Verification of the honeybees spatial-hashing neighbor-query engine
(`honeybees/library/neighbors.py`) against its natural-language
specification.

The Python source is shallowly embedded below.  NumPy arrays become
`List`s, unsigned machine integers become `ℕ` with explicit wraparound
(`wsub`) where the source can underflow, signed quantities become `ℤ`,
and the stream of values produced by `np.random.randint` becomes an
explicit list of draws.  The geohash codec (`honeybees/library/geohash.py`)
is not part of the sources under verification (only its callers and tests
are), so its operations are modelled from the specification; every such
definition carries a doc comment starting with `Modelled from the spec:`.

`np.argsort` uses an unstable sort; we model a concrete (stable insertion)
sort order and use inputs with pairwise-distinct keys wherever the tie
order could matter.
-/

namespace Honeybees

/-! ### Generic list helpers (NumPy primitives) -/

/-- `np.searchsorted(a, v)` with the default `side='left'`: the first
index at which `v` could be inserted keeping `a` sorted.  The source
computes this with a binary search; on sorted input a linear scan returns
the same index, and we use the simpler form. -/
def searchsorted (a : List ℤ) (v : ℤ) : ℕ :=
  match a with
  | [] => 0
  | x :: xs => if v ≤ x then 0 else searchsorted xs v + 1

/-- Insert index `i` into an index list sorted by `key`, after all entries
with a key `≤ key i` (stable insertion). -/
def insertByKey (key : ℕ → ℤ) (i : ℕ) : List ℕ → List ℕ
  | [] => [i]
  | j :: js => if key i < key j then i :: j :: js else j :: insertByKey key i js

/-- `np.argsort(keys)`: indices that sort `keys`.  NumPy's default sort is
unstable; we model the stable insertion-sort order. -/
def argsort (keys : List ℤ) : List ℕ :=
  (List.range keys.length).foldl (fun acc i => insertByKey (fun j => keys.getD j 0) i acc) []

/-- Fancy indexing `xs[ids]` (reads out of range yield `0`, a case the
stated theorems exclude by hypothesis). -/
def gather (xs : List ℤ) (ids : List ℕ) : List ℤ :=
  ids.map (fun i => xs.getD i 0)

/-- Walk a sorted list collecting, for each distinct value, the value and
the position of its first occurrence (`np.unique(..., return_index=True)`
on sorted input). -/
def uniqueSortedAux (pos : ℕ) (prev : Option ℤ) : List ℤ → List (ℤ × ℕ)
  | [] => []
  | x :: xs =>
    if prev = some x then uniqueSortedAux (pos + 1) (some x) xs
    else (x, pos) :: uniqueSortedAux (pos + 1) (some x) xs

/-- Unique values of a sorted list together with first-occurrence indices. -/
def uniqueSorted (xs : List ℤ) : List (ℤ × ℕ) :=
  uniqueSortedAux 0 none xs

/-- Scatter assignment `out[perm[i]] = i` over `i < perm.length`
(`inverse_idx[argsort(...)] = arange(...)`). -/
def scatterInv (perm : List ℕ) : List ℤ :=
  (List.range perm.length).foldl (fun acc i => acc.set (perm.getD i 0) (i : ℤ))
    (List.replicate perm.length 0)

/-- Membership test of a value in an integer id list (`np.isin` on one
element). -/
def isinVal (v : ℤ) (ids : List ℕ) : Bool :=
  ids.any (fun t => (t : ℤ) = v)

/-- Stable ascending sort of an integer list (`np.sort`). -/
def sortInts (xs : List ℤ) : List ℤ :=
  (argsort xs).map (fun i => xs.getD i 0)

/-- Wraparound subtraction of unsigned machine integers of width `w`
(`2 ^ w` values): the value the source's NumPy unsigned arithmetic
produces for `a - b`.  For `a, b < 2 ^ w` and `b ≤ a` it equals `a - b`. -/
def wsub (w a b : ℕ) : ℕ :=
  (a + (2 ^ w - b % 2 ^ w)) % 2 ^ w

/-! ### Spec-modelled geohash codec

`honeybees/library/geohash.py` is absent from the sources under
verification, so the operations the neighbor engine calls are modelled
from the specification (section 4.1 "Codec").  Coordinates are modelled
at integer (fixed-point) precision, which the behaviors settled here do
not depend on; the cell-code layout is the orthogonal row-major scheme
(`code = row * ncells + col`), standing in for any injective cell-to-code
assignment — the claims settled through this model do not depend on the
specific bit layout. -/

/-- Bounding box shared by all entities of one query. -/
structure Bbox where
  minx : ℤ
  maxx : ℤ
  miny : ℤ
  maxy : ℤ
deriving DecidableEq, Repr

/-- Number of cells per axis at `bits` total precision (half the bits per
axis). -/
def ncellsPerAxis (bits : ℕ) : ℕ := 2 ^ (bits / 2)

/-- Cell width along x, in coordinate units. -/
def cellWx (bb : Bbox) (bits : ℕ) : ℤ := (bb.maxx - bb.minx) / (ncellsPerAxis bits : ℤ)

/-- Cell height along y, in coordinate units. -/
def cellWy (bb : Bbox) (bits : ℕ) : ℤ := (bb.maxy - bb.miny) / (ncellsPerAxis bits : ℤ)

/-- Modelled from the spec: `encode(coord, bits, bbox)` quantizes `(x, y)`
into `bits`-wide cells.  The source encodes at full precision and then
masks low bits down to `bits` (`reduce_precision`); we model the
composition, producing the cell code at precision `bits` directly. -/
def encodeCoord (bb : Bbox) (bits : ℕ) (x y : ℤ) : ℤ :=
  let col := (x - bb.minx) / cellWx bb bits
  let row := (y - bb.miny) / cellWy bb bits
  row * (ncellsPerAxis bits : ℤ) + col

/-- Modelled from the spec: `decode(code, bits, bbox)` returns the
canonical representative point of the cell — its lower-left corner. -/
def decodeCorner (bb : Bbox) (bits : ℕ) (code : ℤ) : ℤ × ℤ :=
  (bb.minx + (code % (ncellsPerAxis bits : ℤ)) * cellWx bb bits,
   bb.miny + (code / (ncellsPerAxis bits : ℤ)) * cellWy bb bits)

/-- Closed-interval overlap of one cell index range with the radius window
along one axis: cell `tc` (covering `[tc*w, (tc+1)*w]` relative to the
box origin) meets `[p - r, p + r]` where `p` is the coordinate relative
to the origin. -/
def cellMeets (w p r : ℤ) (tc : ℤ) : Bool :=
  tc * w ≤ p + r && p - r ≤ (tc + 1) * w

/-- Modelled from the spec: `get_shifts` lists the `(dx, dy)` cell offsets
whose cells lie inside the bounding box and intersect the square of
`radius` around the coordinate. -/
def getShifts (bb : Bbox) (bits : ℕ) (x y radius : ℤ) : List (ℤ × ℤ) :=
  let wx := cellWx bb bits
  let wy := cellWy bb bits
  let n : ℤ := (ncellsPerAxis bits : ℤ)
  let col := (x - bb.minx) / wx
  let row := (y - bb.miny) / wy
  let kx := radius / wx + 1
  let ky := radius / wy + 1
  let dxs := (List.range (2 * kx.toNat + 3)).filterMap (fun t =>
    let dx : ℤ := (t : ℤ) - (kx + 1)
    if 0 ≤ col + dx && col + dx < n && cellMeets wx (x - bb.minx) radius (col + dx)
    then some dx else none)
  let dys := (List.range (2 * ky.toNat + 3)).filterMap (fun t =>
    let dy : ℤ := (t : ℤ) - (ky + 1)
    if 0 ≤ row + dy && row + dy < n && cellMeets wy (y - bb.miny) radius (row + dy)
    then some dy else none)
  dys.flatMap (fun dy => dxs.map (fun dx => (dx, dy)))

/-- Modelled from the spec: `shift(code, bits, dx, dy)` is the code of the
cell offset by `(dx, dy)` cells; `shift_multiple` applies a list of
shifts. -/
def shiftMultiple (bits : ℕ) (code : ℤ) (shifts : List (ℤ × ℤ)) : List ℤ :=
  shifts.map (fun s => code + s.2 * (ncellsPerAxis bits : ℤ) + s.1)

/-- Modelled from the spec: `encode_locations` bulk-encodes an `N×2`
coordinate array into a freshly allocated hashcode array.  The spec makes
`encode` fail when `bits` exceeds the capacity of the chosen integer
width (64-bit codes); that check is modelled here. -/
def encodeLocations (bb : Bbox) (bits : ℕ) (locs : List (ℤ × ℤ)) : Option (List ℤ) :=
  if bits ≤ 64 then some (locs.map (fun (p : ℤ × ℤ) => encodeCoord bb bits p.1 p.2)) else none

/-- Modelled from the spec: `reduce_precision(codes, bits)` masks low bits
to coarsen codes to precision `bits`; on codes already encoded at
precision `bits` (the only way it is reached in `find_neighbors`, since
`encodeLocations` models the fused encode-and-reduce) it leaves every
code unchanged.  The `inplace` flag of the source controls buffer reuse
only, which the heap model below tracks. -/
def reducePrecision (codes : List ℤ) (bits : ℕ) : List ℤ :=
  let _ := bits
  codes

/-! ### `find_neighbors` driver: index-width selection -/

/-- Width selection of `find_neighbors` (`neighbors.py` lines 262-266):
`uint32` unless the entity count exceeds `np.iinfo(np.uint32).max - 1`
(the maximum is reserved as the no-neighbor sentinel), else `uint64`. -/
def chooseDtypeBits (nLocations : ℕ) : ℕ :=
  if nLocations ≤ 2 ^ 32 - 2 then 32 else 64

/-- Sentinel (`nanvalue`) of an unsigned width: its maximum value. -/
def nanvalue (w : ℕ) : ℕ := 2 ^ w - 1

/-! ### `process_hashcodes` (`neighbors.py` lines 152-218) -/

/-- Python / NumPy wraparound indexing: a negative index `i` reads
position `len + i`.  Reads that remain out of range yield the default
(the compiled kernel's behavior there is undefined; the corresponding
theorems exclude it by hypothesis). -/
def getWrapD (a : List ℤ) (i : ℤ) (d : ℤ) : ℤ :=
  if i < 0 then a.getD (a.length - (-i).toNat) d else a.getD i.toNat d

/-- Wraparound indexing into a `ℕ`-valued list. -/
def getWrapND (a : List ℕ) (i : ℤ) (d : ℕ) : ℕ :=
  if i < 0 then a.getD (a.length - (-i).toNat) d else a.getD i.toNat d

/-- The tables `process_hashcodes` returns, in source order. -/
structure HashTables where
  search_target_unique_hashcodes : List ℤ
  search_source_unique_hashcodes : List ℤ
  search_target_hashcodes_sort_indices : List ℕ
  cumulative_count_per_search_hashcode : List ℕ
  search_source_cumulative_counts_per_hashcode : List ℕ
  map_search_source_to_target : List ℤ
  search_source_hashcodes_sort_indices : List ℕ
deriving Repr, DecidableEq

/-- Embedding of `process_hashcodes` (defaulted ids already resolved to
index lists by the caller, as the first lines of the source do). -/
def process_hashcodes (location_hashcodes : List ℤ)
    (search_ids search_target_ids : List ℕ) : HashTables :=
  let search_target_hashcodes := gather location_hashcodes search_target_ids
  let tsort := argsort search_target_hashcodes
  let sorted_target := gather search_target_hashcodes tsort
  let tuniq := uniqueSorted sorted_target
  let cum_t := tuniq.map Prod.snd ++ [sorted_target.length]
  let search_source_hashcodes := gather location_hashcodes search_ids
  let ssort := argsort search_source_hashcodes
  let source_ids_sorted := ssort.map (fun i => search_ids.getD i 0)
  let sorted_source := gather search_source_hashcodes ssort
  let suniq := uniqueSorted sorted_source
  let cum_s := suniq.map Prod.snd ++ [sorted_source.length]
  let inverse_idx := scatterInv (argsort location_hashcodes)
  let inverse_masked := inverse_idx.map (fun v => if isinVal v search_target_ids then v else -1)
  let mapst := source_ids_sorted.map (fun i => inverse_masked.getD i 0)
  { search_target_unique_hashcodes := tuniq.map Prod.fst
    search_source_unique_hashcodes := suniq.map Prod.fst
    search_target_hashcodes_sort_indices := tsort
    cumulative_count_per_search_hashcode := cum_t
    search_source_cumulative_counts_per_hashcode := cum_s
    map_search_source_to_target := mapst
    search_source_hashcodes_sort_indices := ssort }

/-! ### `find_neighbors_numba` kernel (`neighbors.py` lines 8-150)

The kernel is embedded piecewise: the per-unique-source-code table
construction (lines 44-74), the bucket lookup `find_neighbor_search_count_index`
(lines 8-14), the pool-position-to-sorted-pool-position mapping
(lines 100-104 and duplicates), the two sampling variants (lines 92-130),
the direct-enumeration branch (lines 136-149), and the assembly loop. -/

/-- One `(start, count)` row of the preallocated `search_counts` array
(its third, cumulative column is attached after the walk, as in the
source). -/
abbrev CountRow := ℕ × ℕ

/-- State of the candidate-cell walk of lines 46-69. -/
structure WalkState where
  counts : List CountRow
  search_count_index : ℕ
  index : ℤ
  previous : ℤ
  self_index : ℕ
  broken : Bool
deriving Repr, DecidableEq

/-- Initial walk state: `index = -1`, `search_count_index = 0`,
`previous_neighbor_geohash = 0`, zeroed `search_counts` (`self_index`
starts as an arbitrary value, `0`; the source leaves it undefined until
the self cell is seen). -/
def walkInit (ncand : ℕ) : WalkState :=
  { counts := List.replicate ncand (0, 0)
    search_count_index := 0
    index := -1
    previous := 0
    self_index := 0
    broken := false }

/-- Add `cum[index+1] - cum[index]` (unsigned arithmetic of width `W`) to
the count of entry `i` (lines 54 and 64). -/
def bumpCount (W : ℕ) (cum : List ℕ) (idx : ℤ) (counts : List CountRow) (i : ℕ) :
    List CountRow :=
  let e := counts.getD i (0, 0)
  counts.set i (e.1, (e.2 + wsub W (getWrapND cum (idx + 1) 0) (getWrapND cum idx 0)) % 2 ^ W)

/-- One iteration of the walk over a candidate cell code `g`
(lines 49-69), including the `break` statements (modelled by the
`broken` flag, which freezes the state). -/
def walkStep (W : ℕ) (tuniq : List ℤ) (cum : List ℕ) (selfCode : ℤ)
    (st : WalkState) (g : ℤ) : WalkState :=
  if st.broken then st else
  let n : ℤ := (tuniq.length : ℤ)
  if g = st.previous + 1 then
    if st.index = n then { st with broken := true } else
    let st1 :=
      if getWrapD tuniq st.index 0 = g then
        { st with counts := bumpCount W cum st.index st.counts st.search_count_index
                  index := st.index + 1 }
      else st
    let st2 := if g = selfCode then { st1 with self_index := st1.search_count_index } else st1
    { st2 with previous := g }
  else
    let sci' := if (st.counts.getD st.search_count_index (0, 0)).2 ≠ 0 then
        st.search_count_index + 1 else st.search_count_index
    let idx := searchsorted tuniq g
    if (idx : ℤ) = n then { st with search_count_index := sci', broken := true } else
    let e := (st.counts.getD sci' (0, 0))
    let countsA := st.counts.set sci' (cum.getD idx 0, e.2)
    let st1 :=
      if tuniq.getD idx 0 = g then
        { st with counts := bumpCount W cum (idx : ℤ) countsA sci'
                  search_count_index := sci'
                  index := (idx : ℤ) + 1 }
      else
        { st with counts := countsA, search_count_index := sci', index := (idx : ℤ) }
    let st2 := if g = selfCode then { st1 with self_index := st1.search_count_index } else st1
    { st2 with previous := g }

/-- Attach the cumulative third column (line 74). -/
def withCumsum (rows : List CountRow) : List (ℕ × ℕ × ℕ) :=
  (rows.foldl (fun (acc : List (ℕ × ℕ × ℕ) × ℕ) e =>
      (acc.1 ++ [(e.1, e.2, acc.2 + e.2)], acc.2 + e.2)) ([], 0)).1

/-- The walk of lines 44-74 for one unique source hash code: runs
`walkStep` over the sorted candidate codes, trims the table (dropping the
trailing zero-count entry, lines 71-73) and attaches the cumulative
column.  Returns the finished table and the recorded self-cell index. -/
def buildSearchCounts (W : ℕ) (tuniq : List ℤ) (cum : List ℕ) (selfCode : ℤ)
    (cands : List ℤ) : List (ℕ × ℕ × ℕ) × ℕ :=
  let st := cands.foldl (walkStep W tuniq cum selfCode) (walkInit cands.length)
  let rows :=
    if (st.counts.getD st.search_count_index (0, 0)).2 = 0 then
      st.counts.take st.search_count_index
    else
      st.counts.take (st.search_count_index + 1)
  (withCumsum rows, st.self_index)

/-- `find_neighbor_search_count_index` (lines 8-14): scanning downward
from `search_count_index`, the first entry whose cumulative count is
`≤ r` yields its successor index; if none is found the loop runs out at
`0`. -/
def find_neighbor_search_count_index (search_counts : List (ℕ × ℕ × ℕ))
    (search_count_index : ℕ) (r : ℕ) : ℕ :=
  if (search_counts.getD search_count_index (0, 0, 0)).2.2 ≤ r then
    search_count_index + 1
  else
    match search_count_index with
    | 0 => 0
    | s + 1 => find_neighbor_search_count_index search_counts s r

/-- Map a pool-relative candidate position `r` to its absolute position in
the sorted target pool (lines 100-104 and their copies): locate the
bucket via `find_neighbor_search_count_index`, then offset from the
bucket's start, subtracting the preceding cumulative count (unsigned
width-`W` arithmetic). -/
def poolToAbs (W : ℕ) (search_counts : List (ℕ × ℕ × ℕ)) (search_count_index : ℕ)
    (r : ℕ) : ℕ :=
  let i := find_neighbor_search_count_index search_counts search_count_index r
  if i = 0 then ((search_counts.getD 0 (0, 0, 0)).1 + r) % 2 ^ W
  else wsub W ((search_counts.getD i (0, 0, 0)).1 + r)
    ((search_counts.getD (i - 1) (0, 0, 0)).2.2)

/-- The self-exclusion remap of lines 97-98 (`if r >= sti: r += 1`).  The
threshold is the `search_target_agent_index` of line 89, an `int64`
quantity that can be negative when the source entity is absent from the
target pool. -/
def remapSelf (sti : ℤ) (r : ℕ) : ℕ :=
  if sti ≤ (r : ℤ) then r + 1 else r

/-- Sampling loop, linear-scan collision strategy (`n_neighbor <= 20`,
lines 95-130 with the `for k in range(i)` duplicate scan): one iteration
per element of `draws`; the `d % (J + 1)` realizes
`np.random.randint(0, J + 1)` for the supplied stream of draws. -/
def sampleScan (W : ℕ) (search_counts : List (ℕ × ℕ × ℕ)) (search_count_index : ℕ)
    (sti : ℤ) : ℕ → List ℕ → List ℕ → List ℕ
  | _, acc, [] => acc
  | J, acc, d :: ds =>
    let r := remapSelf sti (d % (J + 1))
    let nb := poolToAbs W search_counts search_count_index r
    let nb' := if acc.contains nb then
        poolToAbs W search_counts search_count_index (remapSelf sti J)
      else nb
    sampleScan W search_counts search_count_index sti (J + 1) (acc ++ [nb']) ds

/-- Sampling loop, set-based collision strategy (`n_neighbor > 20`,
lines 92-115 with `selected_agents`). -/
def sampleSet (W : ℕ) (search_counts : List (ℕ × ℕ × ℕ)) (search_count_index : ℕ)
    (sti : ℤ) : ℕ → List ℕ → Finset ℕ → List ℕ → List ℕ
  | _, acc, _, [] => acc
  | J, acc, sel, d :: ds =>
    let r := remapSelf sti (d % (J + 1))
    let nb := poolToAbs W search_counts search_count_index r
    let nb' := if nb ∈ sel then
        poolToAbs W search_counts search_count_index (remapSelf sti J)
      else nb
    sampleSet W search_counts search_count_index sti (J + 1) (acc ++ [nb']) (insert nb' sel) ds

/-- One source entity's `agent_neighbors` in the sampling branch: `J`
starts at `n_neighbors - n_neighbor` and the strategy is chosen by
`n_neighbor > 20` (lines 90-92). -/
def agentNeighborsSample (W : ℕ) (search_counts : List (ℕ × ℕ × ℕ))
    (search_count_index : ℕ) (sti : ℤ) (J0 : ℕ) (n_neighbor : ℕ)
    (draws : List ℕ) : List ℕ :=
  let _ := n_neighbor
  if 20 < n_neighbor then
    sampleSet W search_counts search_count_index sti J0 [] ∅ draws
  else
    sampleScan W search_counts search_count_index sti J0 [] draws

/-- All absolute sorted-pool positions the table's buckets cover, in the
order the `m`/`o` loops of lines 140-142 produce them. -/
def bucketPositions (search_counts : List (ℕ × ℕ × ℕ)) : List ℕ :=
  search_counts.flatMap (fun e => (List.range e.2.1).map (fun o => e.1 + o))

/-- One source entity's `agent_neighbors` in the direct-enumeration branch
(lines 139-145): every bucket member except the entity's own target
position, written in order into the fixed-size row (an out-of-range write
is modelled as a no-op; the compiled kernel's behavior there is
undefined, and the theorems below exclude it). -/
def agentNeighborsEnum (nan : ℕ) (n_neighbor : ℕ) (search_counts : List (ℕ × ℕ × ℕ))
    (sti : ℤ) : List ℕ :=
  ((bucketPositions search_counts).foldl
    (fun (st : List ℕ × ℕ) (nb : ℕ) =>
      if (nb : ℤ) ≠ sti then (st.1.set st.2 nb, st.2 + 1) else st)
    (List.replicate n_neighbor nan, 0)).1

/-- Copy a finished `agent_neighbors` row into the output through the
target sort permutation (lines 131-133 and 146-148): non-sentinel entries
are mapped, sentinel entries stay. -/
def rowToTargets (nan : ℕ) (tsort : List ℕ) (row : List ℕ) : List ℕ :=
  row.map (fun v => if v ≠ nan then tsort.getD v 0 else v)

/-- Total member count of the finished table, `search_counts[:, 1].sum()`
(line 76). -/
def sumCounts (search_counts : List (ℕ × ℕ × ℕ)) : ℕ :=
  search_counts.foldl (fun a e => a + e.2.1) 0

/-- `search_counts[:self_index, 1].sum()` of line 89. -/
def sumCountsBefore (search_counts : List (ℕ × ℕ × ℕ)) (self_index : ℕ) : ℕ :=
  sumCounts (search_counts.take self_index)

/-- The `search_target_agent_index` of line 89 (`int64` arithmetic):
pool-relative position of the querying entity. -/
def selfPoolIndex (search_counts : List (ℕ × ℕ × ℕ)) (self_index : ℕ)
    (mapValue : ℤ) : ℤ :=
  mapValue - ((search_counts.getD self_index (0, 0, 0)).1 : ℤ)
    + (sumCountsBefore search_counts self_index : ℤ)

/-- One source entity's `agent_neighbors` row: the branch dispatch of
lines 78 and 135 (`n_neighbors = search_counts[:, 1].sum() - 1`, sampling
when it exceeds `n_neighbor`, direct enumeration otherwise; the
subtraction is modelled exactly, in `ℤ`). -/
def entityRow (W : ℕ) (tbl : List (ℕ × ℕ × ℕ)) (self_index : ℕ)
    (n_neighbor : ℕ) (mapValue : ℤ) (draws : List ℕ) : List ℕ :=
  let n_neighbors : ℤ := (sumCounts tbl : ℤ) - 1
  if (n_neighbor : ℤ) < n_neighbors then
    agentNeighborsSample W tbl (tbl.length - 1)
      (selfPoolIndex tbl self_index mapValue)
      (n_neighbors - n_neighbor).toNat n_neighbor draws
  else
    agentNeighborsEnum (nanvalue W) n_neighbor tbl mapValue

/-- Adjacent table entries cover disjoint, increasing ranges of the sorted
target pool. -/
def adjOK : List (ℕ × ℕ × ℕ) → Bool
  | [] => true
  | [_] => true
  | a :: b :: rest => (a.1 + a.2.1 ≤ b.1) && adjOK (b :: rest)

/-- Strip the cumulative column. -/
def dropCum (tbl : List (ℕ × ℕ × ℕ)) : List CountRow :=
  tbl.map (fun e => (e.1, e.2.1))

/-- Check that the third column is the running sum of the second, starting
from `s`. -/
def cumsOK (s : ℕ) : List (ℕ × ℕ × ℕ) → Bool
  | [] => true
  | e :: es => (e.2.2 = s + e.2.1 : Bool) && cumsOK (s + e.2.1) es

/-- Well-formedness of a finished `search_counts` table at width `W`,
as `process_hashcodes` plus the walk establish it: the cumulative column
is the running sum of the counts, every bucket is nonempty, buckets are
pairwise disjoint and increasing, and every covered position (and the
total himself) stays below the sentinel. -/
def tableWF (W : ℕ) (tbl : List (ℕ × ℕ × ℕ)) : Bool :=
  cumsOK 0 tbl &&
  tbl.all (fun e => 0 < e.2.1) &&
  adjOK tbl &&
  tbl.all (fun e => e.1 + sumCounts tbl + 1 ≤ 2 ^ W)

/-- Candidate-cell enumeration and table construction for one unique
source hash code (kernel lines 39-74): decode the code, enumerate the
shift offsets within the radius, sort the shifted codes and run the
walk. -/
def perCodeTable (W : ℕ) (tables : HashTables) (radius : ℤ) (bits : ℕ)
    (bb : Bbox) (u : ℕ) : List (ℕ × ℕ × ℕ) × ℕ :=
  let source_code := tables.search_source_unique_hashcodes.getD u 0
  let xy := decodeCorner bb bits source_code
  let shifts := getShifts bb bits xy.1 xy.2 radius
  let cands := sortInts (shiftMultiple bits source_code shifts)
  buildSearchCounts W tables.search_target_unique_hashcodes
    tables.cumulative_count_per_search_hashcode source_code cands

/-- The output row of one source entity (sorted position `nis`): its
`agent_neighbors` row copied through the target sort permutation
(lines 131-133 and 146-148). -/
def perEntityOutRow (W : ℕ) (tables : HashTables) (n_neighbor : ℕ)
    (tbl : List (ℕ × ℕ × ℕ)) (self_index : ℕ) (rng : ℕ → ℕ → ℕ) (nis : ℕ) :
    List ℕ :=
  rowToTargets (nanvalue W) tables.search_target_hashcodes_sort_indices
    (entityRow W tbl self_index n_neighbor
      (tables.map_search_source_to_target.getD nis 0)
      ((List.range n_neighbor).map (rng nis)))

/-- The full kernel `find_neighbors_numba`: for each unique source hash
code, build the candidate-cell table, then fill the row of every source
entity in that code's group through the sampling branch
(`n_neighbors > n_neighbor`) or the direct enumeration branch (the
dispatch is inside `entityRow`).  The `prange` over unique codes writes
disjoint rows, so the parallel loop is modelled as a sequential fold;
`rng nis i` is the `i`-th `np.random.randint` draw consumed for the
entity at sorted source position `nis` (the source draws from a shared
generator; attribution per entity is sound because each entity's draws
are consumed consecutively and rows are disjoint).  The `grid` argument
only influences the spec-modelled codec's geometry and is threaded for
interface fidelity. -/
def find_neighbors_numba (W : ℕ) (tables : HashTables) (n_neighbor : ℕ)
    (radius : ℤ) (bits : ℕ) (bb : Bbox) (grid : String) (rng : ℕ → ℕ → ℕ) :
    List (List ℕ) :=
  let _ := grid
  let cum_s := tables.search_source_cumulative_counts_per_hashcode
  let ssort := tables.search_source_hashcodes_sort_indices
  let init := List.replicate tables.map_search_source_to_target.length
    (List.replicate n_neighbor (nanvalue W))
  (List.range tables.search_source_unique_hashcodes.length).foldl
    (fun neighbors u =>
      let tc := perCodeTable W tables radius bits bb u
      (List.range' (cum_s.getD u 0) (cum_s.getD (u + 1) 0 - cum_s.getD u 0)).foldl
        (fun nbs nis =>
          nbs.set (ssort.getD nis 0)
            (perEntityOutRow W tables n_neighbor tc.1 tc.2 rng nis))
        neighbors) init

/-! ### `find_neighbors` driver (`neighbors.py` lines 220-299) -/

/-- The `locations` argument: an `N×2` coordinate array, a 1-D array
(of `int64` hashcodes or of some other dtype), or an array of any other
dimensionality. -/
inductive NpLocations where
  | arr2d (ncols : ℕ) (rows : List (ℤ × ℤ))
  | arr1d (isInt64 : Bool) (codes : List ℤ)
  | arrNd (ndim : ℕ)
deriving Repr, DecidableEq

/-- The `search_ids` / `search_target_ids` arguments: `None`, an ndarray
of indices, or some other object (which fails the `isinstance`
assertions of lines 177-178). -/
inductive IdsArg where
  | noneArg
  | arr (ids : List ℕ)
  | notArray
deriving Repr, DecidableEq

/-- A heap buffer: a coordinate array or a hashcode array. -/
abbrev Buf := (List (ℤ × ℤ)) ⊕ (List ℤ)

/-- Tiny heap tracking which array object each operation touches, to
settle the frame claim: buffer handles are indices. -/
structure Heap where
  bufs : List Buf
deriving Repr, DecidableEq

/-- Allocate a fresh buffer; returns the new heap and the fresh handle. -/
def halloc (h : Heap) (v : Buf) : Heap × ℕ :=
  (⟨h.bufs ++ [v]⟩, h.bufs.length)

/-- Read a hashcode buffer. -/
def hreadCodes (h : Heap) (i : ℕ) : List ℤ :=
  match h.bufs.getD i (Sum.inr []) with
  | Sum.inl _ => []
  | Sum.inr codes => codes

/-- Overwrite a buffer in place. -/
def hwrite (h : Heap) (i : ℕ) (v : Buf) : Heap :=
  ⟨h.bufs.set i v⟩

/-- Modelled from the spec and the call sites: `reduce_precision` with
`inplace=True` writes the coarsened codes back into the given buffer and
returns its handle; with `inplace=False` it allocates a fresh buffer. -/
def reduce_precision_heap (h : Heap) (handle : ℕ) (bits : ℕ) (inplace : Bool) :
    Heap × ℕ :=
  let v := reducePrecision (hreadCodes h handle) bits
  if inplace then (hwrite h handle (Sum.inr v), handle)
  else halloc h (Sum.inr v)

/-- Reindexing of lines 293-297: `np.take(search_target_ids, neighbours,
mode='clip')` followed by restoring the sentinel where the raw result was
the sentinel. -/
def reindexTargets (nan : ℕ) (search_target_ids : List ℕ)
    (neighbours : List (List ℕ)) : List (List ℕ) :=
  neighbours.map (fun row => row.map (fun v =>
    if v = nan then nan
    else search_target_ids.getD (min v (search_target_ids.length - 1)) 0))

/-- Pipeline from the reduced hashcode array onward (lines 262-299):
width selection, id validation (`isinstance` asserts of lines 177-178,
and NumPy's `IndexError` on out-of-range fancy indexing, both surfaced as
errors), `process_hashcodes`, the kernel, and the final reindexing into
the caller's target id space. -/
def find_neighbors_afterCodes (h : Heap) (codesHandle : ℕ) (radius : ℤ)
    (n_neighbor bits : ℕ) (bb : Bbox) (grid : String)
    (search_ids search_target_ids : IdsArg) (rng : ℕ → ℕ → ℕ) :
    Option (List (List ℕ)) × Heap :=
  let location_hashcodes := hreadCodes h codesHandle
  let nloc := location_hashcodes.length
  let W := chooseDtypeBits nloc
  match search_ids, search_target_ids with
  | IdsArg.notArray, _ => (none, h)
  | _, IdsArg.notArray => (none, h)
  | _, _ =>
    let sidsL := match search_ids with
      | IdsArg.arr ids => ids
      | _ => List.range nloc
    let tidsL := match search_target_ids with
      | IdsArg.arr ids => ids
      | _ => List.range nloc
    if ¬(sidsL.all (· < nloc) ∧ tidsL.all (· < nloc)) then (none, h)
    else
      let tables := process_hashcodes location_hashcodes sidsL tidsL
      let neighbours := find_neighbors_numba W tables n_neighbor radius bits bb grid rng
      match search_target_ids with
      | IdsArg.arr tids => (some (reindexTargets (nanvalue W) tids neighbours), h)
      | _ => (some neighbours, h)

/-- Embedding of `find_neighbors`, returning the result (or `none` on a
validation failure, where the source raises) together with the final
heap; the caller's `locations` buffer is handle `0`. -/
def find_neighbors_run (locations : NpLocations) (radius : ℤ)
    (n_neighbor bits : ℕ) (bb : Bbox) (grid : String)
    (search_ids search_target_ids : IdsArg) (rng : ℕ → ℕ → ℕ) :
    Option (List (List ℕ)) × Heap :=
  let h0 : Heap := ⟨[match locations with
    | NpLocations.arr2d _ rows => Sum.inl rows
    | NpLocations.arr1d _ codes => Sum.inr codes
    | NpLocations.arrNd _ => Sum.inr []]⟩
  if ¬(grid = "longlat" ∨ grid = "orthogonal") then (none, h0) else
  match locations with
  | NpLocations.arr2d ncols rows =>
    if ncols ≠ 2 then (none, h0) else
    (match encodeLocations bb bits rows with
     | none => (none, h0)
     | some codes =>
       let a1 := halloc h0 (Sum.inr codes)
       let a2 := reduce_precision_heap a1.1 a1.2 bits true
       find_neighbors_afterCodes a2.1 a2.2 radius n_neighbor bits bb grid
         search_ids search_target_ids rng)
  | NpLocations.arr1d isInt64 codes =>
    let _ := codes
    let a1 := reduce_precision_heap h0 0 bits false
    if ¬isInt64 then (none, a1.1) else
    find_neighbors_afterCodes a1.1 a1.2 radius n_neighbor bits bb grid
      search_ids search_target_ids rng
  | NpLocations.arrNd _ => (none, h0)

/-- The result of `find_neighbors` (dropping the heap). -/
def find_neighbors (locations : NpLocations) (radius : ℤ)
    (n_neighbor bits : ℕ) (bb : Bbox) (grid : String)
    (search_ids search_target_ids : IdsArg) (rng : ℕ → ℕ → ℕ) :
    Option (List (List ℕ)) :=
  (find_neighbors_run locations radius n_neighbor bits bb grid
    search_ids search_target_ids rng).1

/-! ### Reference definitions from the spec's words

These definitions follow the specification text, not the source; they
exist to be compared against the source-derived definitions above. -/

/-- Does a candidate cell code match a target unique code, per an
independent binary search (`searchsorted`)? -/
def matchedCell (tuniq : List ℤ) (g : ℤ) : Bool :=
  let idx := searchsorted tuniq g
  idx < tuniq.length && tuniq.getD idx 0 = g

/-- Reference table from the spec's design note (section 9): one
independent binary search per candidate cell, producing one
`(bucket start offset, member count)` entry per matched candidate
cell. -/
def searchCountsRef (tuniq : List ℤ) (cum : List ℕ) (cands : List ℤ) :
    List CountRow :=
  cands.filterMap (fun g =>
    if matchedCell tuniq g then
      let idx := searchsorted tuniq g
      some (cum.getD idx 0, cum.getD (idx + 1) 0 - cum.getD idx 0)
    else none)

/-- Reference self-cell index: the position of the querying entities' own
cell among the matched candidate cells. -/
def selfCellIndexRef (tuniq : List ℤ) (cands : List ℤ) (selfCode : ℤ) : ℕ :=
  (cands.filter (matchedCell tuniq)).findIdx (fun g => g = selfCode)

/-- Modelled from the spec: the `CrossMap` of section 3 — for each source
position taken in source-hashcode-sorted order, the position of that same
entity in the target pool's sorted-by-hashcode order, or the sentinel
`-1` when the entity is absent from the target pool (computed by
inverse-permuting the target's sort order). -/
def crossMapSpec (location_hashcodes : List ℤ)
    (search_ids search_target_ids : List ℕ) : List ℤ :=
  let target_hashcodes := gather location_hashcodes search_target_ids
  let tsort := argsort target_hashcodes
  let target_ids_sorted := tsort.map (fun i => search_target_ids.getD i 0)
  let source_hashcodes := gather location_hashcodes search_ids
  let ssort := argsort source_hashcodes
  let source_ids_sorted := ssort.map (fun i => search_ids.getD i 0)
  source_ids_sorted.map (fun e =>
    match target_ids_sorted.findIdx? (fun t => t = e) with
    | some p => (p : ℤ)
    | none => -1)

/-! ### Validation predicates for the error-handling claim -/

/-- The caller's `locations` buffer as placed at heap handle `0`. -/
def callerBuf (locations : NpLocations) : Buf :=
  match locations with
  | NpLocations.arr2d _ rows => Sum.inl rows
  | NpLocations.arr1d _ codes => Sum.inr codes
  | NpLocations.arrNd _ => Sum.inr []

/-- Number of entities an input describes. -/
def nLocationsOf (locations : NpLocations) : ℕ :=
  match locations with
  | NpLocations.arr2d _ rows => rows.length
  | NpLocations.arr1d _ codes => codes.length
  | NpLocations.arrNd _ => 0

/-- Is an ids argument a valid index container for `n` entities — an
ndarray (or `None`) of in-range indices?  (`isinstance` asserts of
lines 177-178; NumPy raises `IndexError` on out-of-range fancy
indexing.) -/
def idsOk (n : ℕ) (a : IdsArg) : Bool :=
  match a with
  | IdsArg.noneArg => true
  | IdsArg.arr ids => ids.all (· < n)
  | IdsArg.notArray => false

/-- The validation conditions the claim states: known grid mode, an `N×2`
coordinate array or a 1-D `int64` hashcode array, and valid index
containers. -/
def validationOkClaimed (locations : NpLocations) (grid : String)
    (search_ids search_target_ids : IdsArg) : Bool :=
  (grid = "longlat" || grid = "orthogonal") &&
  (match locations with
   | NpLocations.arr2d ncols _ => ncols = 2
   | NpLocations.arr1d isInt64 _ => isInt64
   | NpLocations.arrNd _ => false) &&
  idsOk (nLocationsOf locations) search_ids &&
  idsOk (nLocationsOf locations) search_target_ids

/-- The validation conditions the embedded driver actually enforces: the
claimed ones plus, for coordinate input, the spec-mandated failure of
`encode` when `bits` exceeds the 64-bit code width. -/
def validationOk (locations : NpLocations) (bits : ℕ) (grid : String)
    (search_ids search_target_ids : IdsArg) : Bool :=
  validationOkClaimed locations grid search_ids search_target_ids &&
  (match locations with
   | NpLocations.arr2d _ _ => bits ≤ 64
   | _ => true)

/-! ### Floyd sampling in draw space -/

/-- One Floyd step in the pre-remap draw space: reduce the raw draw to
the current domain `[0, J]` (`np.random.randint(0, J + 1)`), redirect a
collision with an already-chosen value to the boundary value `J`, and
record the choice (lines 96-128 with the self-remap and position maps
stripped off). -/
def floydStep (J : ℕ) (sel : Finset ℕ) (d : ℕ) : Finset ℕ :=
  let x := d % (J + 1)
  insert (if x ∈ sel then J else x) sel

/-- The Floyd run over a draw stream: the domain bound grows by one per
draw (`J += 1`, line 130). -/
def floydRun (J : ℕ) (sel : Finset ℕ) : List ℕ → Finset ℕ
  | [] => sel
  | d :: ds => floydRun (J + 1) (floydStep J sel d) ds

/-- The canonical seed space: every draw sequence of length `k` whose
`i`-th draw lies in the `i`-th uniform domain `[0, J + i]`. -/
def seedsF : ℕ → ℕ → Finset (List ℕ)
  | _, 0 => {[]}
  | J, k + 1 =>
    (Finset.range (J + 1) ×ˢ seedsF (J + 1) k).image (fun p => p.1 :: p.2)

/-- `(J + 1) * (J + 2) * ... * (J + k)`: the size of the seed space. -/
def seedCount : ℕ → ℕ → ℕ
  | _, 0 => 1
  | J, k + 1 => (J + 1) * seedCount (J + 1) k

/-- Number of seeds of `seedsF J k` whose run selects a fixed
not-yet-selected value strictly below the current domain bound. -/
def glow : ℕ → ℕ → ℕ
  | 0, _ => 0
  | k + 1, J => seedCount (J + 1) k + J * glow k (J + 1)

/-- Number of seeds whose run selects the boundary value `J` itself,
when `m` values are already selected. -/
def ghigh (k J m : ℕ) : ℕ :=
  match k with
  | 0 => 0
  | k + 1 => (m + 1) * seedCount (J + 1) k + (J - m) * glow k (J + 1)

/-- Number of seeds whose run selects a fixed not-yet-selected value
`c`, starting from domain bound `J` with `s` values already selected. -/
def floydMarg : ℕ → ℕ → ℕ → ℕ → ℕ
  | 0, _, _, _ => 0
  | k + 1, J, s, c =>
    if c < J then glow (k + 1) J
    else if c = J then ghigh (k + 1) J s
    else (J + 1) * floydMarg k (J + 1) (s + 1) c

/-! ### Walk-equivalence bookkeeping -/

/-- The positions covered by a `(start, count)` row list: the
concatenation of the buckets' half-open ranges. -/
def coveredPositions (rows : List CountRow) : List ℕ :=
  rows.flatMap (fun e => List.range' e.1 e.2)

/-- The trimming of lines 71-73 applied to a raw count list: drop the
trailing zero-count current row, keep it otherwise. -/
def trimRows (counts : List CountRow) (sci : ℕ) : List CountRow :=
  if (counts.getD sci (0, 0)).2 = 0 then counts.take sci else counts.take (sci + 1)

/-- The walk-state property maintained while candidates `pcs` have been
processed without a `break`: the cursor equals a binary search for the
successor of the last processed code, the current row ends exactly at the
cursor's cumulative offset, earlier rows account for at least one matched
candidate each, untouched rows are zero, the trimmed table covers exactly
the positions the per-cell reference covers, and once the self code has
been processed its bucket lies inside the row `self_index` points at. -/
def walkInvW (tuniq : List ℤ) (cum : List ℕ) (selfCode : ℤ) (ncand : ℕ)
    (pcs : List ℤ) (st : WalkState) : Prop :=
  st.broken = false
  ∧ st.counts.length = ncand
  ∧ st.search_count_index
      + (if (st.counts.getD st.search_count_index (0, 0)).2 = 0 then 0 else 1)
      ≤ (pcs.filter (fun g => matchedCell tuniq g)).length
  ∧ (∀ j, st.search_count_index < j → st.counts.getD j (0, 0) = (0, 0))
  ∧ coveredPositions (trimRows st.counts st.search_count_index)
      = coveredPositions (searchCountsRef tuniq cum pcs)
  ∧ (selfCode ∈ pcs → matchedCell tuniq selfCode = true →
      st.self_index ≤ st.search_count_index
      ∧ (st.counts.getD st.self_index (0, 0)).1
          ≤ cum.getD (searchsorted tuniq selfCode) 0
      ∧ cum.getD (searchsorted tuniq selfCode + 1) 0
          ≤ (st.counts.getD st.self_index (0, 0)).1
            + (st.counts.getD st.self_index (0, 0)).2)

/-- The full invariant: on top of `walkInvW`, the cursor equals a binary
search for the successor of the last processed code and the current row
ends exactly at the cursor's cumulative offset.  (`walkInvW` alone holds
at the initial state, which has `index = -1`.) -/
def walkInv (tuniq : List ℤ) (cum : List ℕ) (selfCode : ℤ) (ncand : ℕ)
    (pcs : List ℤ) (st : WalkState) : Prop :=
  walkInvW tuniq cum selfCode ncand pcs st
  ∧ st.index = (searchsorted tuniq (st.previous + 1) : ℤ)
  ∧ (st.counts.getD st.search_count_index (0, 0)).1
      + (st.counts.getD st.search_count_index (0, 0)).2
      = cum.getD (searchsorted tuniq (st.previous + 1)) 0

/-- What survives to the end of the walk, `break` or not: coverage
equality with the per-cell reference and the self-row containment. -/
def walkPost (tuniq : List ℤ) (cum : List ℕ) (selfCode : ℤ)
    (cands : List ℤ) (st : WalkState) : Prop :=
  coveredPositions (trimRows st.counts st.search_count_index)
      = coveredPositions (searchCountsRef tuniq cum cands)
  ∧ (selfCode ∈ cands → matchedCell tuniq selfCode = true →
      st.self_index ≤ st.search_count_index
      ∧ (st.counts.getD st.self_index (0, 0)).1
          ≤ cum.getD (searchsorted tuniq selfCode) 0
      ∧ cum.getD (searchsorted tuniq selfCode + 1) 0
          ≤ (st.counts.getD st.self_index (0, 0)).1
            + (st.counts.getD st.self_index (0, 0)).2)

end Honeybees

namespace Honeybees

/-! ### Theorems -/

/-! #### Bucket-table lemmas -/

theorem sumCounts_shift (l : List (ℕ × ℕ × ℕ)) (s : ℕ) :
    l.foldl (fun a e => a + e.2.1) s = s + sumCounts l := by
  induction l generalizing s with
  | nil => simp [sumCounts]
  | cons e es ih =>
    simp only [sumCounts, List.foldl_cons]
    rw [ih, ih]
    omega

theorem sumCounts_cons (e : ℕ × ℕ × ℕ) (l : List (ℕ × ℕ × ℕ)) :
    sumCounts (e :: l) = e.2.1 + sumCounts l := by
  have h := sumCounts_shift l (0 + e.2.1)
  simp only [sumCounts, List.foldl_cons] at h ⊢
  omega

theorem getD_mem_of_lt {α : Type} (l : List α) (d : α) (i : ℕ)
    (h : i < l.length) : l.getD i d ∈ l := by
  rw [List.getD_eq_getElem l d h]
  exact List.getElem_mem h

theorem cumsOK_spec (tbl : List (ℕ × ℕ × ℕ)) (s : ℕ) (h : cumsOK s tbl = true) :
    ∀ i, i < tbl.length →
      (tbl.getD i (0, 0, 0)).2.2 = s + sumCounts (tbl.take (i + 1)) := by
  induction tbl generalizing s with
  | nil => intro i hi; simp at hi
  | cons e es ih =>
    simp only [cumsOK, Bool.and_eq_true, decide_eq_true_eq] at h
    intro i hi
    cases i with
    | zero =>
      simp only [List.getD_cons_zero, List.take_succ_cons, List.take_zero]
      rw [h.1, sumCounts_cons]
      simp [sumCounts]
    | succ j =>
      simp only [List.getD_cons_succ, List.take_succ_cons]
      rw [ih (s + e.2.1) h.2 j (by simpa using hi), sumCounts_cons]
      omega

theorem allPos_cnt (tbl : List (ℕ × ℕ × ℕ))
    (h : tbl.all (fun e => 0 < e.2.1) = true) :
    ∀ i, i < tbl.length → 0 < (tbl.getD i (0, 0, 0)).2.1 := by
  intro i hi
  rw [List.all_eq_true] at h
  simpa using h _ (getD_mem_of_lt _ _ _ hi)

theorem sumCounts_take_succ (tbl : List (ℕ × ℕ × ℕ)) (i : ℕ) (hi : i < tbl.length) :
    sumCounts (tbl.take (i + 1))
      = sumCounts (tbl.take i) + (tbl.getD i (0, 0, 0)).2.1 := by
  induction tbl generalizing i with
  | nil => simp at hi
  | cons e es ih =>
    cases i with
    | zero => simp [sumCounts_cons, sumCounts]
    | succ j =>
      simp only [List.take_succ_cons, List.getD_cons_succ, sumCounts_cons]
      rw [ih j (by simpa using hi)]
      omega

theorem sumCounts_take_le (tbl : List (ℕ × ℕ × ℕ)) (i : ℕ) :
    ∀ j, i ≤ j → sumCounts (tbl.take i) ≤ sumCounts (tbl.take j) := by
  intro j
  induction j with
  | zero =>
    intro hij
    have h0 : i = 0 := by omega
    subst h0
    exact le_refl _
  | succ k ih =>
    intro hij
    rcases Nat.eq_or_lt_of_le hij with heq | hlt
    · rw [heq]
    · refine le_trans (ih (by omega)) ?_
      rcases Nat.lt_or_ge k tbl.length with hk | hk
      · rw [sumCounts_take_succ tbl k hk]
        omega
      · rw [List.take_of_length_le (by omega), List.take_of_length_le (by omega)]

theorem sumCounts_take_full (tbl : List (ℕ × ℕ × ℕ)) :
    sumCounts (tbl.take tbl.length) = sumCounts tbl := by
  rw [List.take_of_length_le (le_refl _)]

theorem find_idx_zero (tbl : List (ℕ × ℕ × ℕ)) (r : ℕ) :
    find_neighbor_search_count_index tbl 0 r
      = if (tbl.getD 0 (0, 0, 0)).2.2 ≤ r then 1 else 0 := rfl

theorem find_idx_succ (tbl : List (ℕ × ℕ × ℕ)) (r s : ℕ) :
    find_neighbor_search_count_index tbl (s + 1) r
      = if (tbl.getD (s + 1) (0, 0, 0)).2.2 ≤ r then s + 2
        else find_neighbor_search_count_index tbl s r := rfl

theorem find_idx_spec (tbl : List (ℕ × ℕ × ℕ)) (r : ℕ) :
    ∀ sci, r < (tbl.getD sci (0, 0, 0)).2.2 →
      find_neighbor_search_count_index tbl sci r ≤ sci ∧
      r < (tbl.getD (find_neighbor_search_count_index tbl sci r) (0, 0, 0)).2.2 ∧
      (find_neighbor_search_count_index tbl sci r = 0 ∨
        (tbl.getD (find_neighbor_search_count_index tbl sci r - 1) (0, 0, 0)).2.2 ≤ r) := by
  intro sci
  induction sci with
  | zero =>
    intro h
    rw [find_idx_zero, if_neg (by omega)]
    exact ⟨le_refl _, h, Or.inl rfl⟩
  | succ s ih =>
    intro h
    rw [find_idx_succ, if_neg (by omega)]
    rcases Nat.lt_or_ge r (tbl.getD s (0, 0, 0)).2.2 with hlt | hge
    · obtain ⟨h1, h2, h3⟩ := ih hlt
      exact ⟨by omega, h2, h3⟩
    · have hfs : find_neighbor_search_count_index tbl s r = s + 1 := by
        cases s with
        | zero => rw [find_idx_zero, if_pos (by omega)]
        | succ t => rw [find_idx_succ, if_pos (by omega)]
      rw [hfs]
      exact ⟨le_refl _, h, Or.inr (by simpa using hge)⟩

theorem wsub_exact (w a b : ℕ) (hba : b ≤ a) (ha : a < 2 ^ w) :
    wsub w a b = a - b := by
  unfold wsub
  have hb : b % 2 ^ w = b := Nat.mod_eq_of_lt (by omega)
  rw [hb]
  have h2 : a + (2 ^ w - b) = (a - b) + 2 ^ w := by omega
  rw [h2, Nat.add_mod_right, Nat.mod_eq_of_lt (by omega)]

/-- Core characterization of `poolToAbs` on a well-formed table: the
pool-relative position `r` lands in the unique bucket `i` whose
cumulative range contains it, at absolute position
`start_i + (r - cumBefore_i)`. -/
theorem poolToAbs_spec (W : ℕ) (tbl : List (ℕ × ℕ × ℕ))
    (hwf : tableWF W tbl = true) (r : ℕ) (hr : r < sumCounts tbl) :
    ∃ i, i < tbl.length ∧ sumCounts (tbl.take i) ≤ r ∧
      r < sumCounts (tbl.take (i + 1)) ∧
      poolToAbs W tbl (tbl.length - 1) r
        = (tbl.getD i (0, 0, 0)).1 + (r - sumCounts (tbl.take i)) := by
  have hwf' := hwf
  unfold tableWF at hwf'
  simp only [Bool.and_eq_true] at hwf'
  obtain ⟨⟨⟨hcums, _⟩, _⟩, hbound⟩ := hwf'
  have hlen : 0 < tbl.length := by
    rcases tbl with _ | ⟨e, es⟩
    · simp [sumCounts] at hr
    · simp
  have hcum := cumsOK_spec tbl 0 hcums
  have htop : (tbl.getD (tbl.length - 1) (0, 0, 0)).2.2 = sumCounts tbl := by
    rw [hcum (tbl.length - 1) (by omega)]
    have : tbl.length - 1 + 1 = tbl.length := by omega
    rw [this, sumCounts_take_full]
    omega
  have hrtop : r < (tbl.getD (tbl.length - 1) (0, 0, 0)).2.2 := by omega
  obtain ⟨h1, h2, h3⟩ := find_idx_spec tbl r (tbl.length - 1) hrtop
  set i := find_neighbor_search_count_index tbl (tbl.length - 1) r with hidef
  have hilt : i < tbl.length := by omega
  have hcumi : (tbl.getD i (0, 0, 0)).2.2 = sumCounts (tbl.take (i + 1)) := by
    rw [hcum i hilt]; omega
  have hboundi : (tbl.getD i (0, 0, 0)).1 + sumCounts tbl + 1 ≤ 2 ^ W := by
    rw [List.all_eq_true] at hbound
    have hbi := hbound (tbl.getD i (0, 0, 0)) (getD_mem_of_lt tbl (0, 0, 0) i hilt)
    simpa using hbi
  refine ⟨i, hilt, ?_, by omega, ?_⟩
  · rcases h3 with h0 | hge
    · simp [h0, sumCounts]
    · rcases Nat.eq_zero_or_pos i with h0 | hpos
      · rw [h0]
        simp [sumCounts]
      · have heq1 : (tbl.getD (i - 1) (0, 0, 0)).2.2 = sumCounts (tbl.take i) := by
          rw [hcum (i - 1) (by omega)]
          have h11 : i - 1 + 1 = i := by omega
          rw [h11]
          omega
        omega
  · have hrw : poolToAbs W tbl (tbl.length - 1) r
        = if i = 0 then ((tbl.getD 0 (0, 0, 0)).1 + r) % 2 ^ W
          else wsub W ((tbl.getD i (0, 0, 0)).1 + r)
            ((tbl.getD (i - 1) (0, 0, 0)).2.2) := rfl
    rw [hrw]
    rcases Nat.eq_zero_or_pos i with h0 | hpos
    · rw [if_pos h0, h0]
      rw [Nat.mod_eq_of_lt (by rw [h0] at hboundi; omega)]
      simp [sumCounts]
    · rw [if_neg (by omega)]
      have hprev : (tbl.getD (i - 1) (0, 0, 0)).2.2 = sumCounts (tbl.take i) := by
        rw [hcum (i - 1) (by omega)]
        have h11 : i - 1 + 1 = i := by omega
        rw [h11]
        omega
      have hge2 : sumCounts (tbl.take i) ≤ r := by
        rcases h3 with h0 | hge'
        · omega
        · omega
      rw [hprev, wsub_exact _ _ _ (by omega) (by omega)]
      omega

/-- C8: `find_neighbors` selects the 32-bit unsigned index width for every
call, switching to the 64-bit width exactly when the total entity count
reaches the 32-bit sentinel value `2^32 - 1` (so that an entity index
could collide with the sentinel), and no other width is ever chosen. -/
theorem C8_dtype_width (n : ℕ) :
    (chooseDtypeBits n = 64 ↔ nanvalue 32 ≤ n) ∧
    (chooseDtypeBits n = 32 ↔ n < nanvalue 32) ∧
    (chooseDtypeBits n = 32 ∨ chooseDtypeBits n = 64) := by
  unfold chooseDtypeBits nanvalue
  by_cases h : n ≤ 2 ^ 32 - 2 <;> simp [h] <;> omega

theorem adjOK_cons (e : ℕ × ℕ × ℕ) (rest : List (ℕ × ℕ × ℕ)) (h : adjOK (e :: rest) = true) :
    adjOK rest = true := by
  cases rest with
  | nil => rfl
  | cons f rest' =>
    have h' : ((e.1 + e.2.1 ≤ f.1 : Bool) && adjOK (f :: rest')) = true := h
    simp only [Bool.and_eq_true] at h'
    exact h'.2

theorem adjOK_head (e f : ℕ × ℕ × ℕ) (rest : List (ℕ × ℕ × ℕ))
    (h : adjOK (e :: f :: rest) = true) : e.1 + e.2.1 ≤ f.1 := by
  have h' : ((e.1 + e.2.1 ≤ f.1 : Bool) && adjOK (f :: rest)) = true := h
  simp only [Bool.and_eq_true, decide_eq_true_eq] at h'
  exact h'.1

/-- Every position the tail of a table covers lies at or beyond the end of
the head entry's range. -/
theorem bucketPositions_lb (e : ℕ × ℕ × ℕ) (rest : List (ℕ × ℕ × ℕ))
    (h : adjOK (e :: rest) = true) :
    ∀ v ∈ bucketPositions rest, e.1 + e.2.1 ≤ v := by
  induction rest generalizing e with
  | nil => intro v hv; simp [bucketPositions] at hv
  | cons f rest' ih =>
    intro v hv
    have hef : e.1 + e.2.1 ≤ f.1 := adjOK_head e f rest' h
    simp only [bucketPositions, List.flatMap_cons, List.mem_append] at hv
    rcases hv with hv | hv
    · simp only [List.mem_map, List.mem_range] at hv
      obtain ⟨o, _, rfl⟩ := hv
      omega
    · have := ih f (adjOK_cons e (f :: rest') h) v hv
      omega

theorem bucketPositions_nodup (tbl : List (ℕ × ℕ × ℕ))
    (h : adjOK tbl = true) : (bucketPositions tbl).Nodup := by
  induction tbl with
  | nil => simp [bucketPositions]
  | cons e rest ih =>
    simp only [bucketPositions, List.flatMap_cons]
    refine List.Nodup.append ?_ (ih (adjOK_cons e rest h)) ?_
    · exact (List.nodup_range _).map (fun a b hab => by omega)
    · intro v hv hv'
      simp only [List.mem_map, List.mem_range] at hv
      obtain ⟨o, ho, rfl⟩ := hv
      have := bucketPositions_lb e rest h _ hv'
      omega

theorem sumCounts_eq_sum_map (tbl : List (ℕ × ℕ × ℕ)) :
    sumCounts tbl = (tbl.map (fun e => e.2.1)).sum := by
  induction tbl with
  | nil => simp [sumCounts]
  | cons e rest ih => rw [sumCounts_cons, List.map_cons, List.sum_cons, ih]

theorem cnt_le_sumCounts (tbl : List (ℕ × ℕ × ℕ)) (e : ℕ × ℕ × ℕ)
    (he : e ∈ tbl) : e.2.1 ≤ sumCounts tbl := by
  rw [sumCounts_eq_sum_map]
  exact List.single_le_sum (by intro x _; omega) _ (List.mem_map_of_mem _ he)

/-- Every covered position stays strictly below the sentinel. -/
theorem bucketPositions_lt_nan (W : ℕ) (tbl : List (ℕ × ℕ × ℕ))
    (hwf : tableWF W tbl = true) :
    ∀ v ∈ bucketPositions tbl, v + 1 < 2 ^ W := by
  have hwf' := hwf
  unfold tableWF at hwf'
  simp only [Bool.and_eq_true] at hwf'
  obtain ⟨⟨⟨_, hpos⟩, _⟩, hbound⟩ := hwf'
  intro v hv
  simp only [bucketPositions, List.mem_flatMap, List.mem_map, List.mem_range] at hv
  obtain ⟨e, he, o, ho, rfl⟩ := hv
  rw [List.all_eq_true] at hbound
  have hb := hbound e he
  simp only [decide_eq_true_eq] at hb
  have hcnt := cnt_le_sumCounts tbl e he
  omega

/-- A conditional fold skipping the elements failing `P` is the plain fold
over the filtered list. -/
theorem foldl_ite_filter {α β : Type} (P : α → Prop) [DecidablePred P]
    (f : β → α → β) (l : List α) (init : β) :
    l.foldl (fun st a => if P a then f st a else st) init
      = (l.filter (fun a => decide (P a))).foldl f init := by
  induction l generalizing init with
  | nil => rfl
  | cons a l ih =>
    by_cases h : P a <;> simp [h, ih]

theorem set_append_len {α : Type} (pre : List α) (post : List α) (v : α) :
    (pre ++ post).set pre.length v = pre ++ post.set 0 v := by
  induction pre with
  | nil => simp
  | cons a pre' ih => simp [List.set, ih]

/-- Writing a list of values into consecutive slots of a row. -/
theorem foldWrite (vs : List ℕ) :
    ∀ (pre post : List ℕ), vs.length ≤ post.length →
      (vs.foldl (fun (st : List ℕ × ℕ) (nb : ℕ) => (st.1.set st.2 nb, st.2 + 1))
        (pre ++ post, pre.length)).1 = pre ++ vs ++ post.drop vs.length := by
  induction vs with
  | nil => intro pre post _; simp
  | cons v vs ih =>
    intro pre post hlen
    cases post with
    | nil => simp at hlen
    | cons p0 post' =>
      simp only [List.foldl_cons, set_append_len, List.set]
      have hstep := ih (pre ++ [v]) post' (by simpa using hlen)
      rw [List.append_assoc] at hstep
      simp only [List.singleton_append, List.length_append, List.length_cons,
        List.length_nil] at hstep ⊢
      rw [show pre.length + 1 = pre.length + (0 + 1) by omega] at hstep
      simp only [Nat.zero_add] at hstep
      rw [hstep]
      simp [List.drop]

/-- The direct-enumeration row (lines 139-145) on a well-formed table: it
is exactly the non-self covered positions followed by sentinel padding,
provided they fit the row. -/
theorem agentNeighborsEnum_eq (nan n_neighbor : ℕ) (tbl : List (ℕ × ℕ × ℕ))
    (sti : ℤ)
    (hle : ((bucketPositions tbl).filter
      (fun (nb : ℕ) => decide ((nb : ℤ) ≠ sti))).length ≤ n_neighbor) :
    agentNeighborsEnum nan n_neighbor tbl sti
      = (bucketPositions tbl).filter (fun (nb : ℕ) => decide ((nb : ℤ) ≠ sti))
        ++ List.replicate
          (n_neighbor - ((bucketPositions tbl).filter
            (fun (nb : ℕ) => decide ((nb : ℤ) ≠ sti))).length) nan := by
  unfold agentNeighborsEnum
  rw [foldl_ite_filter (fun nb => ((nb : ℕ) : ℤ) ≠ sti)
    (fun (st : List ℕ × ℕ) (nb : ℕ) => (st.1.set st.2 nb, st.2 + 1))]
  have h := foldWrite ((bucketPositions tbl).filter (fun (nb : ℕ) => decide ((nb : ℤ) ≠ sti)))
    [] (List.replicate n_neighbor nan) (by simpa using hle)
  simp only [List.nil_append, List.length_nil] at h
  rw [h, List.drop_replicate]

theorem tableWF_parts (W : ℕ) (tbl : List (ℕ × ℕ × ℕ)) (hwf : tableWF W tbl = true) :
    cumsOK 0 tbl = true ∧ (∀ e ∈ tbl, 0 < e.2.1) ∧ adjOK tbl = true ∧
      (∀ e ∈ tbl, e.1 + sumCounts tbl + 1 ≤ 2 ^ W) := by
  unfold tableWF at hwf
  simp only [Bool.and_eq_true, List.all_eq_true, decide_eq_true_eq] at hwf
  exact ⟨hwf.1.1.1, hwf.1.1.2, hwf.1.2, hwf.2⟩

theorem adjOK_adj (tbl : List (ℕ × ℕ × ℕ)) (h : adjOK tbl = true) :
    ∀ i, i + 1 < tbl.length →
      (tbl.getD i (0, 0, 0)).1 + (tbl.getD i (0, 0, 0)).2.1
        ≤ (tbl.getD (i + 1) (0, 0, 0)).1 := by
  induction tbl with
  | nil => intro i hi; simp at hi
  | cons e rest ih =>
    intro i hi
    cases rest with
    | nil => simp at hi
    | cons f rest' =>
      cases i with
      | zero => simpa using adjOK_head e f rest' h
      | succ j =>
        simp only [List.getD_cons_succ]
        exact ih (adjOK_cons e _ h) j (by simpa using hi)

theorem start_add_mono (tbl : List (ℕ × ℕ × ℕ)) (h : adjOK tbl = true) (i : ℕ) :
    ∀ d, i + d < tbl.length →
      (tbl.getD i (0, 0, 0)).1 ≤ (tbl.getD (i + d) (0, 0, 0)).1 := by
  intro d
  induction d with
  | zero => intro _; exact le_refl _
  | succ k ih =>
    intro hlt
    have h1 := ih (by omega)
    have h2 := adjOK_adj tbl h (i + k) (by omega)
    have h3 : i + (k + 1) = (i + k) + 1 := by omega
    rw [h3]
    omega

theorem adjOK_le (tbl : List (ℕ × ℕ × ℕ)) (h : adjOK tbl = true) (i j : ℕ)
    (hij : i < j) (hj : j < tbl.length) :
    (tbl.getD i (0, 0, 0)).1 + (tbl.getD i (0, 0, 0)).2.1
      ≤ (tbl.getD j (0, 0, 0)).1 := by
  have h1 := adjOK_adj tbl h i (by omega)
  have h2 := start_add_mono tbl h (i + 1) (j - (i + 1)) (by omega)
  rw [show i + 1 + (j - (i + 1)) = j by omega] at h2
  omega

theorem poolToAbs_mem (W : ℕ) (tbl : List (ℕ × ℕ × ℕ)) (hwf : tableWF W tbl = true)
    (r : ℕ) (hr : r < sumCounts tbl) :
    poolToAbs W tbl (tbl.length - 1) r ∈ bucketPositions tbl := by
  obtain ⟨i, hilt, hge, hlt, heq⟩ := poolToAbs_spec W tbl hwf r hr
  rw [heq]
  simp only [bucketPositions, List.mem_flatMap]
  refine ⟨tbl.getD i (0, 0, 0), getD_mem_of_lt _ _ _ hilt, ?_⟩
  simp only [List.mem_map, List.mem_range]
  refine ⟨r - sumCounts (tbl.take i), ?_, rfl⟩
  have hsucc := sumCounts_take_succ tbl i hilt
  omega

theorem poolToAbs_strictMono (W : ℕ) (tbl : List (ℕ × ℕ × ℕ))
    (hwf : tableWF W tbl = true) (r1 r2 : ℕ) (h12 : r1 < r2)
    (hr2 : r2 < sumCounts tbl) :
    poolToAbs W tbl (tbl.length - 1) r1 < poolToAbs W tbl (tbl.length - 1) r2 := by
  obtain ⟨i1, hi1, hge1, hlt1, he1⟩ := poolToAbs_spec W tbl hwf r1 (by omega)
  obtain ⟨i2, hi2, hge2, hlt2, he2⟩ := poolToAbs_spec W tbl hwf r2 hr2
  have hii : i1 ≤ i2 := by
    by_contra hcon
    push_neg at hcon
    have := sumCounts_take_le tbl (i2 + 1) i1 (by omega)
    omega
  rw [he1, he2]
  rcases Nat.eq_or_lt_of_le hii with heq | hlt
  · subst heq
    omega
  · have hadj : adjOK tbl = true := (tableWF_parts W tbl hwf).2.2.1
    have h1 := adjOK_le tbl hadj i1 i2 hlt hi2
    have hsucc := sumCounts_take_succ tbl i1 hi1
    omega

theorem remapSelf_strictMono (sti : ℤ) (x y : ℕ) (hxy : x < y) :
    remapSelf sti x < remapSelf sti y := by
  unfold remapSelf
  split <;> split <;> omega

theorem remapSelf_le (sti : ℤ) (x : ℕ) : remapSelf sti x ≤ x + 1 := by
  unfold remapSelf
  split <;> omega

/-- The per-entity sampling map of the sampling branch: remap a raw draw
past the reserved self index, then map the pool position to its absolute
sorted-pool position. -/
def psiMap (W : ℕ) (tbl : List (ℕ × ℕ × ℕ)) (sti : ℤ) (x : ℕ) : ℕ :=
  poolToAbs W tbl (tbl.length - 1) (remapSelf sti x)

theorem psiMap_strictMono (W : ℕ) (tbl : List (ℕ × ℕ × ℕ))
    (hwf : tableWF W tbl = true) (sti : ℤ) (x y : ℕ) (hxy : x < y)
    (hy : y + 2 ≤ sumCounts tbl) : psiMap W tbl sti x < psiMap W tbl sti y := by
  unfold psiMap
  refine poolToAbs_strictMono W tbl hwf _ _ (remapSelf_strictMono sti x y hxy) ?_
  have := remapSelf_le sti y
  omega

theorem psiMap_mem (W : ℕ) (tbl : List (ℕ × ℕ × ℕ)) (hwf : tableWF W tbl = true)
    (sti : ℤ) (x : ℕ) (hx : x + 2 ≤ sumCounts tbl) :
    psiMap W tbl sti x ∈ bucketPositions tbl := by
  unfold psiMap
  refine poolToAbs_mem W tbl hwf _ ?_
  have := remapSelf_le sti x
  omega

theorem length_filter_split {α : Type} (l : List α) (p : α → Bool) :
    (l.filter p).length + (l.filter (fun a => !(p a))).length = l.length := by
  induction l with
  | nil => rfl
  | cons a l ih =>
    by_cases h : p a = true <;> simp [List.filter_cons, h] <;> omega

theorem nodup_all_eq_len_le_one {α : Type} (l : List α) (hnd : l.Nodup)
    (h : ∀ x ∈ l, ∀ y ∈ l, x = y) : l.length ≤ 1 := by
  cases l with
  | nil => simp
  | cons x rest =>
    cases rest with
    | nil => simp
    | cons y rest' =>
      exfalso
      rw [List.nodup_cons] at hnd
      exact hnd.1 (by rw [h x (by simp) y (by simp)]; simp)

theorem bucketPositions_length (tbl : List (ℕ × ℕ × ℕ)) :
    (bucketPositions tbl).length = sumCounts tbl := by
  induction tbl with
  | nil => simp [bucketPositions, sumCounts]
  | cons e rest ih =>
    simp only [bucketPositions, List.flatMap_cons, List.length_append,
      List.length_map, List.length_range] at ih ⊢
    rw [ih, sumCounts_cons]

/-- At most one covered position can coincide with the querying entity's
target position. -/
theorem filter_self_le_one (tbl : List (ℕ × ℕ × ℕ)) (sti : ℤ)
    (hadj : adjOK tbl = true) :
    sumCounts tbl ≤ ((bucketPositions tbl).filter
      (fun (nb : ℕ) => decide ((nb : ℤ) ≠ sti))).length + 1 := by
  have hsplit := length_filter_split (bucketPositions tbl)
    (fun (nb : ℕ) => decide ((nb : ℤ) ≠ sti))
  have hle1 : ((bucketPositions tbl).filter
      (fun (nb : ℕ) => !(decide ((nb : ℤ) ≠ sti)))).length ≤ 1 := by
    apply nodup_all_eq_len_le_one
    · exact (bucketPositions_nodup tbl hadj).filter _
    · intro x hx y hy
      simp only [List.mem_filter, Bool.not_eq_eq_eq_not, Bool.not_true,
        decide_eq_false_iff_not, not_not] at hx hy
      omega
  have hlen := bucketPositions_length tbl
  omega

theorem set_oob {α : Type} (l : List α) (n : ℕ) (v : α) (h : l.length ≤ n) :
    l.set n v = l := by
  induction l generalizing n with
  | nil => rfl
  | cons a l ih =>
    cases n with
    | zero => simp at h
    | succ m => simp [List.set, ih m (by simpa using h)]

theorem foldWriteOOB (vs : List ℕ) :
    ∀ (row : List ℕ) (cnt : ℕ), row.length ≤ cnt →
      (vs.foldl (fun (st : List ℕ × ℕ) (nb : ℕ) => (st.1.set st.2 nb, st.2 + 1))
        (row, cnt)).1 = row := by
  induction vs with
  | nil => intro row cnt _; rfl
  | cons v vs ih =>
    intro row cnt h
    simp only [List.foldl_cons, set_oob row cnt v h]
    exact ih row (cnt + 1) (by omega)

/-- Writing values into consecutive slots, with out-of-range writes
dropped: the row keeps the first `post.length` values. -/
theorem foldWriteGen (vs : List ℕ) :
    ∀ (pre post : List ℕ),
      (vs.foldl (fun (st : List ℕ × ℕ) (nb : ℕ) => (st.1.set st.2 nb, st.2 + 1))
        (pre ++ post, pre.length)).1
      = pre ++ vs.take post.length ++ post.drop vs.length := by
  induction vs with
  | nil => intro pre post; simp
  | cons v vs ih =>
    intro pre post
    cases post with
    | nil =>
      simp only [List.append_nil, List.foldl_cons,
        set_oob pre pre.length v (le_refl _)]
      rw [foldWriteOOB vs pre (pre.length + 1) (by omega)]
      simp
    | cons p0 post' =>
      simp only [List.foldl_cons, set_append_len, List.set]
      have hstep := ih (pre ++ [v]) post'
      rw [List.append_assoc] at hstep
      simp only [List.singleton_append, List.length_append, List.length_cons,
        List.length_nil] at hstep ⊢
      rw [show pre.length + 1 = pre.length + (0 + 1) by omega] at hstep
      simp only [Nat.zero_add] at hstep
      rw [hstep]
      simp [List.drop]

/-- The direct-enumeration row without a fit assumption: positions beyond
the row are dropped (the compiled kernel's behavior there is undefined;
this total model drops them). -/
theorem agentNeighborsEnum_general (nan n_neighbor : ℕ) (tbl : List (ℕ × ℕ × ℕ))
    (sti : ℤ) :
    agentNeighborsEnum nan n_neighbor tbl sti
      = ((bucketPositions tbl).filter
          (fun (nb : ℕ) => decide ((nb : ℤ) ≠ sti))).take n_neighbor
        ++ (List.replicate n_neighbor nan).drop
          ((bucketPositions tbl).filter
            (fun (nb : ℕ) => decide ((nb : ℤ) ≠ sti))).length := by
  unfold agentNeighborsEnum
  rw [foldl_ite_filter (fun nb => ((nb : ℕ) : ℤ) ≠ sti)
    (fun (st : List ℕ × ℕ) (nb : ℕ) => (st.1.set st.2 nb, st.2 + 1))]
  have h := foldWriteGen ((bucketPositions tbl).filter
    (fun (nb : ℕ) => decide ((nb : ℤ) ≠ sti))) [] (List.replicate n_neighbor nan)
  simp only [List.nil_append, List.length_nil, List.length_replicate] at h
  rw [h]

theorem sampleScan_nil (W : ℕ) (tbl : List (ℕ × ℕ × ℕ)) (sci : ℕ) (sti : ℤ)
    (J : ℕ) (acc : List ℕ) : sampleScan W tbl sci sti J acc [] = acc := rfl

theorem sampleScan_cons (W : ℕ) (tbl : List (ℕ × ℕ × ℕ)) (sci : ℕ) (sti : ℤ)
    (J : ℕ) (acc : List ℕ) (d : ℕ) (ds : List ℕ) :
    sampleScan W tbl sci sti J acc (d :: ds)
      = sampleScan W tbl sci sti (J + 1)
        (acc ++ [if acc.contains (poolToAbs W tbl sci (remapSelf sti (d % (J + 1))))
            then poolToAbs W tbl sci (remapSelf sti J)
            else poolToAbs W tbl sci (remapSelf sti (d % (J + 1)))]) ds := rfl

theorem sampleSet_cons (W : ℕ) (tbl : List (ℕ × ℕ × ℕ)) (sci : ℕ) (sti : ℤ)
    (J : ℕ) (acc : List ℕ) (sel : Finset ℕ) (d : ℕ) (ds : List ℕ) :
    sampleSet W tbl sci sti J acc sel (d :: ds)
      = sampleSet W tbl sci sti (J + 1)
        (acc ++ [if poolToAbs W tbl sci (remapSelf sti (d % (J + 1))) ∈ sel
            then poolToAbs W tbl sci (remapSelf sti J)
            else poolToAbs W tbl sci (remapSelf sti (d % (J + 1)))])
        (insert (if poolToAbs W tbl sci (remapSelf sti (d % (J + 1))) ∈ sel
            then poolToAbs W tbl sci (remapSelf sti J)
            else poolToAbs W tbl sci (remapSelf sti (d % (J + 1)))) sel) ds := rfl

/-- The set-based collision strategy computes the same row as the
linear-scan strategy, given the set mirrors the row. -/
theorem sampleSet_eq_sampleScan (W : ℕ) (tbl : List (ℕ × ℕ × ℕ)) (sci : ℕ)
    (sti : ℤ) :
    ∀ (draws : List ℕ) (J : ℕ) (acc : List ℕ) (sel : Finset ℕ),
      (∀ v, v ∈ sel ↔ v ∈ acc) →
      sampleSet W tbl sci sti J acc sel draws
        = sampleScan W tbl sci sti J acc draws := by
  intro draws
  induction draws with
  | nil => intro J acc sel _; rfl
  | cons d ds ih =>
    intro J acc sel hsel
    rw [sampleSet_cons, sampleScan_cons]
    by_cases h : poolToAbs W tbl sci (remapSelf sti (d % (J + 1))) ∈ sel
    · have hc : acc.contains (poolToAbs W tbl sci (remapSelf sti (d % (J + 1)))) = true := by
        rw [List.elem_iff]
        exact (hsel _).mp h
      rw [if_pos h, if_pos hc]
      apply ih
      intro v
      simp only [Finset.mem_insert, List.mem_append, List.mem_singleton, hsel v]
      tauto
    · have hc2 : ¬ (acc.contains (poolToAbs W tbl sci (remapSelf sti (d % (J + 1)))) = true) := by
        intro hct
        exact h ((hsel _).mpr (List.elem_iff.mp hct))
      rw [if_neg h, if_neg hc2]
      apply ih
      intro v
      simp only [Finset.mem_insert, List.mem_append, List.mem_singleton, hsel v]
      tauto

/-- The sampling loop never repeats a value: a drawn value colliding with
the row is redirected to the image of the current domain boundary `J`,
which is strictly above every raw value used before, and the sampling map
is strictly monotone; each accepted value is checked against the whole
row.  The values are images of raw positions below the final domain
boundary. -/
theorem sampleScan_spec (W : ℕ) (tbl : List (ℕ × ℕ × ℕ))
    (hwf : tableWF W tbl = true) (sti : ℤ) :
    ∀ (draws : List ℕ) (J : ℕ) (acc : List ℕ),
      J + draws.length + 1 ≤ sumCounts tbl →
      acc.Nodup →
      (∀ v ∈ acc, ∃ x, x < J ∧ v = psiMap W tbl sti x) →
      (sampleScan W tbl (tbl.length - 1) sti J acc draws).Nodup ∧
      (∀ v ∈ sampleScan W tbl (tbl.length - 1) sti J acc draws,
        ∃ x, x < J + draws.length ∧ v = psiMap W tbl sti x) ∧
      (sampleScan W tbl (tbl.length - 1) sti J acc draws).length
        = acc.length + draws.length := by
  intro draws
  induction draws with
  | nil =>
    intro J acc _ hnd hmem
    rw [sampleScan_nil]
    exact ⟨hnd, fun v hv => by
      obtain ⟨x, hx, hveq⟩ := hmem v hv
      exact ⟨x, by omega, hveq⟩, by simp⟩
  | cons d ds ih =>
    intro J acc hbound hnd hmem
    rw [sampleScan_cons]
    have hJ2 : J + 2 ≤ sumCounts tbl := by
      simp only [List.length_cons] at hbound
      omega
    by_cases hc : acc.contains (poolToAbs W tbl (tbl.length - 1)
        (remapSelf sti (d % (J + 1)))) = true
    · rw [if_pos hc]
      have hfresh : psiMap W tbl sti J ∉ acc := by
        intro hin
        obtain ⟨x, hx, hveq⟩ := hmem _ hin
        have := psiMap_strictMono W tbl hwf sti x J hx hJ2
        unfold psiMap at hveq
        unfold psiMap at this
        omega
      have hnd' : (acc ++ [poolToAbs W tbl (tbl.length - 1) (remapSelf sti J)]).Nodup := by
        simp only [List.nodup_append, List.nodup_cons, List.not_mem_nil,
          not_false_eq_true, List.nodup_nil, and_true, List.disjoint_singleton]
        exact ⟨hnd, by simpa [psiMap] using hfresh⟩
      have hmem' : ∀ v ∈ acc ++ [poolToAbs W tbl (tbl.length - 1) (remapSelf sti J)],
          ∃ x, x < J + 1 ∧ v = psiMap W tbl sti x := by
        intro v hv
        rcases List.mem_append.mp hv with hv | hv
        · obtain ⟨x, hx, hveq⟩ := hmem v hv
          exact ⟨x, by omega, hveq⟩
        · rw [List.mem_singleton] at hv
          exact ⟨J, by omega, by simpa [psiMap] using hv⟩
      obtain ⟨h1, h2, h3⟩ := ih (J + 1) _ (by simp at hbound ⊢; omega) hnd' hmem'
      refine ⟨h1, ?_, ?_⟩
      · intro v hv
        obtain ⟨x, hx, hveq⟩ := h2 v hv
        exact ⟨x, by simp only [List.length_cons]; omega, hveq⟩
      · rw [h3]
        simp only [List.length_append, List.length_cons, List.length_nil]
        omega
    · rw [if_neg hc]
      have hnotmem : poolToAbs W tbl (tbl.length - 1)
          (remapSelf sti (d % (J + 1))) ∉ acc := by
        intro hin
        exact hc (List.elem_iff.mpr hin)
      have hnd' : (acc ++ [poolToAbs W tbl (tbl.length - 1)
          (remapSelf sti (d % (J + 1)))]).Nodup := by
        simp only [List.nodup_append, List.nodup_cons, List.not_mem_nil,
          not_false_eq_true, List.nodup_nil, and_true, List.disjoint_singleton]
        refine ⟨hnd, ?_⟩
        simpa using hnotmem
      have hmem' : ∀ v ∈ acc ++ [poolToAbs W tbl (tbl.length - 1)
          (remapSelf sti (d % (J + 1)))],
          ∃ x, x < J + 1 ∧ v = psiMap W tbl sti x := by
        intro v hv
        rcases List.mem_append.mp hv with hv | hv
        · obtain ⟨x, hx, hveq⟩ := hmem v hv
          exact ⟨x, by omega, hveq⟩
        · rw [List.mem_singleton] at hv
          exact ⟨d % (J + 1), by
            have := Nat.mod_lt d (show 0 < J + 1 by omega)
            omega, by simpa [psiMap] using hv⟩
      obtain ⟨h1, h2, h3⟩ := ih (J + 1) _ (by simp at hbound ⊢; omega) hnd' hmem'
      refine ⟨h1, ?_, ?_⟩
      · intro v hv
        obtain ⟨x, hx, hveq⟩ := h2 v hv
        exact ⟨x, by simp only [List.length_cons]; omega, hveq⟩
      · rw [h3]
        simp only [List.length_append, List.length_cons, List.length_nil]
        omega

/-- Mapping the occupied slots of a row through a function injective on
their value set preserves distinctness (slots mapped to the sentinel drop
out, which cannot create duplicates). -/
theorem mapped_filter_nodup (nan : ℕ) (f g : ℕ → ℕ) (S : ℕ → Prop) :
    ∀ (row : List ℕ),
      (∀ v, (v = nan → g v = nan) ∧ (v ≠ nan → g v = f v)) →
      (row.filter (fun v => decide (v ≠ nan))).Nodup →
      (∀ v ∈ row, v ≠ nan → S v) →
      (∀ a b, S a → S b → f a = f b → a = b) →
      ((row.map g).filter (fun v => decide (v ≠ nan))).Nodup ∧
      (∀ w ∈ row.map g, w ≠ nan → ∃ v ∈ row, v ≠ nan ∧ w = f v) := by
  intro row
  induction row with
  | nil => intro _ _ _ _; simp
  | cons v rest ih =>
    intro hg hnd hS hinj
    have hndrest : (rest.filter (fun v => decide (v ≠ nan))).Nodup := by
      by_cases hv : v = nan
      · simpa [List.filter_cons, hv] using hnd
      · rw [List.filter_cons, if_pos (by simpa using hv)] at hnd
        exact hnd.of_cons
    obtain ⟨ihnd, ihS⟩ := ih hg hndrest
      (fun w hw hnw => hS w (List.mem_cons_of_mem v hw) hnw) hinj
    by_cases hv : v = nan
    · have hgv : g v = nan := (hg v).1 hv
      constructor
      · simpa [List.map_cons, List.filter_cons, hgv] using ihnd
      · intro w hw hnw
        rcases List.mem_cons.mp hw with hw | hw
        · exact absurd (hw.trans hgv) hnw
        · obtain ⟨u, hu, hun, hweq⟩ := ihS w hw hnw
          exact ⟨u, List.mem_cons_of_mem v hu, hun, hweq⟩
    · have hgv : g v = f v := (hg v).2 hv
      have hSv : S v := hS v (List.mem_cons_self v rest) hv
      have hsecond : ∀ w ∈ (v :: rest).map g, w ≠ nan → ∃ u ∈ v :: rest, u ≠ nan ∧ w = f u := by
        intro w hw hnw
        rcases List.mem_cons.mp hw with hw | hw
        · exact ⟨v, List.mem_cons_self v rest, hv, hw.trans hgv⟩
        · obtain ⟨u, hu, hun, hweq⟩ := ihS w hw hnw
          exact ⟨u, List.mem_cons_of_mem v hu, hun, hweq⟩
      refine ⟨?_, hsecond⟩
      simp only [List.map_cons, List.filter_cons, hgv]
      by_cases hfv : f v = nan
      · rw [if_neg (by simpa using hfv)]
        exact ihnd
      · rw [if_pos (by simpa using hfv)]
        rw [List.nodup_cons]
        refine ⟨?_, ihnd⟩
        intro hfmem
        have hfmem' : f v ∈ rest.map g := List.mem_of_mem_filter hfmem
        obtain ⟨u, hu, hun, hweq⟩ := ihS (f v) hfmem' hfv
        have huv : v = u := hinj v u hSv (hS u (List.mem_cons_of_mem v hu) hun) hweq
        rw [List.filter_cons, if_pos (by simpa using hv)] at hnd
        rw [List.nodup_cons] at hnd
        exact hnd.1 (List.mem_filter.mpr ⟨huv ▸ hu, by simpa using hv⟩)

/-- The per-entity row has pairwise-distinct occupied slots, in both
collision strategies and both branches. -/
theorem entityRow_nodup_mem (W : ℕ) (tbl : List (ℕ × ℕ × ℕ))
    (self_index n_neighbor : ℕ) (mapValue : ℤ) (draws : List ℕ)
    (hwf : tableWF W tbl = true) (hdraws : draws.length = n_neighbor) :
    ((entityRow W tbl self_index n_neighbor mapValue draws).filter
      (fun v => decide (v ≠ nanvalue W))).Nodup ∧
    (∀ v ∈ entityRow W tbl self_index n_neighbor mapValue draws,
      v ≠ nanvalue W → v ∈ bucketPositions tbl) := by
  have hadj : adjOK tbl = true := (tableWF_parts W tbl hwf).2.2.1
  unfold entityRow
  by_cases hbr : (n_neighbor : ℤ) < (sumCounts tbl : ℤ) - 1
  · rw [if_pos hbr]
    have hJ0 : ((sumCounts tbl : ℤ) - 1 - n_neighbor).toNat + draws.length + 1
        = sumCounts tbl := by
      rw [hdraws]
      omega
    have hsample : agentNeighborsSample W tbl (tbl.length - 1)
        (selfPoolIndex tbl self_index mapValue)
        (((sumCounts tbl : ℤ) - 1 : ℤ) - n_neighbor).toNat n_neighbor draws
        = sampleScan W tbl (tbl.length - 1)
          (selfPoolIndex tbl self_index mapValue)
          (((sumCounts tbl : ℤ) - 1 : ℤ) - n_neighbor).toNat [] draws := by
      unfold agentNeighborsSample
      split
      · exact sampleSet_eq_sampleScan W tbl (tbl.length - 1) _ draws _ [] ∅
          (by simp)
      · rfl
    obtain ⟨h1, h2, _⟩ := sampleScan_spec W tbl hwf
      (selfPoolIndex tbl self_index mapValue) draws
      (((sumCounts tbl : ℤ) - 1 : ℤ) - n_neighbor).toNat [] (by omega)
      (by simp) (by simp)
    rw [hsample]
    refine ⟨h1.filter _, ?_⟩
    intro v hv hnv
    obtain ⟨x, hx, hveq⟩ := h2 v hv
    rw [hveq]
    exact psiMap_mem W tbl hwf _ x (by omega)
  · rw [if_neg hbr]
    rw [agentNeighborsEnum_general]
    have hfn : ((bucketPositions tbl).filter
        (fun (nb : ℕ) => decide ((nb : ℤ) ≠ mapValue))).Nodup :=
      (bucketPositions_nodup tbl hadj).filter _
    constructor
    · rw [List.filter_append]
      have hrep : ((List.replicate n_neighbor (nanvalue W)).drop
          ((bucketPositions tbl).filter
            (fun (nb : ℕ) => decide ((nb : ℤ) ≠ mapValue))).length).filter
          (fun v => decide (v ≠ nanvalue W)) = [] := by
        rw [List.drop_replicate]
        simp [List.filter_replicate]
      rw [hrep, List.append_nil]
      exact (((List.take_sublist _ _).nodup hfn).filter _)
    · intro v hv hnv
      rcases List.mem_append.mp hv with hv | hv
      · exact List.mem_of_mem_filter (List.mem_of_mem_take hv)
      · exfalso
        rw [List.drop_replicate] at hv
        exact hnv (List.eq_of_mem_replicate hv)

/-- C3: no result row contains the same target entity id twice: the
occupied slots of a row are pairwise distinct in the raw kernel row (for
both the linear-scan and the set-based collision strategy, and for both
branches), after the copy through the target sort permutation, and after
the final reindexing into the caller's target id space, whenever those
two maps are injective on the positions in play (sort permutations and
id subsets are). -/
theorem C3_row_distinct (W : ℕ) (tbl : List (ℕ × ℕ × ℕ))
    (self_index n_neighbor : ℕ) (mapValue : ℤ) (draws : List ℕ)
    (tsort tids : List ℕ)
    (hwf : tableWF W tbl = true) (hdraws : draws.length = n_neighbor)
    (hts : ∀ v ∈ bucketPositions tbl, v < tsort.length)
    (htsinj : ∀ a, a < tsort.length → ∀ b, b < tsort.length →
      tsort.getD a 0 = tsort.getD b 0 → a = b)
    (htid : ∀ a, a < tsort.length → tsort.getD a 0 < tids.length)
    (htidinj : ∀ a, a < tids.length → ∀ b, b < tids.length →
      tids.getD a 0 = tids.getD b 0 → a = b) :
    ((entityRow W tbl self_index n_neighbor mapValue draws).filter
        (fun v => decide (v ≠ nanvalue W))).Nodup
    ∧ ((rowToTargets (nanvalue W) tsort
          (entityRow W tbl self_index n_neighbor mapValue draws)).filter
        (fun v => decide (v ≠ nanvalue W))).Nodup
    ∧ ∀ r' ∈ reindexTargets (nanvalue W) tids
        [rowToTargets (nanvalue W) tsort
          (entityRow W tbl self_index n_neighbor mapValue draws)],
        (r'.filter (fun v => decide (v ≠ nanvalue W))).Nodup := by
  obtain ⟨hnd, hmem⟩ := entityRow_nodup_mem W tbl self_index n_neighbor
    mapValue draws hwf hdraws
  have hstep1 := mapped_filter_nodup (nanvalue W)
    (fun v => tsort.getD v 0)
    (fun v => if v ≠ nanvalue W then tsort.getD v 0 else v)
    (fun v => v ∈ bucketPositions tbl)
    (entityRow W tbl self_index n_neighbor mapValue draws)
    (by intro v; constructor
        · intro hv; simp [hv]
        · intro hv; simp [hv])
    hnd hmem
    (by intro a b ha hb hfab
        exact htsinj a (hts a ha) b (hts b hb) hfab)
  have hrw : rowToTargets (nanvalue W) tsort
      (entityRow W tbl self_index n_neighbor mapValue draws)
      = (entityRow W tbl self_index n_neighbor mapValue draws).map
        (fun v => if v ≠ nanvalue W then tsort.getD v 0 else v) := rfl
  refine ⟨hnd, by rw [hrw]; exact hstep1.1, ?_⟩
  intro r' hr'
  simp only [reindexTargets, List.map_cons, List.map_nil, List.mem_singleton] at hr'
  subst hr'
  have hstep2 := mapped_filter_nodup (nanvalue W)
    (fun w => tids.getD (min w (tids.length - 1)) 0)
    (fun w => if w = nanvalue W then nanvalue W
      else tids.getD (min w (tids.length - 1)) 0)
    (fun w => ∃ u, u ∈ bucketPositions tbl ∧ w = tsort.getD u 0)
    (rowToTargets (nanvalue W) tsort
      (entityRow W tbl self_index n_neighbor mapValue draws))
    (by intro w; constructor
        · intro hw; simp [hw]
        · intro hw; simp [hw])
    (by rw [hrw]; exact hstep1.1)
    (by rw [hrw]
        intro w hw hnw
        obtain ⟨u, hu, hun, hweq⟩ := hstep1.2 w hw hnw
        exact ⟨u, hmem u hu hun, hweq⟩)
    (by intro a b ha hb hfab
        obtain ⟨ua, hua, haeq⟩ := ha
        obtain ⟨ub, hub, hbeq⟩ := hb
        have halt : a < tids.length := haeq ▸ htid _ (hts ua hua)
        have hblt : b < tids.length := hbeq ▸ htid _ (hts ub hub)
        have hma : min a (tids.length - 1) = a := by omega
        have hmb : min b (tids.length - 1) = b := by omega
        have hfab' : tids.getD a 0 = tids.getD b 0 := by
          simpa [hma, hmb] using hfab
        exact htidinj a halt b hblt hfab')
  exact hstep2.1

/-- Witness for `C3_row_distinct` at a concrete table exercising the
sampling branch. -/
theorem C3_row_distinct_witness :
    (tableWF 8 [(0, 3, 3)] = true ∧ [(1 : ℕ)].length = 1)
    ∧ ((entityRow 8 [(0, 3, 3)] 0 1 0 [1]).filter
        (fun v => decide (v ≠ nanvalue 8))).Nodup :=
  ⟨⟨by decide, rfl⟩,
    (C3_row_distinct 8 [(0, 3, 3)] 0 1 0 [1] [4, 5, 6] [0, 1, 2, 3, 4, 5, 6]
      (by decide) rfl (by decide) (by decide) (by decide) (by decide)).1⟩

theorem foldl_preserve {α β : Type} (P : β → Prop) (f : β → α → β) :
    ∀ (l : List α) (init : β), P init → (∀ b a, P b → P (f b a)) →
      P (l.foldl f init) := by
  intro l
  induction l with
  | nil => intro init h _; exact h
  | cons a l ih => intro init h hstep; exact ih (f init a) (hstep init a h) hstep

theorem insertByKey_length (key : ℕ → ℤ) (i : ℕ) :
    ∀ l : List ℕ, (insertByKey key i l).length = l.length + 1 := by
  intro l
  induction l with
  | nil => rfl
  | cons j js ih =>
    unfold insertByKey
    split
    · simp
    · simp [ih]

theorem argsort_foldl_length (key : ℕ → ℤ) :
    ∀ (l : List ℕ) (acc : List ℕ),
      (l.foldl (fun acc i => insertByKey key i acc) acc).length
        = acc.length + l.length := by
  intro l
  induction l with
  | nil => intro acc; simp
  | cons a l ih =>
    intro acc
    simp only [List.foldl_cons, ih, insertByKey_length, List.length_cons]
    omega

theorem argsort_length (keys : List ℤ) : (argsort keys).length = keys.length := by
  unfold argsort
  rw [argsort_foldl_length]
  simp

theorem process_hashcodes_map_length (lh : List ℤ) (sids tids : List ℕ) :
    (process_hashcodes lh sids tids).map_search_source_to_target.length
      = sids.length := by
  unfold process_hashcodes
  simp [gather, argsort_length]

theorem sampleScan_length (W : ℕ) (tbl : List (ℕ × ℕ × ℕ)) (sci : ℕ) (sti : ℤ) :
    ∀ (draws : List ℕ) (J : ℕ) (acc : List ℕ),
      (sampleScan W tbl sci sti J acc draws).length
        = acc.length + draws.length := by
  intro draws
  induction draws with
  | nil => intro J acc; simp [sampleScan_nil]
  | cons d ds ih =>
    intro J acc
    rw [sampleScan_cons, ih]
    simp only [List.length_append, List.length_cons, List.length_nil]
    omega

theorem agentNeighborsEnum_length (nan n_neighbor : ℕ) (tbl : List (ℕ × ℕ × ℕ))
    (sti : ℤ) : (agentNeighborsEnum nan n_neighbor tbl sti).length = n_neighbor := by
  rw [agentNeighborsEnum_general]
  simp only [List.length_append, List.length_take, List.length_drop,
    List.length_replicate]
  omega

theorem entityRow_length (W : ℕ) (tbl : List (ℕ × ℕ × ℕ))
    (self_index n_neighbor : ℕ) (mapValue : ℤ) (draws : List ℕ)
    (hdraws : draws.length = n_neighbor) :
    (entityRow W tbl self_index n_neighbor mapValue draws).length = n_neighbor := by
  unfold entityRow
  by_cases hbr : (n_neighbor : ℤ) < (sumCounts tbl : ℤ) - 1
  · rw [if_pos hbr]
    unfold agentNeighborsSample
    split
    · rw [sampleSet_eq_sampleScan W tbl (tbl.length - 1) _ draws _ [] ∅ (by simp),
        sampleScan_length]
      simpa using hdraws
    · rw [sampleScan_length]
      simpa using hdraws
  · rw [if_neg hbr]
    exact agentNeighborsEnum_length _ _ _ _

theorem rowToTargets_range (nan : ℕ) (tsort : List ℕ) (row : List ℕ)
    (numTargets : ℕ) (htsv : ∀ u, tsort.getD u 0 < numTargets) :
    ∀ v ∈ rowToTargets nan tsort row, v = nan ∨ v < numTargets := by
  intro v hv
  unfold rowToTargets at hv
  rw [List.mem_map] at hv
  obtain ⟨u, _, rfl⟩ := hv
  by_cases hu : u = nan
  · simp [hu]
  · right
    rw [if_pos hu]
    exact htsv u

theorem perEntityOutRow_length (W : ℕ) (tables : HashTables) (n_neighbor : ℕ)
    (tbl : List (ℕ × ℕ × ℕ)) (self_index : ℕ) (rng : ℕ → ℕ → ℕ) (nis : ℕ) :
    (perEntityOutRow W tables n_neighbor tbl self_index rng nis).length = n_neighbor := by
  unfold perEntityOutRow rowToTargets
  rw [List.length_map]
  exact entityRow_length _ _ _ _ _ _ (by rw [List.length_map, List.length_range])

theorem perEntityOutRow_range (W : ℕ) (tables : HashTables) (n_neighbor : ℕ)
    (tbl : List (ℕ × ℕ × ℕ)) (self_index : ℕ) (rng : ℕ → ℕ → ℕ) (nis : ℕ)
    (numTargets : ℕ)
    (htsv : ∀ u, tables.search_target_hashcodes_sort_indices.getD u 0 < numTargets) :
    ∀ v ∈ perEntityOutRow W tables n_neighbor tbl self_index rng nis,
      v = nanvalue W ∨ v < numTargets := by
  unfold perEntityOutRow
  exact rowToTargets_range (nanvalue W) _ _ numTargets htsv

set_option maxHeartbeats 400000 in
/-- C5: the kernel's result is a matrix with one row per queried source
entity and exactly `n_neighbor` slots per row, every slot being the
sentinel or an index into the target pool; after the final reindexing
(performed exactly when `search_target_ids` is given), every slot is the
sentinel or an element of `search_target_ids`.  The last conjunct ties
the row count to the number of source entities queried. -/
theorem C5_shape_and_range (W : ℕ) (tables : HashTables) (n_neighbor : ℕ)
    (radius : ℤ) (bits : ℕ) (bb : Bbox) (grid : String) (rng : ℕ → ℕ → ℕ)
    (numTargets : ℕ) (tids : List ℕ)
    (htsv : ∀ u, tables.search_target_hashcodes_sort_indices.getD u 0 < numTargets)
    (htids : tids ≠ []) :
    (find_neighbors_numba W tables n_neighbor radius bits bb grid rng).length
        = tables.map_search_source_to_target.length
    ∧ (∀ row ∈ find_neighbors_numba W tables n_neighbor radius bits bb grid rng,
        row.length = n_neighbor)
    ∧ (∀ row ∈ find_neighbors_numba W tables n_neighbor radius bits bb grid rng,
        ∀ v ∈ row, v = nanvalue W ∨ v < numTargets)
    ∧ (∀ row ∈ reindexTargets (nanvalue W) tids
          (find_neighbors_numba W tables n_neighbor radius bits bb grid rng),
        row.length = n_neighbor ∧ ∀ v ∈ row, v = nanvalue W ∨ v ∈ tids)
    ∧ (∀ (lh : List ℤ) (sids tids2 : List ℕ),
        (process_hashcodes lh sids tids2).map_search_source_to_target.length
          = sids.length) := by
  have hmain : (find_neighbors_numba W tables n_neighbor radius bits bb grid rng).length
        = tables.map_search_source_to_target.length
      ∧ ∀ row ∈ find_neighbors_numba W tables n_neighbor radius bits bb grid rng,
          row.length = n_neighbor ∧ ∀ v ∈ row, v = nanvalue W ∨ v < numTargets := by
    simp only [find_neighbors_numba]
    apply foldl_preserve (fun m : List (List ℕ) =>
      m.length = tables.map_search_source_to_target.length
      ∧ ∀ row ∈ m, row.length = n_neighbor ∧ ∀ v ∈ row, v = nanvalue W ∨ v < numTargets)
    · constructor
      · simp
      · intro row hrow
        have := List.eq_of_mem_replicate hrow
        subst this
        constructor
        · simp
        · intro v hv
          exact Or.inl (List.eq_of_mem_replicate hv)
    · intro m u hm
      dsimp only
      apply foldl_preserve (fun m : List (List ℕ) =>
        m.length = tables.map_search_source_to_target.length
        ∧ ∀ row ∈ m, row.length = n_neighbor ∧ ∀ v ∈ row, v = nanvalue W ∨ v < numTargets)
      · exact hm
      · intro m2 nis hm2
        dsimp only
        constructor
        · rw [List.length_set]
          exact hm2.1
        · intro row hrow
          rcases List.mem_or_eq_of_mem_set hrow with hrow | hrow
          · exact hm2.2 row hrow
          · rw [hrow]
            exact ⟨perEntityOutRow_length _ _ _ _ _ _ _,
              perEntityOutRow_range _ _ _ _ _ _ _ _ htsv⟩
  refine ⟨hmain.1, fun row hrow => (hmain.2 row hrow).1,
    fun row hrow => (hmain.2 row hrow).2, ?_, ?_⟩
  · intro row hrow
    unfold reindexTargets at hrow
    rw [List.mem_map] at hrow
    obtain ⟨row0, hrow0, rfl⟩ := hrow
    constructor
    · rw [List.length_map]
      exact (hmain.2 row0 hrow0).1
    · intro v hv
      rw [List.mem_map] at hv
      obtain ⟨u, _, rfl⟩ := hv
      by_cases hu : u = nanvalue W
      · simp [hu]
      · right
        rw [if_neg hu]
        have hlen : 0 < tids.length := List.length_pos.mpr htids
        exact getD_mem_of_lt tids 0 _
          (Nat.lt_of_le_of_lt (Nat.min_le_right _ _) (by omega))
  · intro lh sids tids2
    exact process_hashcodes_map_length lh sids tids2

/-- Witness for C5 at a concrete instance: two entities in distinct
cells, both source and target pools the full population. -/
theorem C5_shape_and_range_witness :
    (find_neighbors_numba 32 (process_hashcodes [10, 20] [0, 1] [0, 1]) 1 5 4
        ⟨0, 16, 0, 16⟩ "orthogonal" (fun _ _ => 0)).length
      = (process_hashcodes [10, 20] [0, 1] [0, 1]).map_search_source_to_target.length := by
  have htsv : ∀ u, (process_hashcodes [10, 20] [0, 1]
      [0, 1]).search_target_hashcodes_sort_indices.getD u 0 < 2 := by
    have h : (process_hashcodes [10, 20] [0, 1]
        [0, 1]).search_target_hashcodes_sort_indices = [1, 0] ∨
        (process_hashcodes [10, 20] [0, 1]
        [0, 1]).search_target_hashcodes_sort_indices = [0, 1] := by decide
    intro u
    rcases h with h | h <;> rw [h] <;>
      match u with
      | 0 => decide
      | 1 => decide
      | n + 2 => simp [List.getD]
  exact (C5_shape_and_range 32 (process_hashcodes [10, 20] [0, 1] [0, 1]) 1 5 4
    ⟨0, 16, 0, 16⟩ "orthogonal" (fun _ _ => 0) 2 [0] htsv (by decide)).1

/-- C4: when the candidate count excluding self fits `n_neighbor`, the
direct-enumeration branch is taken (no draw is consumed): the row is
exactly the non-self covered positions in table order followed by
sentinel padding, it is identical for any two random streams, a row with
zero candidates is entirely sentinel, and the copy into the output maps
exactly the filled slots through the target sort permutation. -/
theorem C4_direct_enumeration (W : ℕ) (tbl : List (ℕ × ℕ × ℕ))
    (self_index n_neighbor : ℕ) (sti : ℤ) (draws draws2 : List ℕ)
    (tsort : List ℕ)
    (hwf : tableWF W tbl = true)
    (hle : ((bucketPositions tbl).filter
      (fun (nb : ℕ) => decide ((nb : ℤ) ≠ sti))).length ≤ n_neighbor) :
    entityRow W tbl self_index n_neighbor sti draws
        = agentNeighborsEnum (nanvalue W) n_neighbor tbl sti
      ∧ entityRow W tbl self_index n_neighbor sti draws
        = (bucketPositions tbl).filter (fun (nb : ℕ) => decide ((nb : ℤ) ≠ sti))
          ++ List.replicate (n_neighbor - ((bucketPositions tbl).filter
            (fun (nb : ℕ) => decide ((nb : ℤ) ≠ sti))).length) (nanvalue W)
      ∧ entityRow W tbl self_index n_neighbor sti draws
        = entityRow W tbl self_index n_neighbor sti draws2
      ∧ ((bucketPositions tbl).filter (fun (nb : ℕ) => decide ((nb : ℤ) ≠ sti)) = []
          → entityRow W tbl self_index n_neighbor sti draws
            = List.replicate n_neighbor (nanvalue W))
      ∧ rowToTargets (nanvalue W) tsort (entityRow W tbl self_index n_neighbor sti draws)
        = ((bucketPositions tbl).filter
            (fun (nb : ℕ) => decide ((nb : ℤ) ≠ sti))).map (fun v => tsort.getD v 0)
          ++ List.replicate (n_neighbor - ((bucketPositions tbl).filter
            (fun (nb : ℕ) => decide ((nb : ℤ) ≠ sti))).length) (nanvalue W) := by
  obtain ⟨hcums, hpos, hadj, hbound⟩ := tableWF_parts W tbl hwf
  have hcnt := filter_self_le_one tbl sti hadj
  have hbranch : ¬((n_neighbor : ℤ) < (sumCounts tbl : ℤ) - 1) := by
    omega
  have hrow : entityRow W tbl self_index n_neighbor sti draws
      = agentNeighborsEnum (nanvalue W) n_neighbor tbl sti := by
    unfold entityRow
    rw [if_neg hbranch]
  have hrow2 := agentNeighborsEnum_eq (nanvalue W) n_neighbor tbl sti hle
  refine ⟨hrow, hrow ▸ hrow2, ?_, ?_, ?_⟩
  · rw [hrow]
    unfold entityRow
    rw [if_neg hbranch]
  · intro hz
    rw [hrow, hrow2, hz]
    simp
  · rw [hrow, hrow2]
    unfold rowToTargets
    rw [List.map_append]
    congr 1
    · apply List.map_congr_left
      intro v hv
      have hvlt := bucketPositions_lt_nan W tbl hwf v (List.mem_of_mem_filter hv)
      have hvne : v ≠ nanvalue W := by
        unfold nanvalue
        omega
      simp [hvne]
    · simp

/-- Witness for `C4_direct_enumeration` at a concrete table. -/
theorem C4_direct_enumeration_witness :
    (tableWF 8 [(0, 2, 2)] = true
      ∧ ((bucketPositions [(0, 2, 2)]).filter
          (fun (nb : ℕ) => decide ((nb : ℤ) ≠ 0))).length ≤ 2)
    ∧ entityRow 8 [(0, 2, 2)] 0 2 0 [3]
        = agentNeighborsEnum (nanvalue 8) 2 [(0, 2, 2)] 0 :=
  ⟨⟨by decide, by decide⟩,
    (C4_direct_enumeration 8 [(0, 2, 2)] 0 2 0 [3] [9] [5, 6]
      (by decide) (by decide)).1⟩

/-- C6: `process_hashcodes` with distinct source and target pools is
claimed to map each sorted source position to that entity's position in
the target pool's sorted order (sentinel if absent).  The code instead
records the entity's rank in the *full* pool's sorted order, masked by a
spurious `isin(ranks, search_target_ids)` test.  At hashcodes
`[10, 20, 30]`, `search_ids = [1]`, `search_target_ids = [1, 2]`, entity
`1` occupies position `0` of the sorted target pool (the spec-modelled
`crossMapSpec` returns `[0]`), but the source returns `[1]`. -/
theorem C6_cross_map_bug :
    (process_hashcodes [10, 20, 30] [1] [1, 2]).map_search_source_to_target = [1]
      ∧ crossMapSpec [10, 20, 30] [1] [1, 2] = [0] := by
  constructor <;> decide

/-- C1: at a concrete input with a strict-subset target pool, the entity
queried is returned as its own neighbor, refuting "the querying entity
never appears as its own neighbor" for every input.  Three entities in
cells `0`, `5`, `6` of a 4×4 orthogonal grid over `[0,16]²`; the query
asks for `n_neighbor = 1` neighbor of entity `1` among targets
`{1, 2}` with radius `5`.  The wrong cross map of `process_hashcodes`
(see the C6 analysis) makes the enumeration branch skip target-pool
position `1` (entity `2`) instead of position `0` (entity `1` itself),
so the returned row for entity `1` is `[1]` — its own id — where the
intended result is `[2]`.  The branch taken is the deterministic
enumeration branch, so the random stream is irrelevant. -/
theorem C1_self_neighbor_bug :
    find_neighbors (NpLocations.arr2d 2 [(2, 2), (6, 6), (10, 6)]) 5 1 4
      ⟨0, 16, 0, 16⟩ "orthogonal" (IdsArg.arr [1]) (IdsArg.arr [1, 2])
      (fun _ _ => 0) = some [[1]] := by
  decide

/-- The post-encoding pipeline never touches the heap. -/
theorem find_neighbors_afterCodes_heap (h : Heap) (codesHandle : ℕ) (radius : ℤ)
    (n_neighbor bits : ℕ) (bb : Bbox) (grid : String)
    (search_ids search_target_ids : IdsArg) (rng : ℕ → ℕ → ℕ) :
    (find_neighbors_afterCodes h codesHandle radius n_neighbor bits bb grid
      search_ids search_target_ids rng).2 = h := by
  unfold find_neighbors_afterCodes
  cases search_ids <;> cases search_target_ids <;> dsimp only <;>
    first
    | rfl
    | (split
       · rfl
       · rfl)

/-- The post-encoding pipeline succeeds exactly when both id arguments
are valid index containers for the code array read from the heap. -/
theorem find_neighbors_afterCodes_isSome (h : Heap) (codesHandle : ℕ) (radius : ℤ)
    (n_neighbor bits : ℕ) (bb : Bbox) (grid : String)
    (search_ids search_target_ids : IdsArg) (rng : ℕ → ℕ → ℕ) :
    (find_neighbors_afterCodes h codesHandle radius n_neighbor bits bb grid
      search_ids search_target_ids rng).1.isSome
      = (idsOk (hreadCodes h codesHandle).length search_ids
          && idsOk (hreadCodes h codesHandle).length search_target_ids) := by
  have hrange : ∀ n : ℕ, (List.range n).all (· < n) = true := by
    intro n
    simp
  unfold find_neighbors_afterCodes idsOk
  cases search_ids <;> cases search_target_ids <;> dsimp only <;>
    (try simp only [Option.isSome_none, Option.isSome_some, Bool.and_false,
      Bool.false_and, Bool.and_true, Bool.true_and, hrange]) <;>
    try rfl
  all_goals
    first
    | (rename_i sids tids
       by_cases hsids : sids.all (· < (hreadCodes h codesHandle).length) <;>
         by_cases htids : tids.all (· < (hreadCodes h codesHandle).length) <;>
         simp [hsids, htids, List.all_eq_true])
    | (rename_i tids
       by_cases htids : tids.all (· < (hreadCodes h codesHandle).length) <;>
         simp [htids, hrange, List.all_eq_true])

/-- C10: `find_neighbors` never mutates the caller's `locations` array:
a 2-D coordinate input is encoded into a freshly allocated hashcode
buffer and the in-place precision reduction targets that fresh buffer; a
1-D hashcode input is precision-reduced with `inplace=False` into a fresh
buffer.  In the heap model, the caller's buffer (handle `0`) is unchanged
on every path, error paths included. -/
theorem C10_locations_not_mutated (locations : NpLocations) (radius : ℤ)
    (n_neighbor bits : ℕ) (bb : Bbox) (grid : String)
    (search_ids search_target_ids : IdsArg) (rng : ℕ → ℕ → ℕ) :
    ((find_neighbors_run locations radius n_neighbor bits bb grid
      search_ids search_target_ids rng).2).bufs.getD 0 (Sum.inr [])
      = callerBuf locations := by
  unfold find_neighbors_run callerBuf
  cases locations with
  | arr2d ncols rows =>
    dsimp only
    split
    · rfl
    split
    · rfl
    cases hEnc : encodeLocations bb bits rows with
    | none => rfl
    | some codes =>
      dsimp only
      rw [find_neighbors_afterCodes_heap]
      rfl
  | arr1d isInt64 codes =>
    dsimp only
    split
    · rfl
    split
    · rfl
    rw [find_neighbors_afterCodes_heap]
    rfl
  | arrNd n =>
    dsimp only
    split <;> rfl

/-- C9 counterexample: at a well-formed input (known grid mode, `N×2`
coordinate array, `None` id arguments) with `bits = 65`, the call fails —
the spec-mandated `ConfigurationError` of `encode` for `bits` exceeding
the 64-bit code width — although none of the three conditions the claim
lists holds.  So "fails exactly when [grid unknown, malformed locations,
invalid id containers]" is refuted. -/
theorem C9_validation_cex :
    validationOkClaimed (NpLocations.arr2d 2 [(0, 0)]) "longlat"
        IdsArg.noneArg IdsArg.noneArg = true
      ∧ find_neighbors (NpLocations.arr2d 2 [(0, 0)]) 1 1 65 ⟨0, 16, 0, 16⟩
          "longlat" IdsArg.noneArg IdsArg.noneArg (fun _ _ => 0) = none := by
  constructor <;> decide

/-- C9 (amended): `find_neighbors` raises an error and produces no result
array exactly when the grid mode is unknown, `locations` is neither an
`N×2` coordinate array nor a 1-D `int64` hashcode array, `search_ids` or
`search_target_ids` is not a valid index container, or — for coordinate
input — `bits` exceeds the capacity of the 64-bit code width.  The
validation failure happens before any neighbor computation and the call
is all-or-nothing: on the error paths no result is produced (and, by
`C10`'s heap analysis, no caller state is touched). -/
theorem C9_validation_amended (locations : NpLocations) (radius : ℤ)
    (n_neighbor bits : ℕ) (bb : Bbox) (grid : String)
    (search_ids search_target_ids : IdsArg) (rng : ℕ → ℕ → ℕ) :
    (find_neighbors locations radius n_neighbor bits bb grid
      search_ids search_target_ids rng).isSome
      = validationOk locations bits grid search_ids search_target_ids := by
  by_cases hg : grid = "longlat" ∨ grid = "orthogonal"
  · have hgb : (decide (grid = "longlat") || decide (grid = "orthogonal")) = true := by
      rcases hg with hg | hg <;> simp [hg]
    cases locations with
    | arr2d ncols rows =>
      by_cases hnc : ncols = 2
      · by_cases hb : bits ≤ 64
        · simp only [find_neighbors, find_neighbors_run, encodeLocations,
            validationOk, validationOkClaimed, nLocationsOf, hgb, hnc, hb,
            if_true, if_neg (not_not_intro hg), reduce_precision_heap,
            reducePrecision, halloc, hwrite, if_pos]
          rw [if_neg (by norm_num)]
          rw [find_neighbors_afterCodes_isSome]
          show (idsOk (List.map (fun (p : ℤ × ℤ) => encodeCoord bb bits p.1 p.2) rows).length
              search_ids
            && idsOk (List.map (fun (p : ℤ × ℤ) => encodeCoord bb bits p.1 p.2) rows).length
              search_target_ids) = _
          simp [Bool.and_comm, Bool.and_assoc, hb]
        · simp [find_neighbors, find_neighbors_run, encodeLocations,
            validationOk, validationOkClaimed, hg, hnc, hb]
      · simp [find_neighbors, find_neighbors_run, validationOk,
          validationOkClaimed, hg, hnc]
    | arr1d isInt64 codes =>
      cases isInt64 with
      | false =>
        simp [find_neighbors, find_neighbors_run, validationOk,
          validationOkClaimed, hg]
      | true =>
        simp only [find_neighbors, find_neighbors_run,
          if_neg (not_not_intro hg), reduce_precision_heap, reducePrecision,
          halloc, hwrite, Bool.false_eq_true, if_false, not_true,
          Bool.not_true]
        rw [find_neighbors_afterCodes_isSome]
        show (idsOk codes.length search_ids && idsOk codes.length search_target_ids) = _
        simp [validationOk, validationOkClaimed, nLocationsOf, hgb, Bool.and_assoc]
    | arrNd n =>
      simp [find_neighbors, find_neighbors_run, validationOk,
        validationOkClaimed, hg]
  · have hgb : (decide (grid = "longlat") || decide (grid = "orthogonal")) = false := by
      obtain ⟨h1, h2⟩ := not_or.mp hg
      simp [h1, h2]
    cases locations <;>
      simp [find_neighbors, find_neighbors_run, validationOk,
        validationOkClaimed, hg, hgb]


/-! #### Searchsorted and list lemmas for the walk equivalence -/

theorem searchsorted_le_length (a : List ℤ) (v : ℤ) :
    searchsorted a v ≤ a.length := by
  induction a with
  | nil => simp [searchsorted]
  | cons x xs ih =>
    by_cases hvx : v ≤ x
    · simp [searchsorted, hvx]
    · simp only [searchsorted, if_neg hvx, List.length_cons]
      omega

theorem searchsorted_eq_length (a : List ℤ) (v : ℤ) (h : ∀ x ∈ a, x < v) :
    searchsorted a v = a.length := by
  induction a with
  | nil => rfl
  | cons x xs ih =>
    have hx : x < v := h x (List.mem_cons_self x xs)
    simp [searchsorted, not_le.mpr hx,
      ih (fun y hy => h y (List.mem_cons_of_mem x hy))]

theorem lt_of_searchsorted_eq_length (a : List ℤ) (v : ℤ)
    (h : searchsorted a v = a.length) : ∀ x ∈ a, x < v := by
  induction a with
  | nil => simp
  | cons x xs ih =>
    by_cases hvx : v ≤ x
    · simp [searchsorted, hvx] at h
    · simp only [searchsorted, if_neg hvx, List.length_cons,
        Nat.add_right_cancel_iff] at h
      intro y hy
      rcases List.mem_cons.mp hy with rfl | hy2
      · exact not_le.mp hvx
      · exact ih h y hy2

theorem searchsorted_eq_zero (a : List ℤ) (v : ℤ) (h : ∀ x ∈ a, v ≤ x) :
    searchsorted a v = 0 := by
  cases a with
  | nil => rfl
  | cons x xs => simp [searchsorted, h x (List.mem_cons_self x xs)]

theorem searchsorted_getD_of_mem (a : List ℤ) (v : ℤ)
    (hs : a.Pairwise (· < ·)) (hv : v ∈ a) :
    searchsorted a v < a.length ∧ a.getD (searchsorted a v) 0 = v := by
  induction a with
  | nil => simp at hv
  | cons x xs ih =>
    rcases List.pairwise_cons.mp hs with ⟨hx, hxs⟩
    by_cases hvx : v ≤ x
    · have hveq : v = x := by
        rcases List.mem_cons.mp hv with rfl | hv2
        · rfl
        · exact absurd (hx v hv2) (not_lt.mpr hvx)
      subst hveq
      simp [searchsorted]
    · have hv2 : v ∈ xs := by
        rcases List.mem_cons.mp hv with rfl | hv2
        · exact absurd le_rfl hvx
        · exact hv2
      obtain ⟨h1, h2⟩ := ih hxs hv2
      constructor
      · simp only [searchsorted, if_neg hvx, List.length_cons]
        omega
      · simpa [searchsorted, hvx] using h2

theorem mem_of_matchedCell (tuniq : List ℤ) (g : ℤ)
    (h : matchedCell tuniq g = true) : g ∈ tuniq := by
  unfold matchedCell at h
  rw [Bool.and_eq_true, decide_eq_true_eq, decide_eq_true_eq] at h
  have := List.getD_eq_getElem tuniq 0 h.1
  rw [this] at h
  exact h.2 ▸ List.getElem_mem h.1

theorem not_mem_of_getD_ne (tuniq : List ℤ) (g : ℤ)
    (hs : tuniq.Pairwise (· < ·))
    (h : tuniq.getD (searchsorted tuniq g) 0 ≠ g) : g ∉ tuniq := by
  intro hmem
  exact h (searchsorted_getD_of_mem tuniq g hs hmem).2

theorem searchsorted_succ_of_not_mem (a : List ℤ) (v : ℤ)
    (hv : v ∉ a) : searchsorted a (v + 1) = searchsorted a v := by
  induction a with
  | nil => rfl
  | cons x xs ih =>
    have hvx : v ≠ x := fun h => hv (h ▸ List.mem_cons_self x xs)
    by_cases hle : v ≤ x
    · have h1 : v + 1 ≤ x := lt_of_le_of_ne hle hvx
      simp [searchsorted, hle, h1]
    · have h1 : ¬(v + 1 ≤ x) := by omega
      simp [searchsorted, hle, h1,
        ih (fun h => hv (List.mem_cons_of_mem x h))]

theorem searchsorted_succ_of_mem (a : List ℤ) (v : ℤ)
    (hs : a.Pairwise (· < ·)) (hv : v ∈ a) :
    searchsorted a (v + 1) = searchsorted a v + 1 := by
  induction a with
  | nil => simp at hv
  | cons x xs ih =>
    rcases List.pairwise_cons.mp hs with ⟨hx, hxs⟩
    by_cases hle : v ≤ x
    · have hveq : v = x := by
        rcases List.mem_cons.mp hv with rfl | hv2
        · rfl
        · exact absurd (hx v hv2) (not_lt.mpr hle)
      subst hveq
      have h1 : ¬(v + 1 ≤ v) := by omega
      have h0 : searchsorted xs (v + 1) = 0 :=
        searchsorted_eq_zero xs (v + 1) (fun y hy => by have := hx y hy; omega)
      simp [searchsorted, h1, h0]
    · have hv2 : v ∈ xs := by
        rcases List.mem_cons.mp hv with rfl | hv2
        · exact absurd le_rfl hle
        · exact hv2
      have h1 : ¬(v + 1 ≤ x) := by omega
      simp [searchsorted, hle, h1, ih hxs hv2]

theorem pairwise_getD_lt (l : List ℕ) (hs : l.Pairwise (· < ·))
    (i j : ℕ) (hij : i < j) (hj : j < l.length) :
    l.getD i 0 < l.getD j 0 := by
  rw [List.getD_eq_getElem l 0 (lt_trans hij hj), List.getD_eq_getElem l 0 hj]
  exact List.pairwise_iff_getElem.mp hs i j (lt_trans hij hj) hj hij

theorem pairwise_getD_le (l : List ℕ) (hs : l.Pairwise (· < ·))
    (i j : ℕ) (hij : i ≤ j) (hj : j < l.length) :
    l.getD i 0 ≤ l.getD j 0 := by
  rcases Nat.lt_or_ge i j with h | h
  · exact Nat.le_of_lt (pairwise_getD_lt l hs i j h hj)
  · have : i = j := by omega
    subst this
    exact le_rfl

theorem getD_set_self (l : List CountRow) (i : ℕ) (a d : CountRow)
    (h : i < l.length) : (l.set i a).getD i d = a := by
  rw [List.getD_eq_getElem _ d (by simpa using h)]
  exact List.getElem_set_self _

theorem getD_set_ne (l : List CountRow) (i j : ℕ) (a d : CountRow)
    (h : i ≠ j) : (l.set i a).getD j d = l.getD j d := by
  rcases Nat.lt_or_ge j l.length with hj | hj
  · rw [List.getD_eq_getElem _ d (by simpa using hj),
      List.getD_eq_getElem _ d hj]
    exact List.getElem_set_ne h _
  · rw [List.getD_eq_default _ d (by simpa using hj),
      List.getD_eq_default _ d hj]

theorem take_set_of_le (l : List CountRow) (i n : ℕ) (a : CountRow)
    (h : n ≤ i) : (l.set i a).take n = l.take n := by
  induction l generalizing i n with
  | nil => simp
  | cons x xs ih =>
    cases i with
    | zero =>
      have : n = 0 := Nat.le_zero.mp h
      subst this
      simp
    | succ i' =>
      cases n with
      | zero => simp
      | succ n' =>
        simp only [List.set_cons_succ, List.take_succ_cons]
        rw [ih i' n' (Nat.le_of_succ_le_succ h)]

theorem take_succ_getD (l : List CountRow) (i : ℕ) (d : CountRow)
    (h : i < l.length) : l.take (i + 1) = l.take i ++ [l.getD i d] := by
  rw [List.take_succ]
  congr 1
  rw [List.getElem?_eq_getElem h]
  rw [List.getD_eq_getElem l d h]
  rfl

theorem coveredPositions_append (r1 r2 : List CountRow) :
    coveredPositions (r1 ++ r2) = coveredPositions r1 ++ coveredPositions r2 := by
  simp [coveredPositions]

theorem range'_merge (s m n : ℕ) :
    List.range' s m ++ List.range' (s + m) n = List.range' s (m + n) := by
  simp [Nat.add_comm]

theorem searchCountsRef_append (tuniq : List ℤ) (cum : List ℕ) (l1 l2 : List ℤ) :
    searchCountsRef tuniq cum (l1 ++ l2)
      = searchCountsRef tuniq cum l1 ++ searchCountsRef tuniq cum l2 := by
  simp [searchCountsRef]

theorem searchCountsRef_nil_of_unmatched (tuniq : List ℤ) (cum : List ℕ)
    (l2 : List ℤ) (h : ∀ g ∈ l2, matchedCell tuniq g = false) :
    searchCountsRef tuniq cum l2 = [] := by
  induction l2 with
  | nil => rfl
  | cons g gs ih =>
    unfold searchCountsRef at ih ⊢
    rw [List.filterMap_cons]
    have hg := h g (List.mem_cons_self g gs)
    simp only [hg, Bool.false_eq_true, if_false]
    exact ih (fun g2 hg2 => h g2 (List.mem_cons_of_mem g hg2))

theorem searchCountsRef_singleton_matched (tuniq : List ℤ) (cum : List ℕ)
    (g : ℤ) (h : matchedCell tuniq g = true) :
    searchCountsRef tuniq cum [g]
      = [(cum.getD (searchsorted tuniq g) 0,
          cum.getD (searchsorted tuniq g + 1) 0
            - cum.getD (searchsorted tuniq g) 0)] := by
  simp [searchCountsRef, h]

theorem searchCountsRef_singleton_unmatched (tuniq : List ℤ) (cum : List ℕ)
    (g : ℤ) (h : matchedCell tuniq g = false) :
    searchCountsRef tuniq cum [g] = [] := by
  simp [searchCountsRef, h]

theorem walkStep_broken (W : ℕ) (tuniq : List ℤ) (cum : List ℕ)
    (selfCode : ℤ) (st : WalkState) (g : ℤ) (h : st.broken = true) :
    walkStep W tuniq cum selfCode st g = st := by
  unfold walkStep
  rw [if_pos h]

theorem foldl_walkStep_broken (W : ℕ) (tuniq : List ℤ) (cum : List ℕ)
    (selfCode : ℤ) (rest : List ℤ) (st : WalkState) (h : st.broken = true) :
    rest.foldl (walkStep W tuniq cum selfCode) st = st := by
  induction rest with
  | nil => rfl
  | cons g gs ih =>
    rw [List.foldl_cons, walkStep_broken W tuniq cum selfCode st g h, ih]


theorem getWrapD_coe (a : List ℤ) (s : ℕ) (d : ℤ) :
    getWrapD a (s : ℤ) d = a.getD s d := by
  unfold getWrapD
  rw [if_neg (by omega : ¬((s : ℤ) < 0))]
  simp

theorem getWrapND_coe (a : List ℕ) (s : ℕ) (d : ℕ) :
    getWrapND a (s : ℤ) d = a.getD s d := by
  unfold getWrapND
  rw [if_neg (by omega : ¬((s : ℤ) < 0))]
  simp

theorem matchedCell_intro (tuniq : List ℤ) (g : ℤ)
    (h1 : searchsorted tuniq g < tuniq.length)
    (h2 : tuniq.getD (searchsorted tuniq g) 0 = g) :
    matchedCell tuniq g = true := by
  unfold matchedCell
  rw [Bool.and_eq_true, decide_eq_true_eq, decide_eq_true_eq]
  exact ⟨h1, h2⟩

theorem matchedCell_false_of_getD_ne (tuniq : List ℤ) (g : ℤ)
    (h2 : tuniq.getD (searchsorted tuniq g) 0 ≠ g) :
    matchedCell tuniq g = false := by
  show (decide (searchsorted tuniq g < tuniq.length)
      && decide (tuniq.getD (searchsorted tuniq g) 0 = g)) = false
  rw [decide_eq_false h2, Bool.and_false]

theorem matchedCell_false_of_eq_length (tuniq : List ℤ) (g : ℤ)
    (h1 : searchsorted tuniq g = tuniq.length) :
    matchedCell tuniq g = false := by
  show (decide (searchsorted tuniq g < tuniq.length)
      && decide (tuniq.getD (searchsorted tuniq g) 0 = g)) = false
  rw [h1, decide_eq_false (lt_irrefl _), Bool.false_and]

theorem cum_getD_lt_pow (W : ℕ) (cum : List ℕ) (hbound : ∀ c ∈ cum, c < 2 ^ W)
    (i : ℕ) (hi : i < cum.length) : cum.getD i 0 < 2 ^ W :=
  hbound _ (getD_mem_of_lt cum 0 i hi)

theorem coveredPositions_singleton (e : CountRow) :
    coveredPositions [e] = List.range' e.1 e.2 := by
  simp [coveredPositions]

theorem cov_trim_eq_take_succ (counts : List CountRow) (sci : ℕ)
    (h : sci < counts.length) :
    coveredPositions (trimRows counts sci)
      = coveredPositions (counts.take (sci + 1)) := by
  unfold trimRows
  by_cases hz : (counts.getD sci (0, 0)).2 = 0
  · rw [if_pos hz, take_succ_getD counts sci (0, 0) h, coveredPositions_append,
      coveredPositions_singleton, hz]
    simp
  · rw [if_neg hz]

theorem take_sciStep_eq_trim (counts : List CountRow) (sci : ℕ) :
    counts.take (if (counts.getD sci (0, 0)).2 ≠ 0 then sci + 1 else sci)
      = trimRows counts sci := by
  unfold trimRows
  by_cases hz : (counts.getD sci (0, 0)).2 = 0
  · rw [if_neg (not_not_intro hz), if_pos hz]
  · rw [if_pos hz, if_neg hz]

theorem dropCum_withCumsum_aux (rows : List CountRow)
    (acc : List (ℕ × ℕ × ℕ)) (s : ℕ) :
    dropCum ((rows.foldl
        (fun (a : List (ℕ × ℕ × ℕ) × ℕ) e =>
          (a.1 ++ [(e.1, e.2, a.2 + e.2)], a.2 + e.2)) (acc, s)).1)
      = dropCum acc ++ rows := by
  induction rows generalizing acc s with
  | nil => simp
  | cons e es ih =>
    rw [List.foldl_cons, ih]
    simp [dropCum]

theorem dropCum_withCumsum (rows : List CountRow) :
    dropCum (withCumsum rows) = rows := by
  unfold withCumsum
  have := dropCum_withCumsum_aux rows [] 0
  simpa [dropCum] using this

theorem withCumsum_length (rows : List CountRow) :
    (withCumsum rows).length = rows.length := by
  have := congrArg List.length (dropCum_withCumsum rows)
  simpa [dropCum] using this

theorem dropCum_getD (t : List (ℕ × ℕ × ℕ)) (i : ℕ) (h : i < t.length) :
    (dropCum t).getD i (0, 0) = ((t.getD i (0, 0, 0)).1, (t.getD i (0, 0, 0)).2.1) := by
  unfold dropCum
  rw [List.getD_eq_getElem _ _ (by simpa using h), List.getElem_map,
    List.getD_eq_getElem _ _ h]


/-! #### Walk step equations -/

theorem bumpCount_coe (W : ℕ) (cum : List ℕ) (s : ℕ) (counts : List CountRow) (i : ℕ) :
    bumpCount W cum (s : ℤ) counts i
      = counts.set i ((counts.getD i (0, 0)).1,
          ((counts.getD i (0, 0)).2 + wsub W (cum.getD (s + 1) 0) (cum.getD s 0)) % 2 ^ W) := by
  unfold bumpCount
  rw [show ((s : ℤ) + 1) = ((s + 1 : ℕ) : ℤ) by push_cast; ring]
  rw [getWrapND_coe, getWrapND_coe]

theorem bump_value (W s1 s2 c0 c1 : ℕ) (hsum : s1 + s2 = c0)
    (h01 : c0 ≤ c1) (h1 : c1 < 2 ^ W) :
    s1 + (s2 + wsub W c1 c0) % 2 ^ W = c1 := by
  rw [wsub_exact W c1 c0 h01 h1]
  have he : s2 + (c1 - c0) = c1 - s1 := by omega
  rw [he, Nat.mod_eq_of_lt (by omega)]
  omega

theorem walkStep_contig_break_eq (W : ℕ) (tuniq : List ℤ) (cum : List ℕ)
    (selfCode : ℤ) (counts : List CountRow) (sci : ℕ) (index : ℤ)
    (previous : ℤ) (self : ℕ) (g : ℤ)
    (hg : g = previous + 1)
    (hn : index = (tuniq.length : ℤ)) :
    walkStep W tuniq cum selfCode ⟨counts, sci, index, previous, self, false⟩ g
      = ⟨counts, sci, index, previous, self, true⟩ := by
  unfold walkStep
  rw [if_neg (show ¬(false = true) from Bool.false_ne_true)]
  rw [if_pos hg, if_pos hn]

theorem walkStep_contig_match_eq (W : ℕ) (tuniq : List ℤ) (cum : List ℕ)
    (selfCode : ℤ) (counts : List CountRow) (sci : ℕ) (index : ℤ)
    (previous : ℤ) (self : ℕ) (g : ℤ)
    (hg : g = previous + 1)
    (hn : ¬ index = (tuniq.length : ℤ))
    (hmatch : getWrapD tuniq index 0 = g) :
    walkStep W tuniq cum selfCode ⟨counts, sci, index, previous, self, false⟩ g
      = ⟨bumpCount W cum index counts sci, sci, index + 1, g,
         if g = selfCode then sci else self, false⟩ := by
  unfold walkStep
  rw [if_neg (show ¬(false = true) from Bool.false_ne_true)]
  rw [if_pos hg, if_neg hn]
  dsimp only
  rw [if_pos hmatch]
  by_cases hgs : g = selfCode
  · rw [if_pos hgs]
    dsimp only
    rw [if_pos hgs]
  · rw [if_neg hgs]
    dsimp only
    rw [if_neg hgs]

theorem walkStep_contig_nomatch_eq (W : ℕ) (tuniq : List ℤ) (cum : List ℕ)
    (selfCode : ℤ) (counts : List CountRow) (sci : ℕ) (index : ℤ)
    (previous : ℤ) (self : ℕ) (g : ℤ)
    (hg : g = previous + 1)
    (hn : ¬ index = (tuniq.length : ℤ))
    (hmatch : ¬ getWrapD tuniq index 0 = g) :
    walkStep W tuniq cum selfCode ⟨counts, sci, index, previous, self, false⟩ g
      = ⟨counts, sci, index, g, if g = selfCode then sci else self, false⟩ := by
  unfold walkStep
  rw [if_neg (show ¬(false = true) from Bool.false_ne_true)]
  rw [if_pos hg, if_neg hn]
  dsimp only
  rw [if_neg hmatch]
  by_cases hgs : g = selfCode
  · rw [if_pos hgs]
    dsimp only
    rw [if_pos hgs]
  · rw [if_neg hgs]
    dsimp only
    rw [if_neg hgs]

theorem walkStep_noncontig_break_eq (W : ℕ) (tuniq : List ℤ) (cum : List ℕ)
    (selfCode : ℤ) (counts : List CountRow) (sci : ℕ) (index : ℤ)
    (previous : ℤ) (self : ℕ) (g : ℤ) (sci' : ℕ)
    (hg : ¬ g = previous + 1)
    (hsci' : sci' = if (counts.getD sci (0, 0)).2 ≠ 0 then sci + 1 else sci)
    (hn : ((searchsorted tuniq g : ℕ) : ℤ) = (tuniq.length : ℤ)) :
    walkStep W tuniq cum selfCode ⟨counts, sci, index, previous, self, false⟩ g
      = ⟨counts, sci', index, previous, self, true⟩ := by
  unfold walkStep
  rw [if_neg (show ¬(false = true) from Bool.false_ne_true)]
  rw [if_neg hg]
  rw [if_pos hn]
  dsimp only
  rw [← hsci']

theorem walkStep_noncontig_match_eq (W : ℕ) (tuniq : List ℤ) (cum : List ℕ)
    (selfCode : ℤ) (counts : List CountRow) (sci : ℕ) (index : ℤ)
    (previous : ℤ) (self : ℕ) (g : ℤ) (sci' : ℕ)
    (hg : ¬ g = previous + 1)
    (hsci' : sci' = if (counts.getD sci (0, 0)).2 ≠ 0 then sci + 1 else sci)
    (hn : ¬ ((searchsorted tuniq g : ℕ) : ℤ) = (tuniq.length : ℤ))
    (hmatch : tuniq.getD (searchsorted tuniq g) 0 = g) :
    walkStep W tuniq cum selfCode ⟨counts, sci, index, previous, self, false⟩ g
      = ⟨bumpCount W cum ((searchsorted tuniq g : ℕ) : ℤ)
           (counts.set sci' (cum.getD (searchsorted tuniq g) 0, (counts.getD sci' (0, 0)).2))
           sci',
         sci', ((searchsorted tuniq g : ℕ) : ℤ) + 1, g,
         if g = selfCode then sci' else self, false⟩ := by
  unfold walkStep
  rw [if_neg (show ¬(false = true) from Bool.false_ne_true)]
  rw [if_neg hg]
  rw [if_neg hn]
  dsimp only
  rw [← hsci']
  rw [if_pos hmatch]
  by_cases hgs : g = selfCode
  · rw [if_pos hgs]
    dsimp only
    rw [if_pos hgs]
  · rw [if_neg hgs]
    dsimp only
    rw [if_neg hgs]


/-! #### Walk step preservation -/

theorem walkStep_noncontig_nomatch_eq (W : ℕ) (tuniq : List ℤ) (cum : List ℕ)
    (selfCode : ℤ) (counts : List CountRow) (sci : ℕ) (index : ℤ)
    (previous : ℤ) (self : ℕ) (g : ℤ) (sci' : ℕ)
    (hg : ¬ g = previous + 1)
    (hsci' : sci' = if (counts.getD sci (0, 0)).2 ≠ 0 then sci + 1 else sci)
    (hn : ¬ ((searchsorted tuniq g : ℤ) = (tuniq.length : ℤ)))
    (hmatch : tuniq.getD (searchsorted tuniq g) 0 ≠ g) :
    walkStep W tuniq cum selfCode ⟨counts, sci, index, previous, self, false⟩ g
      = ⟨counts.set sci' (cum.getD (searchsorted tuniq g) 0, (counts.getD sci' (0, 0)).2),
         sci', (searchsorted tuniq g : ℤ), g,
         if g = selfCode then sci' else self, false⟩ := by
  unfold walkStep
  rw [if_neg (show ¬(false = true) from Bool.false_ne_true)]
  rw [if_neg hg]
  rw [if_neg hn]
  dsimp only
  rw [← hsci']
  rw [if_neg hmatch]
  by_cases hgs : g = selfCode
  · rw [if_pos hgs]
    dsimp only
    rw [if_pos hgs]
  · rw [if_neg hgs]
    dsimp only
    rw [if_neg hgs]

theorem walk_step_noncontig (W : ℕ) (tuniq : List ℤ) (cum : List ℕ)
    (selfCode : ℤ) (ncand : ℕ) (pcs : List ℤ)
    (counts : List CountRow) (sci : ℕ) (index : ℤ) (previous : ℤ) (self : ℕ)
    (g : ℤ)
    (htu : tuniq.Pairwise (· < ·))
    (hclen : cum.length = tuniq.length + 1)
    (hcum : cum.Pairwise (· < ·))
    (hbound : ∀ c ∈ cum, c < 2 ^ W)
    (hpcs : pcs.length + 1 ≤ ncand)
    (hinv : walkInvW tuniq cum selfCode ncand pcs ⟨counts, sci, index, previous, self, false⟩)
    (hg : ¬ g = previous + 1) :
    walkInv tuniq cum selfCode ncand (pcs ++ [g])
        (walkStep W tuniq cum selfCode ⟨counts, sci, index, previous, self, false⟩ g)
    ∨ ((walkStep W tuniq cum selfCode ⟨counts, sci, index, previous, self, false⟩ g).broken = true
       ∧ (walkStep W tuniq cum selfCode ⟨counts, sci, index, previous, self, false⟩ g).counts
           = counts
       ∧ (walkStep W tuniq cum selfCode ⟨counts, sci, index, previous, self, false⟩ g).self_index
           = self
       ∧ sci ≤ (walkStep W tuniq cum selfCode
           ⟨counts, sci, index, previous, self, false⟩ g).search_count_index
       ∧ coveredPositions (trimRows
             (walkStep W tuniq cum selfCode ⟨counts, sci, index, previous, self, false⟩ g).counts
             (walkStep W tuniq cum selfCode
               ⟨counts, sci, index, previous, self, false⟩ g).search_count_index)
           = coveredPositions (searchCountsRef tuniq cum pcs)
       ∧ ∀ t ∈ tuniq, t < g) := by
  unfold walkInvW at hinv
  dsimp only at hinv
  obtain ⟨-, hlen, hcnt, hbeyond, hcov, hself⟩ := hinv
  obtain ⟨sci', hsci'⟩ :
      ∃ k, k = if (counts.getD sci (0, 0)).2 ≠ 0 then sci + 1 else sci := ⟨_, rfl⟩
  have hfilt := List.length_filter_le (fun g => matchedCell tuniq g) pcs
  have hfacts : sci ≤ sci'
      ∧ sci' ≤ (pcs.filter (fun g => matchedCell tuniq g)).length
      ∧ (counts.getD sci' (0, 0)).2 = 0 := by
    by_cases hz : (counts.getD sci (0, 0)).2 = 0
    · rw [if_neg (not_not_intro hz)] at hsci'
      rw [if_pos hz] at hcnt
      subst hsci'
      exact ⟨le_rfl, by omega, hz⟩
    · rw [if_pos hz] at hsci'
      rw [if_neg hz] at hcnt
      subst hsci'
      exact ⟨Nat.le_succ sci, by omega,
        by rw [hbeyond (sci + 1) (Nat.lt_succ_self sci)]⟩
  have hsci'lt : sci' < counts.length := by omega
  have htake : counts.take sci' = trimRows counts sci := by
    rw [hsci']
    exact take_sciStep_eq_trim counts sci
  by_cases hbrk : ((searchsorted tuniq g : ℕ) : ℤ) = (tuniq.length : ℤ)
  · right
    rw [walkStep_noncontig_break_eq W tuniq cum selfCode counts sci index previous
      self g sci' hg hsci' hbrk]
    have hall : ∀ t ∈ tuniq, t < g :=
      lt_of_searchsorted_eq_length tuniq g (by exact_mod_cast hbrk)
    refine ⟨rfl, rfl, rfl, hfacts.1, ?_, hall⟩
    show coveredPositions (trimRows counts sci') = _
    have h1 : trimRows counts sci' = counts.take sci' := by
      unfold trimRows
      rw [if_pos hfacts.2.2]
    rw [h1, htake]
    exact hcov
  · left
    have hslt : searchsorted tuniq g < tuniq.length :=
      lt_of_le_of_ne (searchsorted_le_length tuniq g)
        (fun h => hbrk (by exact_mod_cast h))
    have hsplus : searchsorted tuniq g + 1 < cum.length := by omega
    have hd : cum.getD (searchsorted tuniq g) 0
        < cum.getD (searchsorted tuniq g + 1) 0 :=
      pairwise_getD_lt cum hcum _ _ (Nat.lt_succ_self _) hsplus
    have hub : cum.getD (searchsorted tuniq g + 1) 0 < 2 ^ W :=
      cum_getD_lt_pow W cum hbound _ hsplus
    by_cases hmt : tuniq.getD (searchsorted tuniq g) 0 = g
    · -- candidate cell is a target cell: fresh row, start and bucket count
      have hgmem : g ∈ tuniq := by
        rw [← hmt]
        exact getD_mem_of_lt tuniq 0 _ hslt
      have hmc : matchedCell tuniq g = true := matchedCell_intro tuniq g hslt hmt
      have hsucc : searchsorted tuniq (g + 1) = searchsorted tuniq g + 1 :=
        searchsorted_succ_of_mem tuniq g htu hgmem
      rw [walkStep_noncontig_match_eq W tuniq cum selfCode counts sci index previous
        self g sci' hg hsci' hbrk hmt]
      rw [hfacts.2.2, bumpCount_coe]
      rw [getD_set_self counts sci' _ _ hsci'lt]
      dsimp only
      rw [List.set_set, Nat.zero_add,
        wsub_exact W _ _ (le_of_lt hd) hub, Nat.mod_eq_of_lt (by omega)]
      have hrow : (counts.set sci' (cum.getD (searchsorted tuniq g) 0,
          cum.getD (searchsorted tuniq g + 1) 0
            - cum.getD (searchsorted tuniq g) 0)).getD sci' (0, 0)
          = (cum.getD (searchsorted tuniq g) 0,
             cum.getD (searchsorted tuniq g + 1) 0
               - cum.getD (searchsorted tuniq g) 0) :=
        getD_set_self counts sci' _ _ hsci'lt
      unfold walkInv walkInvW
      dsimp only
      refine ⟨⟨rfl, ?_, ?_, ?_, ?_, ?_⟩, ?_, ?_⟩
      · rw [List.length_set]
        exact hlen
      · rw [hrow]
        rw [if_neg (by dsimp only; omega)]
        rw [List.filter_append, List.length_append, List.filter_cons,
          List.filter_nil]
        rw [if_pos (by rw [hmc])]
        dsimp only [List.length_cons, List.length_nil]
        omega
      · intro j hj
        rw [getD_set_ne counts sci' j _ _ (by omega)]
        exact hbeyond j (by omega)
      · rw [cov_trim_eq_take_succ _ sci' (by rw [List.length_set]; exact hsci'lt),
          take_succ_getD _ sci' (0, 0) (by rw [List.length_set]; exact hsci'lt),
          take_set_of_le counts sci' sci' _ le_rfl, htake, hrow,
          coveredPositions_append, coveredPositions_singleton]
        rw [searchCountsRef_append, coveredPositions_append,
          searchCountsRef_singleton_matched tuniq cum g hmc,
          coveredPositions_singleton]
        rw [hcov]
      · intro hmem hmcs
        by_cases hgs : g = selfCode
        · rw [if_pos hgs, ← hgs]
          rw [hrow]
          exact ⟨le_rfl, le_rfl, by omega⟩
        · rw [if_neg hgs]
          have hpmem : selfCode ∈ pcs := by
            rcases List.mem_append.mp hmem with h | h
            · exact h
            · exact absurd (List.mem_singleton.mp h).symm hgs
          obtain ⟨h1, h2, h3⟩ := hself hpmem hmcs
          have hspl : searchsorted tuniq selfCode + 1 < cum.length := by
            have := (searchsorted_getD_of_mem tuniq selfCode htu
              (mem_of_matchedCell tuniq selfCode hmcs)).1
            omega
          have hdself : cum.getD (searchsorted tuniq selfCode) 0
              < cum.getD (searchsorted tuniq selfCode + 1) 0 :=
            pairwise_getD_lt cum hcum _ _ (Nat.lt_succ_self _) hspl
          by_cases hes : self = sci'
          · exfalso
            rw [hes] at h2 h3
            rw [hfacts.2.2] at h3
            omega
          · rw [getD_set_ne counts sci' self _ _ (fun h => hes h.symm)]
            exact ⟨by omega, h2, h3⟩
      · rw [hsucc]
        push_cast
        ring
      · rw [hrow, hsucc]
        dsimp only
        omega
    · -- candidate cell misses the targets: fresh zero row, cursor repositioned
      have hnm : g ∉ tuniq := not_mem_of_getD_ne tuniq g htu hmt
      have hmc : matchedCell tuniq g = false := matchedCell_false_of_getD_ne tuniq g hmt
      have hsucc : searchsorted tuniq (g + 1) = searchsorted tuniq g :=
        searchsorted_succ_of_not_mem tuniq g hnm
      rw [walkStep_noncontig_nomatch_eq W tuniq cum selfCode counts sci index previous
        self g sci' hg hsci' hbrk hmt]
      rw [hfacts.2.2]
      have hrow : (counts.set sci' (cum.getD (searchsorted tuniq g) 0, 0)).getD
          sci' (0, 0) = (cum.getD (searchsorted tuniq g) 0, 0) :=
        getD_set_self counts sci' _ _ hsci'lt
      unfold walkInv walkInvW
      dsimp only
      refine ⟨⟨rfl, ?_, ?_, ?_, ?_, ?_⟩, ?_, ?_⟩
      · rw [List.length_set]
        exact hlen
      · rw [hrow]
        rw [if_pos rfl]
        rw [List.filter_append, List.length_append, List.filter_cons,
          List.filter_nil]
        rw [if_neg (by rw [hmc]; exact Bool.false_ne_true)]
        dsimp only [List.length_nil]
        omega
      · intro j hj
        rw [getD_set_ne counts sci' j _ _ (by omega)]
        exact hbeyond j (by omega)
      · have h1 : trimRows (counts.set sci' (cum.getD (searchsorted tuniq g) 0, 0)) sci'
            = counts.take sci' := by
          unfold trimRows
          rw [hrow]
          rw [if_pos rfl]
          exact take_set_of_le counts sci' sci' _ le_rfl
        rw [h1, htake]
        rw [searchCountsRef_append, coveredPositions_append,
          searchCountsRef_singleton_unmatched tuniq cum g hmc]
        rw [hcov]
        simp [coveredPositions]
      · intro hmem hmcs
        by_cases hgs : g = selfCode
        · rw [← hgs] at hmcs
          rw [hmc] at hmcs
          exact absurd hmcs Bool.false_ne_true
        · rw [if_neg hgs]
          have hpmem : selfCode ∈ pcs := by
            rcases List.mem_append.mp hmem with h | h
            · exact h
            · exact absurd (List.mem_singleton.mp h).symm hgs
          obtain ⟨h1, h2, h3⟩ := hself hpmem hmcs
          have hspl : searchsorted tuniq selfCode + 1 < cum.length := by
            have := (searchsorted_getD_of_mem tuniq selfCode htu
              (mem_of_matchedCell tuniq selfCode hmcs)).1
            omega
          have hdself : cum.getD (searchsorted tuniq selfCode) 0
              < cum.getD (searchsorted tuniq selfCode + 1) 0 :=
            pairwise_getD_lt cum hcum _ _ (Nat.lt_succ_self _) hspl
          by_cases hes : self = sci'
          · exfalso
            rw [hes] at h2 h3
            rw [hfacts.2.2] at h3
            omega
          · rw [getD_set_ne counts sci' self _ _ (fun h => hes h.symm)]
            exact ⟨by omega, h2, h3⟩
      · rw [hsucc]
      · rw [hrow, hsucc]
        dsimp only
        omega


theorem walk_step_contig (W : ℕ) (tuniq : List ℤ) (cum : List ℕ)
    (selfCode : ℤ) (ncand : ℕ) (pcs : List ℤ)
    (counts : List CountRow) (sci : ℕ) (index : ℤ) (previous : ℤ) (self : ℕ)
    (g : ℤ)
    (htu : tuniq.Pairwise (· < ·))
    (hclen : cum.length = tuniq.length + 1)
    (hcum : cum.Pairwise (· < ·))
    (hbound : ∀ c ∈ cum, c < 2 ^ W)
    (hpcs : pcs.length + 1 ≤ ncand)
    (hinv : walkInv tuniq cum selfCode ncand pcs ⟨counts, sci, index, previous, self, false⟩)
    (hg : g = previous + 1) :
    walkInv tuniq cum selfCode ncand (pcs ++ [g])
        (walkStep W tuniq cum selfCode ⟨counts, sci, index, previous, self, false⟩ g)
    ∨ ((walkStep W tuniq cum selfCode ⟨counts, sci, index, previous, self, false⟩ g).broken = true
       ∧ (walkStep W tuniq cum selfCode ⟨counts, sci, index, previous, self, false⟩ g).counts
           = counts
       ∧ (walkStep W tuniq cum selfCode ⟨counts, sci, index, previous, self, false⟩ g).self_index
           = self
       ∧ sci ≤ (walkStep W tuniq cum selfCode
           ⟨counts, sci, index, previous, self, false⟩ g).search_count_index
       ∧ coveredPositions (trimRows
             (walkStep W tuniq cum selfCode ⟨counts, sci, index, previous, self, false⟩ g).counts
             (walkStep W tuniq cum selfCode
               ⟨counts, sci, index, previous, self, false⟩ g).search_count_index)
           = coveredPositions (searchCountsRef tuniq cum pcs)
       ∧ ∀ t ∈ tuniq, t < g) := by
  unfold walkInv walkInvW at hinv
  dsimp only at hinv
  obtain ⟨⟨-, hlen, hcnt, hbeyond, hcov, hself⟩, hidx, hend⟩ := hinv
  rw [← hg] at hidx hend
  have hfilt := List.length_filter_le (fun g => matchedCell tuniq g) pcs
  have hsciM : sci ≤ (pcs.filter (fun g => matchedCell tuniq g)).length := by
    split at hcnt <;> omega
  have hscilt : sci < counts.length := by omega
  by_cases hbrk : index = (tuniq.length : ℤ)
  · right
    rw [walkStep_contig_break_eq W tuniq cum selfCode counts sci index previous
      self g hg hbrk]
    have hseq : searchsorted tuniq g = tuniq.length := by
      rw [hidx] at hbrk
      exact_mod_cast hbrk
    exact ⟨rfl, rfl, rfl, le_rfl, hcov, lt_of_searchsorted_eq_length tuniq g hseq⟩
  · left
    have hslt : searchsorted tuniq g < tuniq.length := by
      have h1 := searchsorted_le_length tuniq g
      rcases Nat.lt_or_ge (searchsorted tuniq g) tuniq.length with h | h
      · exact h
      · exfalso
        apply hbrk
        rw [hidx]
        exact_mod_cast (by omega : searchsorted tuniq g = tuniq.length)
    have hsplus : searchsorted tuniq g + 1 < cum.length := by omega
    have hd : cum.getD (searchsorted tuniq g) 0
        < cum.getD (searchsorted tuniq g + 1) 0 :=
      pairwise_getD_lt cum hcum _ _ (Nat.lt_succ_self _) hsplus
    have hub : cum.getD (searchsorted tuniq g + 1) 0 < 2 ^ W :=
      cum_getD_lt_pow W cum hbound _ hsplus
    by_cases hmt : tuniq.getD (searchsorted tuniq g) 0 = g
    · -- the run continues into the next target cell: extend the current row
      have hgmem : g ∈ tuniq := by
        rw [← hmt]
        exact getD_mem_of_lt tuniq 0 _ hslt
      have hmc : matchedCell tuniq g = true := matchedCell_intro tuniq g hslt hmt
      have hsucc : searchsorted tuniq (g + 1) = searchsorted tuniq g + 1 :=
        searchsorted_succ_of_mem tuniq g htu hgmem
      have hgw : getWrapD tuniq index 0 = g := by
        rw [hidx, getWrapD_coe]
        exact hmt
      rw [walkStep_contig_match_eq W tuniq cum selfCode counts sci index previous
        self g hg hbrk hgw]
      rw [hidx, bumpCount_coe]
      have hncnt : ((counts.getD sci (0, 0)).2
            + wsub W (cum.getD (searchsorted tuniq g + 1) 0)
                (cum.getD (searchsorted tuniq g) 0)) % 2 ^ W
          = (counts.getD sci (0, 0)).2
            + (cum.getD (searchsorted tuniq g + 1) 0
                - cum.getD (searchsorted tuniq g) 0) := by
        rw [wsub_exact W _ _ (le_of_lt hd) hub]
        exact Nat.mod_eq_of_lt (by omega)
      rw [hncnt]
      have hrow : (counts.set sci ((counts.getD sci (0, 0)).1,
          (counts.getD sci (0, 0)).2
            + (cum.getD (searchsorted tuniq g + 1) 0
                - cum.getD (searchsorted tuniq g) 0))).getD sci (0, 0)
          = ((counts.getD sci (0, 0)).1,
             (counts.getD sci (0, 0)).2
               + (cum.getD (searchsorted tuniq g + 1) 0
                   - cum.getD (searchsorted tuniq g) 0)) :=
        getD_set_self counts sci _ _ hscilt
      unfold walkInv walkInvW
      dsimp only
      refine ⟨⟨rfl, ?_, ?_, ?_, ?_, ?_⟩, ?_, ?_⟩
      · rw [List.length_set]
        exact hlen
      · rw [hrow]
        rw [if_neg (by dsimp only; omega)]
        rw [List.filter_append, List.length_append, List.filter_cons,
          List.filter_nil]
        rw [if_pos (by rw [hmc])]
        dsimp only [List.length_cons, List.length_nil]
        omega
      · intro j hj
        rw [getD_set_ne counts sci j _ _ (by omega)]
        exact hbeyond j hj
      · rw [cov_trim_eq_take_succ _ sci (by rw [List.length_set]; exact hscilt),
          take_succ_getD _ sci (0, 0) (by rw [List.length_set]; exact hscilt),
          take_set_of_le counts sci sci _ le_rfl,
          getD_set_self counts sci _ _ hscilt,
          coveredPositions_append, coveredPositions_singleton]
        dsimp only
        rw [← range'_merge (counts.getD sci (0, 0)).1 (counts.getD sci (0, 0)).2
          (cum.getD (searchsorted tuniq g + 1) 0 - cum.getD (searchsorted tuniq g) 0)]
        rw [hend]
        rw [← List.append_assoc]
        rw [← coveredPositions_singleton (counts.getD sci (0, 0)),
          ← coveredPositions_append,
          ← take_succ_getD counts sci (0, 0) hscilt,
          ← cov_trim_eq_take_succ counts sci hscilt, hcov]
        rw [searchCountsRef_append, coveredPositions_append,
          searchCountsRef_singleton_matched tuniq cum g hmc,
          coveredPositions_singleton]
      · intro hmem hmcs
        by_cases hgs : g = selfCode
        · rw [if_pos hgs, ← hgs]
          rw [hrow]
          dsimp only
          exact ⟨le_rfl, by omega, by omega⟩
        · rw [if_neg hgs]
          have hpmem : selfCode ∈ pcs := by
            rcases List.mem_append.mp hmem with h | h
            · exact h
            · exact absurd (List.mem_singleton.mp h).symm hgs
          obtain ⟨h1, h2, h3⟩ := hself hpmem hmcs
          by_cases hes : self = sci
          · rw [hes] at h2 h3 ⊢
            rw [hrow]
            dsimp only
            exact ⟨le_rfl, h2, by omega⟩
          · rw [getD_set_ne counts sci self _ _ (fun h => hes h.symm)]
            exact ⟨h1, h2, h3⟩
      · rw [hsucc]
        push_cast
        ring
      · rw [hrow, hsucc]
        dsimp only
        omega
    · -- the run crosses a candidate cell with no targets: nothing changes
      have hnm : g ∉ tuniq := not_mem_of_getD_ne tuniq g htu hmt
      have hmc : matchedCell tuniq g = false := matchedCell_false_of_getD_ne tuniq g hmt
      have hsucc : searchsorted tuniq (g + 1) = searchsorted tuniq g :=
        searchsorted_succ_of_not_mem tuniq g hnm
      have hgw : ¬ getWrapD tuniq index 0 = g := by
        rw [hidx, getWrapD_coe]
        exact hmt
      rw [walkStep_contig_nomatch_eq W tuniq cum selfCode counts sci index previous
        self g hg hbrk hgw]
      unfold walkInv walkInvW
      dsimp only
      refine ⟨⟨rfl, hlen, ?_, hbeyond, ?_, ?_⟩, ?_, ?_⟩
      · rw [List.filter_append, List.length_append,
          List.filter_cons_of_neg (by simp [hmc]), List.filter_nil]
        dsimp only [List.length_nil]
        omega
      · rw [searchCountsRef_append, coveredPositions_append,
          searchCountsRef_singleton_unmatched tuniq cum g hmc]
        rw [hcov]
        simp [coveredPositions]
      · intro hmem hmcs
        by_cases hgs : g = selfCode
        · rw [← hgs] at hmcs
          rw [hmc] at hmcs
          exact absurd hmcs Bool.false_ne_true
        · rw [if_neg hgs]
          have hpmem : selfCode ∈ pcs := by
            rcases List.mem_append.mp hmem with h | h
            · exact h
            · exact absurd (List.mem_singleton.mp h).symm hgs
          exact hself hpmem hmcs
      · rw [hidx, hsucc]
      · rw [hsucc]
        exact hend


theorem getD_replicate (n j : ℕ) (a : CountRow) :
    (List.replicate n a).getD j a = a := by
  rcases Nat.lt_or_ge j n with h | h
  · rw [List.getD_eq_getElem _ _ (by simpa using h)]
    exact List.getElem_replicate _ _
  · exact List.getD_eq_default _ _ (by simpa using h)

theorem getD_take (l : List CountRow) (k i : ℕ) (d : CountRow) (h : i < k) :
    (l.take k).getD i d = l.getD i d := by
  rcases Nat.lt_or_ge i l.length with hi | hi
  · rw [List.getD_eq_getElem _ _ hi,
      List.getD_eq_getElem _ _ (by rw [List.length_take]; omega)]
    exact List.getElem_take _
  · rw [List.getD_eq_default _ _ hi,
      List.getD_eq_default _ _ (by rw [List.length_take]; omega)]

theorem withCumsum_getD (rows : List CountRow) (i : ℕ) (h : i < rows.length) :
    (((withCumsum rows).getD i (0, 0, 0)).1, ((withCumsum rows).getD i (0, 0, 0)).2.1)
      = rows.getD i (0, 0) := by
  have h2 : i < (withCumsum rows).length := by
    rw [withCumsum_length]
    exact h
  have h3 := dropCum_getD (withCumsum rows) i h2
  rw [dropCum_withCumsum] at h3
  exact h3.symm

theorem walkInvW_init (tuniq : List ℤ) (cum : List ℕ) (selfCode : ℤ) (ncand : ℕ) :
    walkInvW tuniq cum selfCode ncand [] (walkInit ncand) := by
  unfold walkInvW walkInit
  dsimp only
  refine ⟨rfl, List.length_replicate _ _, ?_, ?_, ?_, ?_⟩
  · rw [getD_replicate]
    rw [if_pos rfl]
    simp
  · intro j hj
    exact getD_replicate ncand j (0, 0)
  · unfold trimRows
    rw [getD_replicate]
    rw [if_pos rfl]
    simp [coveredPositions, searchCountsRef]
  · intro h
    exact absurd h (List.not_mem_nil _)

theorem walk_loop (W : ℕ) (tuniq : List ℤ) (cum : List ℕ) (selfCode : ℤ)
    (ncand : ℕ)
    (htu : tuniq.Pairwise (· < ·))
    (hclen : cum.length = tuniq.length + 1)
    (hcum : cum.Pairwise (· < ·))
    (hbound : ∀ c ∈ cum, c < 2 ^ W) :
    ∀ (rest pcs : List ℤ) (st : WalkState),
      rest.Pairwise (· < ·) →
      pcs.length + rest.length = ncand →
      walkInv tuniq cum selfCode ncand pcs st →
      walkPost tuniq cum selfCode (pcs ++ rest)
        (rest.foldl (walkStep W tuniq cum selfCode) st) := by
  intro rest
  induction rest with
  | nil =>
    intro pcs st hp hl hinv
    rw [List.append_nil, List.foldl_nil]
    unfold walkInv walkInvW at hinv
    unfold walkPost
    exact ⟨hinv.1.2.2.2.2.1, hinv.1.2.2.2.2.2⟩
  | cons g rest2 ih =>
    intro pcs st hp hl hinv
    obtain ⟨counts, sci, index, previous, self, broken⟩ := st
    have hinv2 := hinv
    unfold walkInv walkInvW at hinv2
    dsimp only at hinv2
    obtain ⟨⟨hbr, hlen, hcnt, hbeyond, hcov, hself⟩, hidx, hend⟩ := hinv2
    subst hbr
    rw [List.foldl_cons]
    have hlen2 : pcs.length + 1 ≤ ncand := by
      rw [List.length_cons] at hl
      omega
    have hstep : walkInv tuniq cum selfCode ncand (pcs ++ [g])
        (walkStep W tuniq cum selfCode ⟨counts, sci, index, previous, self, false⟩ g)
      ∨ ((walkStep W tuniq cum selfCode
            ⟨counts, sci, index, previous, self, false⟩ g).broken = true
         ∧ (walkStep W tuniq cum selfCode
             ⟨counts, sci, index, previous, self, false⟩ g).counts = counts
         ∧ (walkStep W tuniq cum selfCode
             ⟨counts, sci, index, previous, self, false⟩ g).self_index = self
         ∧ sci ≤ (walkStep W tuniq cum selfCode
             ⟨counts, sci, index, previous, self, false⟩ g).search_count_index
         ∧ coveredPositions (trimRows
               (walkStep W tuniq cum selfCode
                 ⟨counts, sci, index, previous, self, false⟩ g).counts
               (walkStep W tuniq cum selfCode
                 ⟨counts, sci, index, previous, self, false⟩ g).search_count_index)
             = coveredPositions (searchCountsRef tuniq cum pcs)
         ∧ ∀ t ∈ tuniq, t < g) := by
      by_cases hg : g = previous + 1
      · exact walk_step_contig W tuniq cum selfCode ncand pcs counts sci index
          previous self g htu hclen hcum hbound hlen2 hinv hg
      · exact walk_step_noncontig W tuniq cum selfCode ncand pcs counts sci index
          previous self g htu hclen hcum hbound hlen2
          ⟨rfl, hlen, hcnt, hbeyond, hcov, hself⟩ hg
    rcases hstep with hstep | hstep
    · have hrec := ih (pcs ++ [g])
        (walkStep W tuniq cum selfCode ⟨counts, sci, index, previous, self, false⟩ g)
        (List.Pairwise.of_cons hp)
        (by rw [List.length_append, List.length_cons] at *; simp at *; omega)
        hstep
      rw [List.append_assoc, List.singleton_append] at hrec
      exact hrec
    · obtain ⟨hbk, hcounts, hselfidx, hscile, hcover, hall⟩ := hstep
      rw [foldl_walkStep_broken W tuniq cum selfCode rest2 _ hbk]
      have hunm : ∀ c ∈ g :: rest2, matchedCell tuniq c = false := by
        intro c hc
        have hgc : g ≤ c := by
          rcases List.mem_cons.mp hc with rfl | hc2
          · exact le_rfl
          · exact le_of_lt ((List.pairwise_cons.mp hp).1 c hc2)
        exact matchedCell_false_of_eq_length tuniq c
          (searchsorted_eq_length tuniq c
            (fun t ht => lt_of_lt_of_le (hall t ht) hgc))
      have hrefnil : searchCountsRef tuniq cum (g :: rest2) = [] :=
        searchCountsRef_nil_of_unmatched tuniq cum _ hunm
      unfold walkPost
      constructor
      · rw [searchCountsRef_append, hrefnil, List.append_nil]
        exact hcover
      · intro hmem hmcs
        rcases List.mem_append.mp hmem with hpm | hgm
        · have hold := hself hpm hmcs
          rw [hcounts, hselfidx]
          exact ⟨le_trans hold.1 hscile, hold.2.1, hold.2.2⟩
        · exfalso
          have hmem2 : selfCode ∈ tuniq := mem_of_matchedCell tuniq selfCode hmcs
          have h1 := hall selfCode hmem2
          have hgc : g ≤ selfCode := by
            rcases List.mem_cons.mp hgm with rfl | hc2
            · exact le_rfl
            · exact le_of_lt ((List.pairwise_cons.mp hp).1 selfCode hc2)
          omega


/-- C7 counterexample: with strictly increasing target cells 4 and 5
(one member each, `cum = [0,1,2]`), self cell 5 and sorted candidate
cells `[4, 5]`, the walk coalesces the two adjacent matched cells into a
single `(start, count)` run `(0, 2)` and records self-cell index `0`,
while the per-candidate-cell binary-search reference produces one entry
per matched cell, `[(0, 1), (1, 1)]`, with self-cell index `1`. -/
theorem C7_walk_counterexample :
    dropCum (buildSearchCounts 32 [4, 5] [0, 1, 2] 5 [4, 5]).1
        ≠ searchCountsRef [4, 5] [0, 1, 2] [4, 5]
    ∧ (buildSearchCounts 32 [4, 5] [0, 1, 2] 5 [4, 5]).2
        ≠ selfCellIndexRef [4, 5] [4, 5] 5 := by
  decide


/-- C7 (amended): over strictly increasing sorted candidate cells (whose
first element is not `1`, the uninitialised-cursor edge the source never
guards) and strictly increasing target unique codes with a strictly
increasing cumulative-count array bounded by the unsigned width, the
walk's trimmed table covers exactly the same sorted-pool positions as
the per-candidate-cell binary-search reference — the walk merely
coalesces runs of consecutive matched cells into single rows — and the
recorded self-cell index names the row whose run contains the querying
entity's own bucket. -/
theorem C7_walk_equivalence (W : ℕ) (tuniq : List ℤ) (cum : List ℕ)
    (selfCode : ℤ) (cands : List ℤ)
    (htu : tuniq.Pairwise (· < ·))
    (hcands : cands.Pairwise (· < ·))
    (hfirst : cands.head? ≠ some 1)
    (hclen : cum.length = tuniq.length + 1)
    (hcum : cum.Pairwise (· < ·))
    (hbound : ∀ c ∈ cum, c < 2 ^ W) :
    coveredPositions (dropCum (buildSearchCounts W tuniq cum selfCode cands).1)
      = coveredPositions (searchCountsRef tuniq cum cands)
    ∧ (selfCode ∈ cands → matchedCell tuniq selfCode = true →
        (buildSearchCounts W tuniq cum selfCode cands).2
            < (buildSearchCounts W tuniq cum selfCode cands).1.length
        ∧ ((buildSearchCounts W tuniq cum selfCode cands).1.getD
              (buildSearchCounts W tuniq cum selfCode cands).2 (0, 0, 0)).1
            ≤ cum.getD (searchsorted tuniq selfCode) 0
        ∧ cum.getD (searchsorted tuniq selfCode + 1) 0
            ≤ ((buildSearchCounts W tuniq cum selfCode cands).1.getD
                  (buildSearchCounts W tuniq cum selfCode cands).2 (0, 0, 0)).1
              + ((buildSearchCounts W tuniq cum selfCode cands).1.getD
                  (buildSearchCounts W tuniq cum selfCode cands).2 (0, 0, 0)).2.1) := by
  have hpost : walkPost tuniq cum selfCode cands
      (cands.foldl (walkStep W tuniq cum selfCode) (walkInit cands.length)) := by
    cases cands with
    | nil =>
      rw [List.foldl_nil]
      unfold walkPost walkInit
      dsimp only
      constructor
      · unfold trimRows
        rw [getD_replicate]
        rw [if_pos rfl]
        simp [coveredPositions, searchCountsRef]
      · intro h
        exact absurd h (List.not_mem_nil _)
    | cons g1 rest =>
      have hg1 : ¬ g1 = 0 + 1 := by
        intro h
        apply hfirst
        rw [List.head?_cons, h]
        norm_num
      rw [List.foldl_cons]
      have hwi : walkInit (g1 :: rest).length
          = ⟨List.replicate (g1 :: rest).length (0, 0), 0, -1, 0, 0, false⟩ := rfl
      rw [hwi]
      have hinit : walkInvW tuniq cum selfCode (g1 :: rest).length []
          ⟨List.replicate (g1 :: rest).length (0, 0), 0, -1, 0, 0, false⟩ :=
        walkInvW_init tuniq cum selfCode (g1 :: rest).length
      have hstep := walk_step_noncontig W tuniq cum selfCode (g1 :: rest).length []
        (List.replicate (g1 :: rest).length (0, 0)) 0 (-1) 0 0 g1
        htu hclen hcum hbound (by simp) hinit hg1
      rcases hstep with hstep | hstep
      · have hrec := walk_loop W tuniq cum selfCode (g1 :: rest).length htu hclen
          hcum hbound rest [g1] _ (List.Pairwise.of_cons hcands)
          (by simp [Nat.add_comm]) hstep
        rw [List.singleton_append] at hrec
        exact hrec
      · obtain ⟨hbk, hcounts, hselfidx, hscile, hcover, hall⟩ := hstep
        rw [foldl_walkStep_broken W tuniq cum selfCode rest _ hbk]
        have hrefnil : searchCountsRef tuniq cum (g1 :: rest) = [] := by
          apply searchCountsRef_nil_of_unmatched
          intro c hc
          have hgc : g1 ≤ c := by
            rcases List.mem_cons.mp hc with rfl | hc2
            · exact le_rfl
            · exact le_of_lt ((List.pairwise_cons.mp hcands).1 c hc2)
          exact matchedCell_false_of_eq_length tuniq c
            (searchsorted_eq_length tuniq c
              (fun t ht => lt_of_lt_of_le (hall t ht) hgc))
        unfold walkPost
        constructor
        · rw [hrefnil]
          exact hcover
        · intro hmem hmcs
          exfalso
          have hmem2 : selfCode ∈ tuniq := mem_of_matchedCell tuniq selfCode hmcs
          have h1 := hall selfCode hmem2
          have hgc : g1 ≤ selfCode := by
            rcases List.mem_cons.mp hmem with rfl | hc2
            · exact le_rfl
            · exact le_of_lt ((List.pairwise_cons.mp hcands).1 selfCode hc2)
          omega
  have hbs : buildSearchCounts W tuniq cum selfCode cands
      = (withCumsum (trimRows
            (cands.foldl (walkStep W tuniq cum selfCode) (walkInit cands.length)).counts
            (cands.foldl (walkStep W tuniq cum selfCode)
              (walkInit cands.length)).search_count_index),
         (cands.foldl (walkStep W tuniq cum selfCode)
           (walkInit cands.length)).self_index) := rfl
  unfold walkPost at hpost
  obtain ⟨hcov, hselfp⟩ := hpost
  rw [hbs]
  dsimp only
  constructor
  · rw [dropCum_withCumsum]
    exact hcov
  · intro hmem hmc
    obtain ⟨h1, h2, h3⟩ := hselfp hmem hmc
    have hsp : searchsorted tuniq selfCode < tuniq.length :=
      (searchsorted_getD_of_mem tuniq selfCode htu
        (mem_of_matchedCell tuniq selfCode hmc)).1
    have hspl : searchsorted tuniq selfCode + 1 < cum.length := by omega
    have hds : cum.getD (searchsorted tuniq selfCode) 0
        < cum.getD (searchsorted tuniq selfCode + 1) 0 :=
      pairwise_getD_lt cum hcum _ _ (Nat.lt_succ_self _) hspl
    have hcountpos : 0 < ((cands.foldl (walkStep W tuniq cum selfCode)
        (walkInit cands.length)).counts.getD
          (cands.foldl (walkStep W tuniq cum selfCode)
            (walkInit cands.length)).self_index (0, 0)).2 := by
      omega
    have hIlen : (cands.foldl (walkStep W tuniq cum selfCode)
        (walkInit cands.length)).self_index
        < (cands.foldl (walkStep W tuniq cum selfCode)
            (walkInit cands.length)).counts.length := by
      by_contra hcon
      rw [List.getD_eq_default _ _ (by omega)] at hcountpos
      exact absurd hcountpos (by simp)
    have htriml : (cands.foldl (walkStep W tuniq cum selfCode)
        (walkInit cands.length)).self_index
        < (trimRows (cands.foldl (walkStep W tuniq cum selfCode)
            (walkInit cands.length)).counts
          (cands.foldl (walkStep W tuniq cum selfCode)
            (walkInit cands.length)).search_count_index).length := by
      unfold trimRows
      by_cases hz : ((cands.foldl (walkStep W tuniq cum selfCode)
          (walkInit cands.length)).counts.getD
            (cands.foldl (walkStep W tuniq cum selfCode)
              (walkInit cands.length)).search_count_index (0, 0)).2 = 0
      · rw [if_pos hz, List.length_take]
        have hIS : (cands.foldl (walkStep W tuniq cum selfCode)
            (walkInit cands.length)).self_index
            ≠ (cands.foldl (walkStep W tuniq cum selfCode)
                (walkInit cands.length)).search_count_index := by
          intro h
          rw [h, hz] at hcountpos
          omega
        omega
      · rw [if_neg hz, List.length_take]
        omega
    have htrimgetD : (trimRows (cands.foldl (walkStep W tuniq cum selfCode)
          (walkInit cands.length)).counts
        (cands.foldl (walkStep W tuniq cum selfCode)
          (walkInit cands.length)).search_count_index).getD
          (cands.foldl (walkStep W tuniq cum selfCode)
            (walkInit cands.length)).self_index (0, 0)
        = (cands.foldl (walkStep W tuniq cum selfCode)
            (walkInit cands.length)).counts.getD
          (cands.foldl (walkStep W tuniq cum selfCode)
            (walkInit cands.length)).self_index (0, 0) := by
      unfold trimRows
      by_cases hz : ((cands.foldl (walkStep W tuniq cum selfCode)
          (walkInit cands.length)).counts.getD
            (cands.foldl (walkStep W tuniq cum selfCode)
              (walkInit cands.length)).search_count_index (0, 0)).2 = 0
      · rw [if_pos hz]
        apply getD_take
        have hIS : (cands.foldl (walkStep W tuniq cum selfCode)
            (walkInit cands.length)).self_index
            ≠ (cands.foldl (walkStep W tuniq cum selfCode)
                (walkInit cands.length)).search_count_index := by
          intro h
          rw [h, hz] at hcountpos
          omega
        omega
      · rw [if_neg hz]
        apply getD_take
        omega
    have hwc := withCumsum_getD _ _ htriml
    have hfst := congrArg Prod.fst hwc
    have hsnd := congrArg (fun p : CountRow => p.2) hwc
    dsimp only at hfst hsnd
    rw [htrimgetD] at hfst hsnd
    refine ⟨?_, ?_, ?_⟩
    · rw [withCumsum_length]
      exact htriml
    · rw [hfst]
      exact h2
    · rw [hfst, hsnd]
      exact h3


/-- Witness for the amended C7 at the counterexample's own instance: the
coverage equality holds there even though the tables differ row-wise. -/
theorem C7_walk_equivalence_witness :
    coveredPositions (dropCum (buildSearchCounts 32 [4, 5] [0, 1, 2] 5 [4, 5]).1)
      = coveredPositions (searchCountsRef [4, 5] [0, 1, 2] [4, 5]) :=
  (C7_walk_equivalence 32 [4, 5] [0, 1, 2] 5 [4, 5] (by decide) (by decide)
    (by decide) (by decide) (by decide) (by decide)).1


/-! #### Floyd sampling: counting lemmas -/

theorem floydMarg_low (k J s c : ℕ) (h : c < J) :
    floydMarg k J s c = glow k J := by
  cases k with
  | zero => simp [floydMarg, glow]
  | succ k => simp [floydMarg, h]

theorem ghigh_zero (k J : ℕ) : ghigh (k + 1) J 0 = glow (k + 1) J := by
  simp [ghigh, glow]

theorem ghigh_step (k J m : ℕ) (hm : m ≤ J) :
    ghigh (k + 2) J m = (J + 1) * ghigh (k + 1) (J + 1) (m + 1) := by
  obtain ⟨t, rfl⟩ : ∃ t, J = m + t := ⟨J - m, by omega⟩
  show (m + 1) * seedCount (m + t + 1) (k + 1) + (m + t - m) * glow (k + 1) (m + t + 1)
      = (m + t + 1) * ((m + 1 + 1) * seedCount (m + t + 1 + 1) k
          + (m + t + 1 - (m + 1)) * glow k (m + t + 1 + 1))
  rw [show m + t - m = t from by omega, show m + t + 1 - (m + 1) = t from by omega]
  show (m + 1) * ((m + t + 1 + 1) * seedCount (m + t + 1 + 1) k)
      + t * (seedCount (m + t + 1 + 1) k + (m + t + 1) * glow k (m + t + 1 + 1))
      = (m + t + 1) * ((m + 1 + 1) * seedCount (m + t + 1 + 1) k
          + t * glow k (m + t + 1 + 1))
  ring

theorem floydMarg_ghigh : ∀ (k J m c : ℕ), m ≤ J → J ≤ c → c < J + k →
    floydMarg k J m c = ghigh k J m := by
  intro k
  induction k with
  | zero =>
    intro J m c _ h1 h2
    omega
  | succ k ih =>
    intro J m c hm h1 h2
    by_cases hc : c = J
    · subst hc
      simp [floydMarg, ghigh]
    · have hJc : J < c := lt_of_le_of_ne h1 (fun h => hc h.symm)
      show (if c < J then glow (k + 1) J
        else if c = J then ghigh (k + 1) J m
        else (J + 1) * floydMarg k (J + 1) (m + 1) c) = ghigh (k + 1) J m
      rw [if_neg (by omega), if_neg hc]
      cases k with
      | zero => omega
      | succ k2 =>
        rw [ih (J + 1) (m + 1) c (by omega) (by omega) (by omega)]
        exact (ghigh_step k2 J m hm).symm

theorem floydMarg_const (k J c : ℕ) (h : c < J + k) :
    floydMarg k J 0 c = glow k J := by
  by_cases hc : c < J
  · exact floydMarg_low k J 0 c hc
  · cases k with
    | zero => omega
    | succ k2 =>
      rw [floydMarg_ghigh (k2 + 1) J 0 c (by omega) (by omega) h]
      exact ghigh_zero k2 J

theorem floydStep_card (J : ℕ) (sel : Finset ℕ) (d : ℕ)
    (hb : ∀ x ∈ sel, x < J) : (floydStep J sel d).card = sel.card + 1 := by
  unfold floydStep
  dsimp only
  by_cases hx : d % (J + 1) ∈ sel
  · rw [if_pos hx,
      Finset.card_insert_of_not_mem (fun hJ => absurd (hb J hJ) (lt_irrefl J))]
  · rw [if_neg hx, Finset.card_insert_of_not_mem hx]

theorem floydStep_bound (J : ℕ) (sel : Finset ℕ) (d : ℕ)
    (hb : ∀ x ∈ sel, x < J) : ∀ x ∈ floydStep J sel d, x < J + 1 := by
  intro x hx
  unfold floydStep at hx
  rcases Finset.mem_insert.mp hx with h | h
  · subst h
    split
    · omega
    · exact Nat.mod_lt d (by omega)
  · exact lt_trans (hb x h) (Nat.lt_succ_self J)

theorem floydRun_bound : ∀ (ds : List ℕ) (J : ℕ) (sel : Finset ℕ),
    (∀ x ∈ sel, x < J) → ∀ y ∈ floydRun J sel ds, y < J + ds.length := by
  intro ds
  induction ds with
  | nil =>
    intro J sel hb y hy
    have := hb y hy
    simpa using this
  | cons d ds2 ih =>
    intro J sel hb y hy
    have hrec := ih (J + 1) (floydStep J sel d) (floydStep_bound J sel d hb) y hy
    rw [List.length_cons]
    omega

theorem seedsF_card : ∀ (k J : ℕ), (seedsF J k).card = seedCount J k := by
  intro k
  induction k with
  | zero => intro J; rfl
  | succ k ih =>
    intro J
    show ((Finset.range (J + 1) ×ˢ seedsF (J + 1) k).image
        (fun p => p.1 :: p.2)).card = (J + 1) * seedCount (J + 1) k
    rw [Finset.card_image_of_injOn (fun p _ q _ h => by
      simp only [List.cons.injEq] at h
      exact Prod.ext h.1 h.2)]
    rw [Finset.card_product, Finset.card_range, ih (J + 1)]

theorem seedsF_length : ∀ (k J : ℕ) (ds : List ℕ), ds ∈ seedsF J k →
    ds.length = k := by
  intro k
  induction k with
  | zero =>
    intro J ds hds
    have : ds = [] := Finset.mem_singleton.mp hds
    subst this
    rfl
  | succ k ih =>
    intro J ds hds
    obtain ⟨p, hp, hpeq⟩ := Finset.mem_image.mp hds
    subst hpeq
    rw [List.length_cons, ih (J + 1) p.2 (Finset.mem_product.mp hp).2]

theorem sum_ite_mem_card (n : ℕ) (t : Finset ℕ) (ht : t ⊆ Finset.range n)
    (A B : ℕ) :
    (∑ d ∈ Finset.range n, if d ∈ t then A else B)
      = t.card * A + (n - t.card) * B := by
  rw [Finset.sum_ite, Finset.sum_const, Finset.sum_const]
  have h1 : Finset.filter (fun d => d ∈ t) (Finset.range n) = t := by
    ext d
    simp only [Finset.mem_filter]
    exact ⟨fun h => h.2, fun h => ⟨ht h, h⟩⟩
  have h0 : (Finset.filter (fun d => d ∈ t) (Finset.range n)).card
      + (Finset.filter (fun d => ¬ d ∈ t) (Finset.range n)).card
      = (Finset.range n).card :=
    Finset.filter_card_add_filter_neg_card_eq_card _
  rw [h1] at h0 ⊢
  rw [Finset.card_range] at h0
  rw [smul_eq_mul, smul_eq_mul, show (Finset.filter (fun d => ¬ d ∈ t)
    (Finset.range n)).card = n - t.card from by omega]


theorem floyd_master : ∀ (k J : ℕ) (sel : Finset ℕ) (c : ℕ),
    (∀ x ∈ sel, x < J) →
    ((seedsF J k).filter (fun ds => c ∈ floydRun J sel ds)).card
      = if c ∈ sel then seedCount J k else floydMarg k J sel.card c := by
  intro k
  induction k with
  | zero =>
    intro J sel c _
    show ((({[]} : Finset (List ℕ))).filter _).card = _
    rw [Finset.filter_singleton]
    by_cases hc : c ∈ sel
    · rw [if_pos (show c ∈ floydRun J sel [] from hc), if_pos hc]
      rfl
    · rw [if_neg (show ¬ c ∈ floydRun J sel [] from hc), if_neg hc]
      rfl
  | succ k ih =>
    intro J sel c hb
    have hinj : ∀ p ∈ Finset.range (J + 1) ×ˢ seedsF (J + 1) k,
        ∀ q ∈ Finset.range (J + 1) ×ˢ seedsF (J + 1) k,
        (fun p : ℕ × List ℕ => p.1 :: p.2) p
          = (fun p : ℕ × List ℕ => p.1 :: p.2) q → p = q := by
      intro p _ q _ h
      simp only [List.cons.injEq] at h
      exact Prod.ext h.1 h.2
    show (((Finset.range (J + 1) ×ˢ seedsF (J + 1) k).image
        (fun p => p.1 :: p.2)).filter (fun ds => c ∈ floydRun J sel ds)).card = _
    rw [Finset.card_filter, Finset.sum_image hinj, Finset.sum_product]
    have hstep : ∀ d ∈ Finset.range (J + 1),
        (∑ ds ∈ seedsF (J + 1) k,
          if c ∈ floydRun J sel (d :: ds) then 1 else 0)
        = if c ∈ floydStep J sel d then seedCount (J + 1) k
          else floydMarg k (J + 1) (floydStep J sel d).card c := by
      intro d _
      rw [← Finset.card_filter]
      exact ih (J + 1) (floydStep J sel d) c (floydStep_bound J sel d hb)
    rw [Finset.sum_congr rfl hstep]
    by_cases hcsel : c ∈ sel
    · have hconst : ∀ d ∈ Finset.range (J + 1),
          (if c ∈ floydStep J sel d then seedCount (J + 1) k
           else floydMarg k (J + 1) (floydStep J sel d).card c)
          = seedCount (J + 1) k := by
        intro d _
        have hmem : c ∈ floydStep J sel d := by
          unfold floydStep
          dsimp only
          exact Finset.mem_insert_of_mem hcsel
        rw [if_pos hmem]
      rw [Finset.sum_congr rfl hconst, Finset.sum_const, Finset.card_range,
        smul_eq_mul, if_pos hcsel]
      rfl
    · rw [if_neg hcsel]
      rcases lt_trichotomy c J with hlt | heq | hgt
      · -- c already inside the domain but not yet selected
        have hpt : ∀ d ∈ Finset.range (J + 1),
            (if c ∈ floydStep J sel d then seedCount (J + 1) k
             else floydMarg k (J + 1) (floydStep J sel d).card c)
            = if d ∈ ({c} : Finset ℕ) then seedCount (J + 1) k
              else glow k (J + 1) := by
          intro d hd
          rw [Finset.mem_range] at hd
          have hxd : d % (J + 1) = d := Nat.mod_eq_of_lt hd
          by_cases hdc : d = c
          · subst hdc
            have hmem : d ∈ floydStep J sel d := by
              unfold floydStep
              dsimp only
              rw [hxd, if_neg hcsel]
              exact Finset.mem_insert_self d sel
            rw [if_pos hmem, if_pos (Finset.mem_singleton.mpr rfl)]
          · have hni : c ∉ floydStep J sel d := by
              unfold floydStep
              dsimp only
              rw [hxd, Finset.mem_insert]
              rintro (h | h)
              · by_cases hds : d ∈ sel
                · rw [if_pos hds] at h
                  omega
                · rw [if_neg hds] at h
                  exact hdc h.symm
              · exact hcsel h
            rw [if_neg hni, if_neg (fun h => hdc (Finset.mem_singleton.mp h)),
              floydMarg_low k (J + 1) _ c (by omega)]
        rw [Finset.sum_congr rfl hpt,
          sum_ite_mem_card (J + 1) {c}
            (by intro y hy; rw [Finset.mem_singleton] at hy; subst hy
                exact Finset.mem_range.mpr (by omega)) _ _,
          Finset.card_singleton, floydMarg_low (k + 1) J _ c hlt]
        rw [show J + 1 - 1 = J from rfl, one_mul]
        rfl
      · -- c is the boundary value itself
        subst heq
        have hpt : ∀ d ∈ Finset.range (c + 1),
            (if c ∈ floydStep c sel d then seedCount (c + 1) k
             else floydMarg k (c + 1) (floydStep c sel d).card c)
            = if d ∈ insert c sel then seedCount (c + 1) k
              else glow k (c + 1) := by
          intro d hd
          rw [Finset.mem_range] at hd
          have hxd : d % (c + 1) = d := Nat.mod_eq_of_lt hd
          by_cases hdm : d ∈ insert c sel
          · have hmem : c ∈ floydStep c sel d := by
              unfold floydStep
              dsimp only
              rw [hxd]
              rcases Finset.mem_insert.mp hdm with rfl | hds
              · rw [if_neg hcsel]
                exact Finset.mem_insert_self d sel
              · rw [if_pos hds]
                exact Finset.mem_insert_self c sel
            rw [if_pos hmem, if_pos hdm]
          · have hdc : d ≠ c := fun h => hdm (h ▸ Finset.mem_insert_self c sel)
            have hds : d ∉ sel := fun h => hdm (Finset.mem_insert_of_mem h)
            have hni : c ∉ floydStep c sel d := by
              unfold floydStep
              dsimp only
              rw [hxd, if_neg hds, Finset.mem_insert]
              rintro (h | h)
              · exact hdc h.symm
              · exact hcsel h
            rw [if_neg hni, if_neg hdm,
              floydMarg_low k (c + 1) _ c (by omega)]
        rw [Finset.sum_congr rfl hpt,
          sum_ite_mem_card (c + 1) (insert c sel)
            (by intro y hy
                rcases Finset.mem_insert.mp hy with rfl | hys
                · exact Finset.mem_range.mpr (by omega)
                · exact Finset.mem_range.mpr (by have := hb y hys; omega))
            _ _]
        rw [Finset.card_insert_of_not_mem
          (fun h => absurd (hb c h) (lt_irrefl c))]
        show (sel.card + 1) * seedCount (c + 1) k
            + (c + 1 - (sel.card + 1)) * glow k (c + 1)
          = floydMarg (k + 1) c sel.card c
        rw [show c + 1 - (sel.card + 1) = c - sel.card from by omega]
        show (sel.card + 1) * seedCount (c + 1) k
            + (c - sel.card) * glow k (c + 1)
          = if c < c then glow (k + 1) c
            else if c = c then ghigh (k + 1) c sel.card
            else (c + 1) * floydMarg k (c + 1) (sel.card + 1) c
        rw [if_neg (lt_irrefl c), if_pos rfl]
        rfl
      · -- c is still above the domain: nothing can select it this draw
        have hpt : ∀ d ∈ Finset.range (J + 1),
            (if c ∈ floydStep J sel d then seedCount (J + 1) k
             else floydMarg k (J + 1) (floydStep J sel d).card c)
            = floydMarg k (J + 1) (sel.card + 1) c := by
          intro d hd
          rw [Finset.mem_range] at hd
          have hmod := Nat.mod_lt d (show 0 < J + 1 from by omega)
          have hni : c ∉ floydStep J sel d := by
            unfold floydStep
            dsimp only
            rw [Finset.mem_insert]
            rintro (h | h)
            · by_cases hds : d % (J + 1) ∈ sel
              · rw [if_pos hds] at h
                omega
              · rw [if_neg hds] at h
                omega
            · exact absurd (hb c h) (by omega)
          rw [if_neg hni, floydStep_card J sel d hb]
        rw [Finset.sum_congr rfl hpt, Finset.sum_const, Finset.card_range,
          smul_eq_mul]
        show (J + 1) * floydMarg k (J + 1) (sel.card + 1) c
          = if c < J then glow (k + 1) J
            else if c = J then ghigh (k + 1) J sel.card
            else (J + 1) * floydMarg k (J + 1) (sel.card + 1) c
        rw [if_neg (by omega), if_neg (by omega)]


theorem floyd_uniform (k J0 c1 c2 : ℕ) (h1 : c1 < J0 + k) (h2 : c2 < J0 + k) :
    ((seedsF J0 k).filter (fun ds => c1 ∈ floydRun J0 ∅ ds)).card
      = ((seedsF J0 k).filter (fun ds => c2 ∈ floydRun J0 ∅ ds)).card := by
  rw [floyd_master k J0 ∅ c1 (by simp), floyd_master k J0 ∅ c2 (by simp)]
  rw [if_neg (Finset.not_mem_empty c1), if_neg (Finset.not_mem_empty c2),
    Finset.card_empty, floydMarg_const k J0 c1 h1, floydMarg_const k J0 c2 h2]

theorem sampleScan_floyd (W : ℕ) (tbl : List (ℕ × ℕ × ℕ))
    (hwf : tableWF W tbl = true) (sti : ℤ) :
    ∀ (ds : List ℕ) (J : ℕ) (acc : List ℕ) (sel : Finset ℕ),
      (∀ x ∈ sel, x < J) →
      J + ds.length + 1 ≤ sumCounts tbl →
      (∀ nb, nb ∈ acc ↔ ∃ x ∈ sel, psiMap W tbl sti x = nb) →
      ∀ nb, nb ∈ sampleScan W tbl (tbl.length - 1) sti J acc ds
        ↔ ∃ x ∈ floydRun J sel ds, psiMap W tbl sti x = nb := by
  intro ds
  induction ds with
  | nil =>
    intro J acc sel hb hsum hacc nb
    rw [sampleScan_nil]
    exact hacc nb
  | cons d ds2 ih =>
    intro J acc sel hb hsum hacc nb
    rw [sampleScan_cons]
    rw [List.length_cons] at hsum
    have hJ2 : J + 2 ≤ sumCounts tbl := by omega
    have hinj : ∀ y x : ℕ, y ≤ J → x ≤ J →
        psiMap W tbl sti y = psiMap W tbl sti x → y = x := by
      intro y x hy hx heq
      rcases lt_trichotomy y x with h | h | h
      · exact absurd heq
          (ne_of_lt (psiMap_strictMono W tbl hwf sti y x h (by omega)))
      · exact h
      · exact absurd heq.symm
          (ne_of_lt (psiMap_strictMono W tbl hwf sti x y h (by omega)))
    have hxlt : d % (J + 1) < J + 1 := Nat.mod_lt d (by omega)
    have hcont : acc.contains (poolToAbs W tbl (tbl.length - 1)
        (remapSelf sti (d % (J + 1)))) = true ↔ d % (J + 1) ∈ sel := by
      constructor
      · intro hmemb
        obtain ⟨y, hy, hyeq⟩ := (hacc _).mp (List.elem_iff.mp hmemb)
        have hyx : y = d % (J + 1) :=
          hinj y (d % (J + 1)) (le_of_lt (hb y hy)) (by omega) hyeq
        exact hyx ▸ hy
      · intro hmemb
        exact List.elem_iff.mpr ((hacc _).mpr ⟨d % (J + 1), hmemb, rfl⟩)
    show _ ↔ ∃ x ∈ floydRun (J + 1) (floydStep J sel d) ds2,
      psiMap W tbl sti x = nb
    by_cases hcoll : d % (J + 1) ∈ sel
    · rw [if_pos (hcont.mpr hcoll)]
      have hfs : floydStep J sel d = insert J sel := by
        unfold floydStep
        dsimp only
        rw [if_pos hcoll]
      rw [hfs]
      refine ih (J + 1) _ (insert J sel) ?_ (by omega) ?_ nb
      · intro x hx
        rcases Finset.mem_insert.mp hx with rfl | hx2
        · omega
        · exact lt_trans (hb x hx2) (Nat.lt_succ_self J)
      · intro nb2
        rw [List.mem_append, List.mem_singleton]
        constructor
        · rintro (h | h)
          · obtain ⟨x, hx, hxeq⟩ := (hacc nb2).mp h
            exact ⟨x, Finset.mem_insert_of_mem hx, hxeq⟩
          · exact ⟨J, Finset.mem_insert_self J sel, h.symm⟩
        · rintro ⟨x, hx, hxeq⟩
          rcases Finset.mem_insert.mp hx with rfl | hx2
          · exact Or.inr hxeq.symm
          · exact Or.inl ((hacc nb2).mpr ⟨x, hx2, hxeq⟩)
    · rw [if_neg (fun h => hcoll (hcont.mp h))]
      have hfs : floydStep J sel d = insert (d % (J + 1)) sel := by
        unfold floydStep
        dsimp only
        rw [if_neg hcoll]
      rw [hfs]
      refine ih (J + 1) _ (insert (d % (J + 1)) sel) ?_ (by omega) ?_ nb
      · intro x hx
        rcases Finset.mem_insert.mp hx with rfl | hx2
        · omega
        · exact lt_trans (hb x hx2) (Nat.lt_succ_self J)
      · intro nb2
        rw [List.mem_append, List.mem_singleton]
        constructor
        · rintro (h | h)
          · obtain ⟨x, hx, hxeq⟩ := (hacc nb2).mp h
            exact ⟨x, Finset.mem_insert_of_mem hx, hxeq⟩
          · exact ⟨d % (J + 1), Finset.mem_insert_self _ sel, h.symm⟩
        · rintro ⟨x, hx, hxeq⟩
          rcases Finset.mem_insert.mp hx with rfl | hx2
          · exact Or.inr hxeq.symm
          · exact Or.inl ((hacc nb2).mpr ⟨x, hx2, hxeq⟩)


/-- C2: the sampling branch realizes Floyd's algorithm: the uniform
domain `[0, J]` starts with `(totalCandidates + 1) - n_neighbor` values
(`J0 + 1`, where `totalCandidates = sumCounts tbl - 1` counts the
non-self candidates) and grows by one per draw (`floydRun`), each raw
value is remapped past the reserved self index and into the covered
positions by `psiMap`, and a collision with an already-chosen value is
redirected to the current boundary value `J` (`floydStep`); under that
mechanism (first conjunct: the code's row is exactly the image of the
draw-space Floyd run, for both collision strategies) every non-self
candidate position is selected in exactly the same number of equiprobable
draw sequences (second conjunct), i.e. with the same marginal
probability. -/
theorem C2_sampling_uniform (W : ℕ) (tbl : List (ℕ × ℕ × ℕ)) (sti : ℤ)
    (n_neighbor J0 : ℕ) (hwf : tableWF W tbl = true)
    (hJ0 : J0 + n_neighbor + 1 = sumCounts tbl)
    (x1 x2 : ℕ) (hx1 : x1 < J0 + n_neighbor) (hx2 : x2 < J0 + n_neighbor) :
    (∀ ds : List ℕ, ds.length = n_neighbor → ∀ nb,
        nb ∈ agentNeighborsSample W tbl (tbl.length - 1) sti J0 n_neighbor ds
          ↔ ∃ x ∈ floydRun J0 ∅ ds, psiMap W tbl sti x = nb)
    ∧ ((seedsF J0 n_neighbor).filter (fun ds =>
          psiMap W tbl sti x1
            ∈ agentNeighborsSample W tbl (tbl.length - 1) sti J0 n_neighbor ds)).card
      = ((seedsF J0 n_neighbor).filter (fun ds =>
          psiMap W tbl sti x2
            ∈ agentNeighborsSample W tbl (tbl.length - 1) sti J0 n_neighbor ds)).card := by
  have hcorr : ∀ ds : List ℕ, ds.length = n_neighbor → ∀ nb,
      nb ∈ agentNeighborsSample W tbl (tbl.length - 1) sti J0 n_neighbor ds
        ↔ ∃ x ∈ floydRun J0 ∅ ds, psiMap W tbl sti x = nb := by
    intro ds hlen nb
    unfold agentNeighborsSample
    dsimp only
    by_cases h20 : 20 < n_neighbor
    · rw [if_pos h20,
        sampleSet_eq_sampleScan W tbl (tbl.length - 1) sti ds J0 [] ∅ (by simp)]
      exact sampleScan_floyd W tbl hwf sti ds J0 [] ∅ (by simp)
        (by omega) (by simp) nb
    · rw [if_neg h20]
      exact sampleScan_floyd W tbl hwf sti ds J0 [] ∅ (by simp)
        (by omega) (by simp) nb
  refine ⟨hcorr, ?_⟩
  have htrans : ∀ (x : ℕ), x < J0 + n_neighbor →
      (seedsF J0 n_neighbor).filter (fun ds =>
        psiMap W tbl sti x
          ∈ agentNeighborsSample W tbl (tbl.length - 1) sti J0 n_neighbor ds)
      = (seedsF J0 n_neighbor).filter (fun ds => x ∈ floydRun J0 ∅ ds) := by
    intro x hx
    apply Finset.filter_congr
    intro ds hds
    have hlen := seedsF_length n_neighbor J0 ds hds
    rw [hcorr ds hlen]
    constructor
    · rintro ⟨y, hy, heq⟩
      have hyb := floydRun_bound ds J0 ∅ (by simp) y hy
      rw [hlen] at hyb
      have hxy : y = x := by
        rcases lt_trichotomy y x with h | h | h
        · exact absurd heq
            (ne_of_lt (psiMap_strictMono W tbl hwf sti y x h (by omega)))
        · exact h
        · exact absurd heq.symm
            (ne_of_lt (psiMap_strictMono W tbl hwf sti x y h (by omega)))
      exact hxy ▸ hy
    · intro hxr
      exact ⟨x, hxr, rfl⟩
  rw [htrans x1 hx1, htrans x2 hx2]
  exact floyd_uniform n_neighbor J0 x1 x2 hx1 hx2

/-- Witness for C2 at a concrete instance: one bucket of three positions,
one neighbor requested, initial domain bound 1. -/
theorem C2_sampling_uniform_witness :
    ((seedsF 1 1).filter (fun ds =>
        psiMap 32 [(0, 3, 3)] 1 0
          ∈ agentNeighborsSample 32 [(0, 3, 3)] 0 1 1 1 ds)).card
      = ((seedsF 1 1).filter (fun ds =>
          psiMap 32 [(0, 3, 3)] 1 1
            ∈ agentNeighborsSample 32 [(0, 3, 3)] 0 1 1 1 ds)).card :=
  (C2_sampling_uniform 32 [(0, 3, 3)] 1 1 1 (by decide) (by decide)
    0 1 (by decide) (by decide)).2

end Honeybees
